import Mathlib

/-!
# Verification of the openrappter orchestration kernel

Shallow embedding of the four coordination primitives of
`src/python/openrappter/agents/` — the sequential chain (`chain.py`), the DAG
scheduler (`graph.py`), the broadcast coordinator (`broadcast.py`) and the
recursion guard (`subagent.py`) — together with proofs and refutations of the
frozen specification claims.

Modelling conventions:
* Python dicts become association lists (`Dict α`) with insertion-order
  preserving overwrite (`dictInsert`), matching CPython semantics.
* Wall-clock data (durations, timestamps, generated call ids) is not modelled;
  a timeout is modelled as the wrapped call failing, exactly how every
  component treats it.
* A Python function that may raise becomes a function into `Except String _`.
* Agent behaviour (`execute`, `last_data_slush`, `slush_out` of
  `basic_agent.py`) is a deterministic function of the keyword arguments the
  kernel passes in; the kernel treats agents as black boxes.
-/

set_option linter.unusedVariables false

namespace OpenRappter

/-! ## Association-list dictionaries (Python `dict` semantics) -/

/-- A Python dict with `String` keys: insertion-ordered association list. -/
abbrev Dict (α : Type) := List (String × α)

/-- `d[k] = v`: overwrite keeps the original key position, new keys append. -/
def dictInsert {α : Type} : Dict α → String → α → Dict α
  | [], k, v => [(k, v)]
  | (k0, v0) :: rest, k, v =>
    if k0 = k then (k, v) :: rest else (k0, v0) :: dictInsert rest k v

/-- `d.get(k)`. -/
def dictGet {α : Type} (d : Dict α) (k : String) : Option α :=
  match d with
  | [] => none
  | (k0, v0) :: rest => if k0 = k then some v0 else dictGet rest k

/-- `d.get(k, dflt)`. -/
def dictGetD {α : Type} (d : Dict α) (k : String) (dflt : α) : α :=
  (dictGet d k).getD dflt

/-- `d.update(e)`: right-biased merge, `e` wins. -/
def dictUpdate {α : Type} (d e : Dict α) : Dict α :=
  e.foldl (fun acc kv => dictInsert acc kv.1 kv.2) d

/-- `list(d.keys())`. -/
def dictKeys {α : Type} (d : Dict α) : List String := d.map (·.1)

/-- `k in d`. -/
def dictHas {α : Type} (d : Dict α) (k : String) : Bool := (dictGet d k).isSome

/-- `s.add(x)` on a Python set modelled as a duplicate-free list. -/
def setAdd (s : List String) (x : String) : List String :=
  if x ∈ s then s else s ++ [x]

/-! ## Slush: the side-channel of derived signals -/

/-- A slush is a flat key-value map of derived signals (kernel never inspects
the values, so they are modelled as strings). -/
abbrev Slush := Dict String

/-- Python truthiness of an optional dict: `None` and `{}` are falsy. -/
def truthySlush : Option Slush → Bool
  | none => false
  | some s => !s.isEmpty

/-! ## Recursion Guard (`subagent.py`, `SubAgentManager`) -/

/-- The configuration accepted by `SubAgentManager.__init__` (id / name /
description strings are cosmetic and omitted). -/
structure SubAgentConfig where
  maxDepth : Nat := 5
  timeout : Nat := 30000
  allowedAgents : Option (List String) := none
  blockedAgents : List String := []

/-- One call record of the guard's history.  The generated call id and the
wall-clock timestamps are not modelled; the guard's logic never reads them. -/
structure SubAgentCall where
  parentAgentId : String
  targetAgentId : String
  message : String
  depth : Nat
  status : String
deriving Repr, DecidableEq

/-- `SubAgentContext`: call depth and ordered history of prior calls, plus the
`lastSlush` slot filled by a successful sibling invocation. -/
structure SubAgentContext where
  parentAgentId : String := ""
  depth : Nat := 0
  history : List SubAgentCall := []
  lastSlush : Option Slush := none

/-- `SubAgentManager.can_invoke`: depth gate, then block-list, then optional
allow-list. -/
def can_invoke (cfg : SubAgentConfig) (agentId : String) (depth : Nat) : Bool :=
  if depth ≥ cfg.maxDepth then false
  else if agentId ∈ cfg.blockedAgents then false
  else
    match cfg.allowedAgents with
    | some allowed => agentId ∈ allowed
    | none => true

/-- Python `history[-10:]`: the last `n` entries of a list. -/
def takeLast {α : Type} (n : Nat) (l : List α) : List α :=
  l.drop (l.length - n)

/-- The loop-detection count of `SubAgentManager.invoke`: how often the target
appears among the last 10 history entries. -/
def loopWindowCount (history : List SubAgentCall) (target : String) : Nat :=
  ((takeLast 10 history).filter (fun c => c.targetAgentId = target)).length

/-- The result an executor hands back: a payload dict plus the optional
`data_slush` key the guard extracts for sibling chaining. -/
structure AgentResult where
  payload : Dict String
  data_slush : Option Slush := none
deriving Repr, DecidableEq

/-- Executor supplied via `set_executor`: `(agent_id, message, context,
upstream_slush) -> result-or-raise`.  A timeout shows up as `.error`. -/
abbrev SubExecutor :=
  String → String → SubAgentContext → Option Slush → Except String AgentResult

/-- `SubAgentManager.invoke`.  Returns the executor's result together with the
parent context as the call leaves it (its `lastSlush` slot updated when the
result carries a `data_slush`), or the raised error message.  The call-history
bookkeeping (`_active_calls` / `_call_history`) records the same data and is
not separately modelled. -/
def invoke (cfg : SubAgentConfig) (executor : SubExecutor)
    (targetAgentId message : String) (context : SubAgentContext) :
    Except String (AgentResult × SubAgentContext) :=
  if !(can_invoke cfg targetAgentId context.depth) then
    .error ("Cannot invoke agent " ++ targetAgentId ++ ": depth=" ++
      toString context.depth ++ ", maxDepth=" ++ toString cfg.maxDepth)
  else if loopWindowCount context.history targetAgentId ≥ 3 then
    .error ("Recursive loop detected: agent " ++ targetAgentId ++
      " called too many times")
  else
    let call : SubAgentCall :=
      { parentAgentId := context.parentAgentId, targetAgentId := targetAgentId,
        message := message, depth := context.depth, status := "running" }
    let childContext : SubAgentContext :=
      { parentAgentId := targetAgentId, depth := context.depth + 1,
        history := context.history ++ [call], lastSlush := none }
    match executor targetAgentId message childContext context.lastSlush with
    | .ok result =>
      let context2 :=
        match result.data_slush with
        | some s => { context with lastSlush := some s }
        | none => context
      .ok (result, context2)
    | .error e => .error e

/-- `SubAgentManager.create_context`: depth 0, empty history. -/
def create_context (parentAgentId : String) : SubAgentContext :=
  { parentAgentId := parentAgentId, depth := 0, history := [], lastSlush := none }

/-- C3: with the default allow/block lists, `can_invoke(agentId, depth)` is
`true` exactly when `depth < maxDepth` and `false` exactly when
`depth ≥ maxDepth`, for every configured `maxDepth ≥ 0`, every agent id and
every depth. -/
theorem canInvoke_depth_gate (maxDepth : Nat) (agentId : String) (depth : Nat) :
    can_invoke { maxDepth := maxDepth } agentId depth = decide (depth < maxDepth) := by
  by_cases h : depth < maxDepth
  · simp [can_invoke, Nat.not_le.mpr h, h]
  · simp [can_invoke, Nat.le_of_not_lt h, h]

/-- C4: provided the depth/allow/block gate passes, `invoke` raises the
recursive-loop error — for every executor, so before any executor call — iff
the target appears at least 3 times among the last 10 history entries; with
fewer than 3 occurrences it instead performs exactly the guarded executor
call; and history entries before the 10-entry window never change the count. -/
theorem invoke_loop_detection (cfg : SubAgentConfig) (executor : SubExecutor)
    (target message : String) (ctx : SubAgentContext)
    (hgate : can_invoke cfg target ctx.depth = true) :
    (3 ≤ loopWindowCount ctx.history target →
      ∀ executor2 : SubExecutor,
        invoke cfg executor2 target message ctx =
          .error ("Recursive loop detected: agent " ++ target ++
            " called too many times")) ∧
    (loopWindowCount ctx.history target < 3 →
      invoke cfg executor target message ctx =
        (executor target message
          { parentAgentId := target, depth := ctx.depth + 1,
            history := ctx.history ++
              [{ parentAgentId := ctx.parentAgentId, targetAgentId := target,
                 message := message, depth := ctx.depth, status := "running" }],
            lastSlush := none } ctx.lastSlush).map
          (fun result =>
            (result,
              match result.data_slush with
              | some s => { ctx with lastSlush := some s }
              | none => ctx))) ∧
    (∀ older : List SubAgentCall, 10 ≤ ctx.history.length →
      loopWindowCount (older ++ ctx.history) target =
        loopWindowCount ctx.history target) := by
  refine ⟨fun h3 executor2 => ?_, fun hlt => ?_, fun older hlen => ?_⟩
  · simp only [invoke, hgate, Bool.not_true, Bool.false_eq_true, if_false,
      if_pos h3]
  · simp only [invoke, hgate, Bool.not_true, Bool.false_eq_true, if_false,
      if_neg (Nat.not_le.mpr hlt)]
    cases hres : executor target message
        { parentAgentId := target, depth := ctx.depth + 1,
          history := ctx.history ++
            [{ parentAgentId := ctx.parentAgentId, targetAgentId := target,
               message := message, depth := ctx.depth, status := "running" }],
          lastSlush := none } ctx.lastSlush with
    | ok r => simp [hres, Except.map]
    | error e => simp [hres, Except.map]
  · unfold loopWindowCount takeLast
    congr 1
    have hdrop : (older ++ ctx.history).length - 10 =
        older.length + (ctx.history.length - 10) := by
      simp [List.length_append]
      omega
    rw [hdrop, List.drop_append_eq_append_drop]
    have h1 : older.drop (older.length + (ctx.history.length - 10)) = [] :=
      List.drop_eq_nil_of_le (by omega)
    have h2 : older.length + (ctx.history.length - 10) - older.length =
        ctx.history.length - 10 := by omega
    rw [h1, h2, List.nil_append]

/-- Witness for C4 at a concrete input: a context whose last 10 entries contain
the target three times raises the loop error, and one with two occurrences
performs the executor call. -/
theorem invoke_loop_detection_witness :
    (can_invoke { maxDepth := 5 } "a" 1 = true) ∧
    (∀ executor2 : SubExecutor,
      invoke { maxDepth := 5 } executor2 "a" "m"
        { parentAgentId := "root", depth := 1,
          history := [⟨"root", "a", "m", 0, "success"⟩,
                      ⟨"root", "a", "m", 0, "success"⟩,
                      ⟨"root", "a", "m", 0, "success"⟩],
          lastSlush := none } =
        .error ("Recursive loop detected: agent " ++ "a" ++
          " called too many times")) := by
  have h := invoke_loop_detection { maxDepth := 5 }
    (fun _ _ _ _ => .ok { payload := [] }) "a" "m"
    { parentAgentId := "root", depth := 1,
      history := [⟨"root", "a", "m", 0, "success"⟩,
                  ⟨"root", "a", "m", 0, "success"⟩,
                  ⟨"root", "a", "m", 0, "success"⟩],
      lastSlush := none } (by decide)
  exact ⟨by decide, h.1 (by decide)⟩

/-! ## Broadcast Coordinator (`broadcast.py`, `BroadcastManager`) -/

inductive BroadcastMode
  | all
  | race
  | fallback
deriving Repr, DecidableEq

/-- A broadcast group (`create_group` argument).  The optional per-call timeout
is not modelled separately: a timed-out call is an executor failure. -/
structure BroadcastGroup where
  id : String
  name : String := ""
  agentIds : List String
  mode : BroadcastMode

/-- What a failed executor call raises: a message, plus — when the exception
object carries a `result` dict with a `data_slush` key — that slush
(`_broadcast_fallback` extracts it for downstream chaining). -/
structure ExecFailure where
  message : String
  resultSlush : Option Slush := none

/-- Outcome of one executor call. -/
inductive ExecOutcome
  | ok (result : AgentResult)
  | err (e : ExecFailure)

/-- Caller-supplied executor: `(agent_id, message, upstream_slush) -> result`.
The `all`/`race` modes call it with `upstream_slush = None` (the Python
default argument). -/
abbrev BExecutor := String → String → Option Slush → ExecOutcome

/-- An entry of the per-agent outcome map: the result, or the stored
exception. -/
inductive BroadcastOutcome
  | result (r : AgentResult)
  | exc (message : String)
deriving Repr, DecidableEq

/-- `BroadcastResult`. -/
structure BroadcastResult where
  groupId : String
  results : Dict BroadcastOutcome
  firstResponse : Option (String × AgentResult)
  allSucceeded : Bool
  anySucceeded : Bool

/-- `sum(1 for r in results.values() if not isinstance(r, Exception))`. -/
def countSuccesses (d : Dict BroadcastOutcome) : Nat :=
  (d.filter (fun kv =>
    match kv.2 with
    | .result _ => true
    | .exc _ => false)).length

/-- The manager's only state: its `_groups` dict. -/
abbrev BroadcastManager := Dict BroadcastGroup

/-- `BroadcastManager.create_group`. -/
def create_group (m : BroadcastManager) (g : BroadcastGroup) : BroadcastManager :=
  dictInsert m g.id g

/-- The completion-order data that the event loop decides for the concurrent
`all`/`race` modes (the sequential `fallback` mode ignores it):
`order` is the order in which the launched tasks complete, and `slips` are the
tasks whose results still come through after `race` cancels them (cancellation
is best-effort). -/
structure RaceSchedule where
  order : List String
  slips : List String := []

/-- Loop state of `_broadcast_fallback`. -/
structure FallbackState where
  results : Dict BroadcastOutcome := []
  firstResponse : Option (String × AgentResult) := none
  lastSlush : Option Slush := none

/-- The `for agent_id in group['agentIds']` loop of `_broadcast_fallback`:
try targets in order; a success records `firstResponse` and breaks; a failure
is recorded and its attached `data_slush` (if any) becomes the
`upstream_slush` of the next call. -/
def fallbackLoop (executor : BExecutor) (message : String) :
    List String → FallbackState → FallbackState
  | [], st => st
  | agentId :: rest, st =>
    match executor agentId message st.lastSlush with
    | .ok r =>
      { st with results := dictInsert st.results agentId (.result r),
                firstResponse := some (agentId, r) }
    | .err e =>
      let st2 := { st with results := dictInsert st.results agentId (.exc e.message) }
      let st3 :=
        match e.resultSlush with
        | some s => { st2 with lastSlush := some s }
        | none => st2
      fallbackLoop executor message rest st3

/-- `BroadcastManager._broadcast_fallback`. -/
def broadcast_fallback (g : BroadcastGroup) (message : String)
    (executor : BExecutor) : BroadcastResult :=
  let st := fallbackLoop executor message g.agentIds {}
  { groupId := g.id, results := st.results, firstResponse := st.firstResponse,
    allSucceeded := decide (countSuccesses st.results = g.agentIds.length),
    anySucceeded := decide (0 < countSuccesses st.results) }

/-- Convert an executor outcome to the per-agent outcome-map entry
(`run_agent` stores the result on success and the exception on failure). -/
def toBroadcastOutcome : ExecOutcome → BroadcastOutcome
  | .ok r => .result r
  | .err e => .exc e.message

/-- `BroadcastManager._broadcast_all`: every task runs to completion; the
outcome map collects all of them, and `firstResponse` is the first *success*
in completion order (`run_agent` only fills the empty slot on success). -/
def broadcast_all (g : BroadcastGroup) (message : String) (executor : BExecutor)
    (order : List String) : BroadcastResult :=
  let results := order.foldl
    (fun acc aid => dictInsert acc aid (toBroadcastOutcome (executor aid message none))) []
  let firstResponse :=
    (order.find? (fun aid =>
      match executor aid message none with
      | .ok _ => true
      | .err _ => false)).bind (fun aid =>
        match executor aid message none with
        | .ok r => some (aid, r)
        | .err _ => none)
  { groupId := g.id, results := results, firstResponse := firstResponse,
    allSucceeded := decide (countSuccesses results = g.agentIds.length),
    anySucceeded := decide (0 < countSuccesses results) }

/-- `BroadcastManager._broadcast_race`.  The code waits with
`FIRST_COMPLETED`, inspects only the tasks done at that moment (modelled as
the single first completion), then cancels every pending task.  It never waits
for a further completion, so when the first task to complete failed, no
`firstResponse` is ever recorded.  A cancelled task in `slips` evades
cancellation ("slips through before cancellation lands"): it still runs to
completion and records its outcome in the map, after `firstResponse` is
already fixed. -/
def broadcast_race (g : BroadcastGroup) (message : String) (executor : BExecutor)
    (sched : RaceSchedule) : BroadcastResult :=
  match sched.order with
  | [] =>
    -- no tasks: `asyncio.wait` raises, the bare `except` swallows it
    { groupId := g.id, results := [], firstResponse := none,
      allSucceeded := decide (0 = g.agentIds.length), anySucceeded := false }
  | first :: rest =>
    let firstOutcome := executor first message none
    let results0 := dictInsert [] first (toBroadcastOutcome firstOutcome)
    let firstResponse :=
      match firstOutcome with
      | .ok r => some (first, r)
      | .err _ => none
    let results := rest.foldl
      (fun acc aid =>
        if aid ∈ sched.slips then
          dictInsert acc aid (toBroadcastOutcome (executor aid message none))
        else acc) results0
    { groupId := g.id, results := results, firstResponse := firstResponse,
      allSucceeded := decide (countSuccesses results = g.agentIds.length),
      anySucceeded := decide (0 < countSuccesses results) }

/-- `BroadcastManager.broadcast`: look the group up (raising "group not found"
on an unknown id before anything runs), then dispatch on the mode.  The
manager's `_groups` dict is read, never written, so the manager is not part of
the output. -/
def broadcast (m : BroadcastManager) (groupId message : String)
    (executor : BExecutor) (sched : RaceSchedule) : Except String BroadcastResult :=
  match dictGet m groupId with
  | none => .error ("Broadcast group not found: " ++ groupId)
  | some g =>
    match g.mode with
    | .all => .ok (broadcast_all g message executor sched.order)
    | .race => .ok (broadcast_race g message executor sched)
    | .fallback => .ok (broadcast_fallback g message executor)

/-- C9: broadcasting to a group id that is not in the manager fails with the
"group not found" error, identically for every executor and schedule (so no
agent is ever invoked), and the manager's group dict — the only state
`broadcast` can see — is left untouched because the function never writes it. -/
theorem broadcast_unknown_group (m : BroadcastManager) (groupId message : String)
    (hmissing : dictGet m groupId = none) :
    ∀ (executor : BExecutor) (sched : RaceSchedule),
      broadcast m groupId message executor sched =
        .error ("Broadcast group not found: " ++ groupId) := by
  intro executor sched
  simp [broadcast, hmissing]

/-- Witness for C9 at a concrete input: an empty manager knows no group
`"nope"`. -/
theorem broadcast_unknown_group_witness :
    broadcast ([] : BroadcastManager) "nope" "ping"
        (fun _ _ _ => .err { message := "unused" }) { order := [] } =
      .error ("Broadcast group not found: " ++ "nope") := by
  exact broadcast_unknown_group [] "nope" "ping" rfl
    (fun _ _ _ => .err { message := "unused" }) { order := [] }

/-- The `upstream_slush` value carried into the call after a failing prefix:
each failure that carries a `data_slush` replaces the carried value
(`last_slush` in `_broadcast_fallback`). -/
def fallbackThreadSlush (executor : BExecutor) (message : String) :
    List String → Option Slush → Option Slush
  | [], s => s
  | a :: rest, s =>
    match executor a message s with
    | .ok _ => s
    | .err e =>
      fallbackThreadSlush executor message rest
        (match e.resultSlush with
         | some s2 => some s2
         | none => s)

/-- Two executors agree on a set of agent ids. -/
def execAgrees (e1 e2 : BExecutor) (ids : List String) : Prop :=
  ∀ a ∈ ids, ∀ m s, e1 a m s = e2 a m s

/-! Dictionary lemmas used by the fallback proofs. -/

theorem dictKeys_cons {α : Type} (hd : String × α) (tl : Dict α) :
    dictKeys (hd :: tl) = hd.1 :: dictKeys tl := rfl

theorem mem_dictKeys_insert {α : Type} (d : Dict α) (k x : String) (v : α) :
    x ∈ dictKeys (dictInsert d k v) ↔ x ∈ dictKeys d ∨ x = k := by
  induction d with
  | nil =>
    show x ∈ dictKeys [(k, v)] ↔ x ∈ dictKeys ([] : Dict α) ∨ x = k
    simp [dictKeys]
  | cons hd tl ih =>
    obtain ⟨k0, v0⟩ := hd
    by_cases h : k0 = k
    · subst h
      have hins : dictInsert ((k0, v0) :: tl) k0 v = (k0, v) :: tl := by
        show (if k0 = k0 then (k0, v) :: tl else (k0, v0) :: dictInsert tl k0 v) =
          (k0, v) :: tl
        rw [if_pos rfl]
      rw [hins, dictKeys_cons, dictKeys_cons]
      simp only [List.mem_cons]
      tauto
    · simp only [dictInsert, if_neg h, dictKeys_cons, List.mem_cons, ih]
      tauto

theorem dictInsert_entries {α : Type} (d : Dict α) (k : String) (v : α) :
    ∀ kv ∈ dictInsert d k v, kv ∈ d ∨ kv = (k, v) := by
  induction d with
  | nil => simp [dictInsert]
  | cons hd tl ih =>
    obtain ⟨k0, v0⟩ := hd
    intro kv hkv
    by_cases h : k0 = k
    · simp only [dictInsert, if_pos h, List.mem_cons] at hkv
      rcases hkv with h1 | h1
      · right; exact h1
      · left; simp [h1]
    · simp only [dictInsert, if_neg h, List.mem_cons] at hkv
      rcases hkv with h1 | h1
      · left; simp [h1]
      · rcases ih kv h1 with h2 | h2
        · left; simp [h2]
        · right; exact h2

theorem dictGet_eq_none_iff {α : Type} (d : Dict α) (k : String) :
    dictGet d k = none ↔ k ∉ dictKeys d := by
  induction d with
  | nil => simp [dictGet, dictKeys]
  | cons hd tl ih =>
    obtain ⟨k0, v0⟩ := hd
    by_cases h : k0 = k
    · simp only [dictGet, if_pos h, dictKeys_cons, List.mem_cons]
      constructor
      · intro hcontra
        exact absurd hcontra (by simp)
      · intro hnot
        exact absurd (Or.inl h.symm) hnot
    · simp only [dictGet, if_neg h, dictKeys_cons, List.mem_cons, ih]
      constructor
      · intro hnot hc
        rcases hc with h1 | h1
        · exact h h1.symm
        · exact hnot h1
      · intro hnot h1
        exact hnot (Or.inr h1)

theorem countSuccesses_cons (ks : String) (o : BroadcastOutcome)
    (tl : Dict BroadcastOutcome) :
    countSuccesses ((ks, o) :: tl) =
      (match o with
       | .result _ => 1
       | .exc _ => 0) + countSuccesses tl := by
  cases o with
  | result r =>
    simp [countSuccesses, List.filter_cons]
    omega
  | exc m => simp [countSuccesses, List.filter_cons]

theorem countSuccesses_all_exc (d : Dict BroadcastOutcome)
    (h : ∀ kv ∈ d, ∃ m, kv.2 = .exc m) : countSuccesses d = 0 := by
  induction d with
  | nil => rfl
  | cons hd tl ih =>
    obtain ⟨ks, o⟩ := hd
    obtain ⟨m, hm⟩ := h (ks, o) (by simp)
    simp only at hm
    rw [hm, countSuccesses_cons, ih (fun kv hkv => h kv (by simp [hkv]))]

theorem countSuccesses_insert_result (d : Dict BroadcastOutcome) (k : String)
    (r : AgentResult) (hk : k ∉ dictKeys d) :
    countSuccesses (dictInsert d k (.result r)) = countSuccesses d + 1 := by
  induction d with
  | nil => rfl
  | cons hd tl ih =>
    obtain ⟨k0, v0⟩ := hd
    simp only [dictKeys_cons, List.mem_cons] at hk
    push_neg at hk
    have hne : ¬(k0 = k) := fun he => hk.1 he.symm
    simp only [dictInsert, if_neg hne]
    rw [countSuccesses_cons, countSuccesses_cons, ih hk.2]
    cases v0 <;> omega

/-- State facts about running `fallbackLoop` over a list of targets that all
fail, from an arbitrary state. -/
theorem fallbackLoop_all_fail (executor : BExecutor) (message : String)
    (pre : List String)
    (hpre : ∀ a ∈ pre, ∀ s, ∃ e, executor a message s = .err e) :
    ∀ st : FallbackState,
      (fallbackLoop executor message pre st).firstResponse = st.firstResponse ∧
      (fallbackLoop executor message pre st).lastSlush =
        fallbackThreadSlush executor message pre st.lastSlush ∧
      (∀ x, x ∈ dictKeys (fallbackLoop executor message pre st).results ↔
        x ∈ dictKeys st.results ∨ x ∈ pre) ∧
      (∀ kv ∈ (fallbackLoop executor message pre st).results,
        kv ∈ st.results ∨ (kv.1 ∈ pre ∧ ∃ m, kv.2 = .exc m)) := by
  induction pre with
  | nil =>
    intro st
    refine ⟨rfl, rfl, by simp [fallbackLoop, fallbackThreadSlush], ?_⟩
    intro kv hkv
    exact Or.inl hkv
  | cons a rest ih =>
    intro st
    obtain ⟨e, he⟩ := hpre a (by simp) st.lastSlush
    have ihrest := ih (fun x hx s => hpre x (by simp [hx]) s)
    simp only [fallbackLoop, he]
    cases hslush : e.resultSlush with
    | some s2 =>
      obtain ⟨h1, h2, h3, h4⟩ := ihrest
        { st with results := dictInsert st.results a (.exc e.message),
                  lastSlush := some s2 }
      refine ⟨h1, ?_, ?_, ?_⟩
      · rw [h2]
        simp [fallbackThreadSlush, he, hslush]
      · intro x
        rw [h3 x]
        simp [mem_dictKeys_insert]
        tauto
      · intro kv hkv
        rcases h4 kv hkv with h5 | h5
        · rcases dictInsert_entries _ _ _ kv h5 with h6 | h6
          · exact Or.inl h6
          · exact Or.inr ⟨by simp [h6], e.message, by simp [h6]⟩
        · exact Or.inr ⟨by simp [h5.1], h5.2⟩
    | none =>
      obtain ⟨h1, h2, h3, h4⟩ := ihrest
        { st with results := dictInsert st.results a (.exc e.message) }
      refine ⟨h1, ?_, ?_, ?_⟩
      · rw [h2]
        simp [fallbackThreadSlush, he, hslush]
      · intro x
        rw [h3 x]
        simp [mem_dictKeys_insert]
        tauto
      · intro kv hkv
        rcases h4 kv hkv with h5 | h5
        · rcases dictInsert_entries _ _ _ kv h5 with h6 | h6
          · exact Or.inl h6
          · exact Or.inr ⟨by simp [h6], e.message, by simp [h6]⟩
        · exact Or.inr ⟨by simp [h5.1], h5.2⟩

/-- `fallbackLoop` composes over an all-failing prefix (no break occurs). -/
theorem fallbackLoop_append_of_fail (executor : BExecutor) (message : String)
    (pre ys : List String)
    (hpre : ∀ a ∈ pre, ∀ s, ∃ e, executor a message s = .err e) :
    ∀ st : FallbackState,
      fallbackLoop executor message (pre ++ ys) st =
        fallbackLoop executor message ys (fallbackLoop executor message pre st) := by
  induction pre with
  | nil => intro st; rfl
  | cons a rest ih =>
    intro st
    obtain ⟨e, he⟩ := hpre a (by simp) st.lastSlush
    simp only [List.cons_append, fallbackLoop, he]
    exact ih (fun x hx s => hpre x (by simp [hx]) s) _

/-- Two executors that agree on an all-failing prefix and the winning target
drive `fallbackLoop` identically over `pre ++ t :: post` (the loop breaks at
`t`, so `post` is never consulted). -/
theorem fallbackLoop_agrees (executor executor2 : BExecutor) (message : String)
    (pre post : List String) (t : String)
    (hpre : ∀ a ∈ pre, ∀ s, ∃ e, executor a message s = .err e)
    (hok : ∀ s, ∃ r, executor t message s = .ok r)
    (hagree : execAgrees executor executor2 (pre ++ [t])) :
    ∀ st : FallbackState,
      fallbackLoop executor2 message (pre ++ t :: post) st =
        fallbackLoop executor message (pre ++ t :: post) st := by
  induction pre with
  | nil =>
    intro st
    obtain ⟨r, hr⟩ := hok st.lastSlush
    have hagt := hagree t (by simp) message st.lastSlush
    simp only [List.nil_append, fallbackLoop, hr, ← hagt, hr]
  | cons a rest ih =>
    intro st
    obtain ⟨e, he⟩ := hpre a (by simp) st.lastSlush
    have haga := hagree a (by simp) message st.lastSlush
    simp only [List.cons_append, fallbackLoop, he, ← haga, he]
    exact ih (fun x hx s => hpre x (by simp [hx]) s)
      (fun x hx => hagree x (by simp [hx])) _

/-- C6: in fallback mode over targets `pre ++ t :: post` where every target in
`pre` fails and `t` succeeds: the broadcast stops at `t` (the outcome map
holds exactly `pre` and `t`, and the result is unchanged under any executor
that agrees on `pre ++ [t]` — so the targets in `post` are never invoked);
`firstResponse` records `t` with its result; `t`'s executor call receives the
slush threaded through the failures of `pre`; and `allSucceeded` is false
whenever `pre` is non-empty. -/
theorem broadcast_fallback_spec (g : BroadcastGroup) (message : String)
    (executor : BExecutor) (pre post : List String) (t : String)
    (hids : g.agentIds = pre ++ t :: post)
    (hpre : ∀ a ∈ pre, ∀ s, ∃ e, executor a message s = .err e)
    (hok : ∀ s, ∃ r, executor t message s = .ok r) :
    ∃ r, executor t message (fallbackThreadSlush executor message pre none) = .ok r ∧
      (broadcast_fallback g message executor).firstResponse = some (t, r) ∧
      (∀ x, x ∈ dictKeys (broadcast_fallback g message executor).results ↔
        x ∈ pre ∨ x = t) ∧
      (pre ≠ [] → (broadcast_fallback g message executor).allSucceeded = false) ∧
      (∀ executor2 : BExecutor, execAgrees executor executor2 (pre ++ [t]) →
        broadcast_fallback g message executor2 = broadcast_fallback g message executor) := by
  have hsplit := fallbackLoop_append_of_fail executor message pre (t :: post) hpre
    ({} : FallbackState)
  obtain ⟨hfr, hsl, hkeys, hentries⟩ :=
    fallbackLoop_all_fail executor message pre hpre ({} : FallbackState)
  set stPre := fallbackLoop executor message pre ({} : FallbackState) with hstPre
  obtain ⟨r, hr⟩ := hok stPre.lastSlush
  have hsl' : stPre.lastSlush = fallbackThreadSlush executor message pre none := hsl
  have hrthread : executor t message
      (fallbackThreadSlush executor message pre none) = .ok r := by
    rw [← hsl']
    exact hr
  have hloop : fallbackLoop executor message (g.agentIds) ({} : FallbackState) =
      { results := dictInsert stPre.results t (.result r),
        firstResponse := some (t, r), lastSlush := stPre.lastSlush } := by
    rw [hids, hsplit]
    simp only [fallbackLoop, hr]
  have htnotpre : t ∉ pre := by
    intro hmem
    obtain ⟨e, he⟩ := hpre t hmem stPre.lastSlush
    rw [hr] at he
    exact ExecOutcome.noConfusion he
  refine ⟨r, hrthread, ?_, ?_, ?_, ?_⟩
  · simp [broadcast_fallback, hloop]
  · intro x
    simp only [broadcast_fallback, hloop]
    rw [mem_dictKeys_insert]
    constructor
    · rintro (h1 | h1)
      · rcases (hkeys x).mp h1 with h2 | h2
        · simp [dictKeys] at h2
        · exact Or.inl h2
      · exact Or.inr h1
    · rintro (h1 | h1)
      · exact Or.inl ((hkeys x).mpr (Or.inr h1))
      · exact Or.inr h1
  · intro hne
    simp only [broadcast_fallback, hloop]
    have hexc : ∀ kv ∈ stPre.results, ∃ m, kv.2 = BroadcastOutcome.exc m := by
      intro kv hkv
      rcases hentries kv hkv with h1 | h1
      · simp at h1
      · exact h1.2
    have hcnt0 := countSuccesses_all_exc stPre.results hexc
    have htk : t ∉ dictKeys stPre.results := by
      intro hmem
      rcases (hkeys t).mp hmem with h1 | h1
      · simp [dictKeys] at h1
      · exact htnotpre h1
    have hcnt := countSuccesses_insert_result stPre.results t r htk
    rw [hcnt, hcnt0]
    have hlen : g.agentIds.length = pre.length + post.length + 1 := by
      rw [hids]; simp; omega
    have hpre1 : 1 ≤ pre.length := by
      cases pre with
      | nil => exact absurd rfl hne
      | cons _ _ => simp
    simp only [decide_eq_false_iff_not]
    omega
  · intro executor2 hagree
    have h2 := fallbackLoop_agrees executor executor2 message pre post t hpre hok
      hagree ({} : FallbackState)
    simp only [broadcast_fallback, hids, h2]

/-- Witness for C6 at the spec's concrete scenario: targets `[a1, a2, a3]`
where `a1` fails emitting a slush and `a2` succeeds; `a2` wins and receives
`a1`'s slush. -/
theorem broadcast_fallback_spec_witness :
    ∃ r, (fun aid _ s =>
        if aid = "a1" then
          ExecOutcome.err { message := "a1 failed", resultSlush := some [("k", "v")] }
        else ExecOutcome.ok { payload := [("got_slush", if s = some [("k", "v")] then "yes" else "no")] }
        : BExecutor) "a2" "ping"
        (fallbackThreadSlush (fun aid _ s =>
          if aid = "a1" then
            ExecOutcome.err { message := "a1 failed", resultSlush := some [("k", "v")] }
          else ExecOutcome.ok { payload := [("got_slush", if s = some [("k", "v")] then "yes" else "no")] })
          "ping" ["a1"] none) = .ok r ∧
      (broadcast_fallback { id := "g", agentIds := ["a1", "a2", "a3"], mode := .fallback }
        "ping" (fun aid _ s =>
          if aid = "a1" then
            ExecOutcome.err { message := "a1 failed", resultSlush := some [("k", "v")] }
          else ExecOutcome.ok { payload := [("got_slush", if s = some [("k", "v")] then "yes" else "no")] })).firstResponse =
        some ("a2", r) := by
  obtain ⟨r, h1, h2, _⟩ := broadcast_fallback_spec
    { id := "g", agentIds := ["a1", "a2", "a3"], mode := .fallback } "ping"
    (fun aid _ s =>
      if aid = "a1" then
        ExecOutcome.err { message := "a1 failed", resultSlush := some [("k", "v")] }
      else ExecOutcome.ok { payload := [("got_slush", if s = some [("k", "v")] then "yes" else "no")] })
    ["a1"] ["a3"] "a2" rfl
    (by intro a ha s; simp at ha; subst ha; exact ⟨_, rfl⟩)
    (by intro s; exact ⟨_, rfl⟩)
  exact ⟨r, h1, h2⟩

/-- C10: `allSucceeded` in fallback mode is `successes == len(agentIds)`, so a
group with more than one target whose first target succeeds immediately gets
`allSucceeded = false` although no target failed: the rest were never tried. -/
theorem broadcast_fallback_allSucceeded_gap (g : BroadcastGroup) (message : String)
    (executor : BExecutor) :
    ((broadcast_fallback g message executor).allSucceeded =
      decide (countSuccesses
        (fallbackLoop executor message g.agentIds ({} : FallbackState)).results =
          g.agentIds.length)) ∧
    (∀ t rest r, g.agentIds = t :: rest → rest ≠ [] →
      executor t message none = .ok r →
      (broadcast_fallback g message executor).results = [(t, .result r)] ∧
      (broadcast_fallback g message executor).allSucceeded = false) := by
  refine ⟨rfl, ?_⟩
  intro t rest r hids hrest hok
  have hloop : fallbackLoop executor message g.agentIds ({} : FallbackState) =
      { results := [(t, .result r)], firstResponse := some (t, r),
        lastSlush := none } := by
    rw [hids]
    simp only [fallbackLoop, hok]
    rfl
  constructor
  · simp [broadcast_fallback, hloop]
  · simp only [broadcast_fallback, hloop]
    have h1 : countSuccesses [(t, BroadcastOutcome.result r)] = 1 := rfl
    have hlen : g.agentIds.length = rest.length + 1 := by rw [hids]; simp
    simp only [h1, hlen, decide_eq_false_iff_not]
    have : 1 ≤ rest.length := by
      cases rest with
      | nil => exact absurd rfl hrest
      | cons _ _ => simp
    omega

/-- Witness for C10 at a concrete input: two targets, the first succeeds. -/
theorem broadcast_fallback_allSucceeded_gap_witness :
    (broadcast_fallback { id := "g", agentIds := ["a1", "a2"], mode := .fallback }
      "ping" (fun _ _ _ => ExecOutcome.ok { payload := [] })).allSucceeded = false := by
  exact ((broadcast_fallback_allSucceeded_gap
    { id := "g", agentIds := ["a1", "a2"], mode := .fallback } "ping"
    (fun _ _ _ => ExecOutcome.ok { payload := [] })).2
    "a1" ["a2"] { payload := [] } rfl (by simp) rfl).2

/-! Concrete race-mode run exhibiting the first-completion bug (claim C1):
group `["a", "b"]`, `a` completes first with a failure, `b` — cancelled, but
its result slips through before the cancellation lands — succeeds.  The code
never waits for a further completion after the first one, so `firstResponse`
stays empty although `b`'s executor call succeeded and is recorded in the
outcome map. -/

def raceBugGroup : BroadcastGroup :=
  { id := "g", agentIds := ["a", "b"], mode := .race }

def raceBugManager : BroadcastManager := create_group [] raceBugGroup

def raceBugExec : BExecutor := fun aid _ _ =>
  if aid = "a" then .err { message := "a failed" }
  else .ok { payload := [("agent", "b")] }

def raceBugSched : RaceSchedule := { order := ["a", "b"], slips := ["b"] }

/-- C1 (code bug): in race mode, when the first task to complete fails, the
remaining calls are cancelled without waiting for a success; here `b`'s call
succeeds (its result slips through and lands in the outcome map, making
`anySucceeded` true) yet `firstResponse` is empty — contradicting both the
claim and the module's own documentation ("race - Send to all agents, return
first success"). -/
theorem race_first_completion_bug :
    ∃ br, broadcast raceBugManager "g" "ping" raceBugExec raceBugSched = .ok br ∧
      br.firstResponse = none ∧
      br.anySucceeded = true ∧
      dictGet br.results "b" = some (.result { payload := [("agent", "b")] }) := by
  refine ⟨broadcast_race raceBugGroup "ping" raceBugExec raceBugSched, ?_, ?_, ?_, ?_⟩
  · rfl
  · rfl
  · rfl
  · rfl

/-! ## Agent behaviour and keyword arguments (shared by Chain and Graph) -/

/-- A value of a keyword-argument dict: an opaque payload string, an injected
chain slush (`kwargs['upstream_slush'] = current_slush` in `chain.py`), or an
injected producer-keyed slush map (`graph.py`). -/
inductive JVal
  | str (v : String)
  | slush (s : Slush)
  | smap (m : Dict Slush)
deriving Repr, DecidableEq

abbrev Kwargs := Dict JVal

/-- A black-box agent as Chain and Graph see it (`basic_agent.py`): `execute`
returns a parsed result dict or raises (a step timeout is the same as a
raise); `lastSlush` is the `last_data_slush` the agent exposes after that
call; `slushOut` is its `slush_out(signals=...)` builder. -/
structure AgentBeh where
  name : String
  execute : Kwargs → Except String (Dict String)
  lastSlush : Kwargs → Option Slush
  slushOut : Slush → Slush

/-! ## Pipeline (`chain.py`, `AgentChain`) -/

/-- `ChainStep`: name, agent, static kwargs, optional transform
`(previous_result, previous_slush) -> extra kwargs`. -/
structure ChainStep where
  name : String
  agent : AgentBeh
  kwargs : Kwargs := []
  transform : Option (Dict String → Option Slush → Kwargs) := none

/-- `ChainStepResult` (wall-clock duration not modelled). -/
structure ChainStepResult where
  name : String
  agent_name : String
  result : Dict String
  data_slush : Option Slush

/-- `ChainResult`. -/
structure ChainResult where
  status : String
  steps : List ChainStepResult
  final_result : Option (Dict String)
  final_slush : Option Slush
  failed_step : Option String := none
  error : Option String := none

structure ChainOptions where
  stop_on_error : Bool := true

/-- The loop state of `AgentChain.run`: step index, collected results, carried
slush, last successful payload. -/
structure ChainState where
  i : Nat := 0
  stepResults : List ChainStepResult := []
  currentSlush : Option Slush := none
  lastResult : Option (Dict String) := none

inductive ChainStepOut
  | next (st : ChainState)
  | halt (res : ChainResult)

/-- Keyword-argument construction of one `run` iteration: static step kwargs,
initial kwargs merged under them for the first step only, the transform's
extra kwargs, and the carried slush under the reserved `upstream_slush` key. -/
def chainBuildKwargs (initial : Kwargs) (step : ChainStep) (st : ChainState) :
    Kwargs :=
  let kwargs1 :=
    if st.i = 0 ∧ initial ≠ [] then dictUpdate initial step.kwargs else step.kwargs
  let kwargs2 :=
    match step.transform, st.lastResult with
    | some f, some lr => dictUpdate kwargs1 (f lr st.currentSlush)
    | _, _ => kwargs1
  match st.currentSlush with
  | some s => dictInsert kwargs2 "upstream_slush" (JVal.slush s)
  | none => kwargs2

/-- The new carried slush after a successful step: the agent's emitted
`last_data_slush` when truthy, else the synthesized placeholder built from
`slush_out(signals={step_name, step_result_status})`. -/
def chainNewSlush (step : ChainStep) (kwargs : Kwargs) (result : Dict String) :
    Option Slush :=
  if truthySlush (step.agent.lastSlush kwargs) then step.agent.lastSlush kwargs
  else some (step.agent.slushOut
    [("step_name", step.name),
     ("step_result_status", dictGetD result "status" "unknown")])

/-- One iteration of the `for i, step in enumerate(self._steps)` loop. -/
def chainStepExec (opts : ChainOptions) (initial : Kwargs) (step : ChainStep)
    (st : ChainState) : ChainStepOut :=
  match step.agent.execute (chainBuildKwargs initial step st) with
  | .ok result =>
    .next { i := st.i + 1,
            stepResults := st.stepResults ++
              [{ name := step.name, agent_name := step.agent.name,
                 result := result,
                 data_slush := chainNewSlush step (chainBuildKwargs initial step st) result }],
            currentSlush := chainNewSlush step (chainBuildKwargs initial step st) result,
            lastResult := some result }
  | .error e =>
    if opts.stop_on_error then
      .halt { status := "error",
              steps := st.stepResults ++
                [{ name := step.name, agent_name := step.agent.name,
                   result := [("status", "error"), ("message", e)],
                   data_slush := st.currentSlush }],
              final_result := some [("status", "error"), ("message", e)],
              final_slush := st.currentSlush,
              failed_step := some step.name, error := some e }
    else
      .next { i := st.i + 1,
              stepResults := st.stepResults ++
                [{ name := step.name, agent_name := step.agent.name,
                   result := [("status", "error"), ("message", e)],
                   data_slush := st.currentSlush }],
              currentSlush := st.currentSlush, lastResult := st.lastResult }

/-- The tail of `AgentChain.run`: overall status is `partial` iff any recorded
step result has status `error`, else `success`. -/
def chainFinalize (st : ChainState) : ChainResult :=
  { status :=
      if st.stepResults.any (fun s => dictGetD s.result "status" "" = "error")
      then "partial" else "success",
    steps := st.stepResults, final_result := st.lastResult,
    final_slush := st.currentSlush }

/-- The step loop of `AgentChain.run`. -/
def chainLoop (opts : ChainOptions) (initial : Kwargs) :
    List ChainStep → ChainState → ChainResult
  | [], st => chainFinalize st
  | step :: rest, st =>
    match chainStepExec opts initial step st with
    | .next st2 => chainLoop opts initial rest st2
    | .halt res => res

/-- `AgentChain.run`. -/
def chainRun (opts : ChainOptions) (steps : List ChainStep) (initial : Kwargs) :
    ChainResult :=
  chainLoop opts initial steps {}

/-- The loop state after a list of steps, when no early halt occurs. -/
def chainLoopState (opts : ChainOptions) (initial : Kwargs) :
    List ChainStep → ChainState → Option ChainState
  | [], st => some st
  | step :: rest, st =>
    match chainStepExec opts initial step st with
    | .next st2 => chainLoopState opts initial rest st2
    | .halt _ => none

/-- With `stop_on_error` unset the loop never halts early, the loop state is
total, and recorded step results are only appended. -/
theorem chainLoop_no_stop (initial : Kwargs) (steps : List ChainStep) :
    ∀ st : ChainState, ∃ st2,
      chainLoopState { stop_on_error := false } initial steps st = some st2 ∧
      chainLoop { stop_on_error := false } initial steps st = chainFinalize st2 ∧
      st.stepResults.IsPrefix st2.stepResults := by
  induction steps with
  | nil => exact fun st => ⟨st, rfl, rfl, List.prefix_refl _⟩
  | cons step rest ih =>
    intro st
    cases hexec : chainStepExec { stop_on_error := false } initial step st with
    | next st2 =>
      obtain ⟨st3, h1, h2, h3⟩ := ih st2
      refine ⟨st3, ?_, ?_, ?_⟩
      · simp [chainLoopState, hexec, h1]
      · simp [chainLoop, hexec, h2]
      · refine List.IsPrefix.trans ?_ h3
        unfold chainStepExec at hexec
        cases hx : step.agent.execute (chainBuildKwargs initial step st) <;>
          simp [hx] at hexec <;>
          (rw [← hexec]; exact ⟨_, rfl⟩)
    | halt res =>
      exfalso
      unfold chainStepExec at hexec
      cases hx : step.agent.execute (chainBuildKwargs initial step st) <;>
        simp [hx] at hexec

/-- A prefix of steps whose agents always succeed is run through by the loop,
appending exactly their step results, irrespective of what follows. -/
theorem chainLoop_ok_prefix (opts : ChainOptions) (initial : Kwargs)
    (steps1 : List ChainStep)
    (hpre : ∀ s ∈ steps1, ∀ kw, ∃ r, s.agent.execute kw = .ok r) :
    ∀ st : ChainState, ∃ st1,
      chainLoopState opts initial steps1 st = some st1 ∧
      (∀ ys, chainLoop opts initial (steps1 ++ ys) st = chainLoop opts initial ys st1) ∧
      st1.stepResults.map (·.name) =
        st.stepResults.map (·.name) ++ steps1.map (·.name) := by
  induction steps1 with
  | nil => exact fun st => ⟨st, rfl, fun ys => rfl, by simp⟩
  | cons step rest ih =>
    intro st
    obtain ⟨r, hr⟩ := hpre step (by simp) (chainBuildKwargs initial step st)
    have hexec : chainStepExec opts initial step st = .next
        { i := st.i + 1,
          stepResults := st.stepResults ++
            [{ name := step.name, agent_name := step.agent.name, result := r,
               data_slush := chainNewSlush step (chainBuildKwargs initial step st) r }],
          currentSlush := chainNewSlush step (chainBuildKwargs initial step st) r,
          lastResult := some r } := by
      unfold chainStepExec
      rw [hr]
    obtain ⟨st1, h1, h2, h3⟩ := ih (fun s hs kw => hpre s (by simp [hs]) kw)
      { i := st.i + 1,
        stepResults := st.stepResults ++
          [{ name := step.name, agent_name := step.agent.name, result := r,
             data_slush := chainNewSlush step (chainBuildKwargs initial step st) r }],
        currentSlush := chainNewSlush step (chainBuildKwargs initial step st) r,
        lastResult := some r }
    refine ⟨st1, ?_, ?_, ?_⟩
    · simp [chainLoopState, hexec, h1]
    · intro ys
      simp [chainLoop, hexec, h2 ys]
    · rw [h3]
      simp

/-- C5: if the agents of `steps1` always succeed and `failStep`'s agent always
fails (a timeout behaves the same), then with `stopOnError` set (the default)
the chain halts at `failStep`: status `error`, `failed_step` and `error` name
the failing step and message, exactly `steps1 ++ [failStep]` produce step
results, and the steps after it are irrelevant (any continuation gives the
same result — their agents are never invoked).  With `stopOnError` unset the
failure is recorded and the run continues into the remaining steps with the
carried slush and last payload unchanged, ending with status `partial`. -/
theorem chain_stop_on_error_spec (steps1 steps2 : List ChainStep)
    (failStep : ChainStep) (initial : Kwargs) (msg : String)
    (hpre : ∀ s ∈ steps1, ∀ kw, ∃ r, s.agent.execute kw = .ok r)
    (hfail : ∀ kw, failStep.agent.execute kw = .error msg) :
    ((chainRun { stop_on_error := true } (steps1 ++ failStep :: steps2) initial).status
        = "error" ∧
      (chainRun { stop_on_error := true } (steps1 ++ failStep :: steps2) initial).failed_step
        = some failStep.name ∧
      (chainRun { stop_on_error := true } (steps1 ++ failStep :: steps2) initial).error
        = some msg ∧
      (chainRun { stop_on_error := true } (steps1 ++ failStep :: steps2) initial).steps.map
          (·.name) = (steps1 ++ [failStep]).map (·.name) ∧
      (∀ steps2b, chainRun { stop_on_error := true } (steps1 ++ failStep :: steps2b) initial
        = chainRun { stop_on_error := true } (steps1 ++ failStep :: steps2) initial)) ∧
    (∃ st1, chainLoopState { stop_on_error := false } initial steps1 ({} : ChainState)
        = some st1 ∧
      chainRun { stop_on_error := false } (steps1 ++ failStep :: steps2) initial =
        chainLoop { stop_on_error := false } initial steps2
          { i := st1.i + 1,
            stepResults := st1.stepResults ++
              [{ name := failStep.name, agent_name := failStep.agent.name,
                 result := [("status", "error"), ("message", msg)],
                 data_slush := st1.currentSlush }],
            currentSlush := st1.currentSlush, lastResult := st1.lastResult } ∧
      (chainRun { stop_on_error := false } (steps1 ++ failStep :: steps2) initial).status
        = "partial") := by
  constructor
  · obtain ⟨st1, h1, h2, h3⟩ :=
      chainLoop_ok_prefix { stop_on_error := true } initial steps1 hpre
        ({} : ChainState)
    have hexec : ∀ st : ChainState,
        chainStepExec { stop_on_error := true } initial failStep st = .halt
          { status := "error",
            steps := st.stepResults ++
              [{ name := failStep.name, agent_name := failStep.agent.name,
                 result := [("status", "error"), ("message", msg)],
                 data_slush := st.currentSlush }],
            final_result := some [("status", "error"), ("message", msg)],
            final_slush := st.currentSlush,
            failed_step := some failStep.name, error := some msg } := by
      intro st
      unfold chainStepExec
      rw [hfail]
      rfl
    have hrun : ∀ steps2b, chainRun { stop_on_error := true }
        (steps1 ++ failStep :: steps2b) initial =
          { status := "error",
            steps := st1.stepResults ++
              [{ name := failStep.name, agent_name := failStep.agent.name,
                 result := [("status", "error"), ("message", msg)],
                 data_slush := st1.currentSlush }],
            final_result := some [("status", "error"), ("message", msg)],
            final_slush := st1.currentSlush,
            failed_step := some failStep.name, error := some msg } := by
      intro steps2b
      unfold chainRun
      rw [h2 (failStep :: steps2b)]
      simp [chainLoop, hexec st1]
    refine ⟨?_, ?_, ?_, ?_, ?_⟩
    · rw [hrun steps2]
    · rw [hrun steps2]
    · rw [hrun steps2]
    · rw [hrun steps2]
      simp only []
      rw [List.map_append, h3]
      simp
    · intro steps2b
      rw [hrun steps2b, hrun steps2]
  · obtain ⟨st1, h1, h2, h3⟩ :=
      chainLoop_ok_prefix { stop_on_error := false } initial steps1 hpre
        ({} : ChainState)
    have hexec : chainStepExec { stop_on_error := false } initial failStep st1 = .next
        { i := st1.i + 1,
          stepResults := st1.stepResults ++
            [{ name := failStep.name, agent_name := failStep.agent.name,
               result := [("status", "error"), ("message", msg)],
               data_slush := st1.currentSlush }],
          currentSlush := st1.currentSlush, lastResult := st1.lastResult } := by
      unfold chainStepExec
      rw [hfail]
      rfl
    have hcont : chainRun { stop_on_error := false } (steps1 ++ failStep :: steps2)
        initial = chainLoop { stop_on_error := false } initial steps2
          { i := st1.i + 1,
            stepResults := st1.stepResults ++
              [{ name := failStep.name, agent_name := failStep.agent.name,
                 result := [("status", "error"), ("message", msg)],
                 data_slush := st1.currentSlush }],
            currentSlush := st1.currentSlush, lastResult := st1.lastResult } := by
      unfold chainRun
      rw [h2 (failStep :: steps2)]
      simp [chainLoop, hexec]
    refine ⟨st1, h1, hcont, ?_⟩
    rw [hcont]
    obtain ⟨st3, g1, g2, g3⟩ := chainLoop_no_stop initial steps2
      { i := st1.i + 1,
        stepResults := st1.stepResults ++
          [{ name := failStep.name, agent_name := failStep.agent.name,
             result := [("status", "error"), ("message", msg)],
             data_slush := st1.currentSlush }],
        currentSlush := st1.currentSlush, lastResult := st1.lastResult }
    rw [g2]
    have herr : ∃ s ∈ st3.stepResults,
        dictGetD s.result "status" "" = "error" := by
      obtain ⟨tail, htail⟩ := g3
      refine ⟨{ name := failStep.name, agent_name := failStep.agent.name,
                result := [("status", "error"), ("message", msg)],
                data_slush := st1.currentSlush }, ?_, rfl⟩
      rw [← htail]
      simp
    unfold chainFinalize
    obtain ⟨s, hs, hstat⟩ := herr
    have hany : st3.stepResults.any
        (fun s => dictGetD s.result "status" "" = "error") = true := by
      rw [List.any_eq_true]
      exact ⟨s, hs, by simp [hstat]⟩
    simp [hany]

/-- Witness for C5 at the spec's concrete scenario: a two-step chain whose
first step fails; with `stopOnError` the result is `error`, `failedStep` is
the first step's name, and only one step result is recorded. -/
theorem chain_stop_on_error_spec_witness :
    ((chainRun { stop_on_error := true }
        ([] ++ ({ name := "s1",
                  agent := { name := "bad", execute := fun _ => .error "boom",
                             lastSlush := fun _ => none, slushOut := fun s => s } } : ChainStep) ::
          [{ name := "s2",
             agent := { name := "ok", execute := fun _ => .ok [("status", "success")],
                        lastSlush := fun _ => none, slushOut := fun s => s } }]) []).status
      = "error") ∧
    ((chainRun { stop_on_error := true }
        ([] ++ ({ name := "s1",
                  agent := { name := "bad", execute := fun _ => .error "boom",
                             lastSlush := fun _ => none, slushOut := fun s => s } } : ChainStep) ::
          [{ name := "s2",
             agent := { name := "ok", execute := fun _ => .ok [("status", "success")],
                        lastSlush := fun _ => none, slushOut := fun s => s } }]) []).failed_step
      = some "s1") := by
  have h := chain_stop_on_error_spec []
    [{ name := "s2",
       agent := { name := "ok", execute := fun _ => .ok [("status", "success")],
                  lastSlush := fun _ => none, slushOut := fun s => s } }]
    { name := "s1",
      agent := { name := "bad", execute := fun _ => .error "boom",
                 lastSlush := fun _ => none, slushOut := fun s => s } }
    [] "boom" (by simp) (fun kw => rfl)
  exact ⟨h.1.1, h.1.2.1⟩

/-! ## DAG Scheduler (`graph.py`, `AgentGraph`) -/

/-- A DAG node: unique name, agent, optional static kwargs, dependency
names.  (`add_node` raises on a duplicate name, so a well-formed graph has
`Nodup` names; theorems carry that as a hypothesis where needed.) -/
structure GraphNode where
  name : String
  agent : AgentBeh
  kwargs : Kwargs := []
  depends_on : List String := []

/-- The insertion-ordered `_nodes` dict. -/
abbrev Graph := List GraphNode

def nodeExists (g : Graph) (name : String) : Bool :=
  g.any (fun n => n.name = name)

def lookupNode (g : Graph) (name : String) : Option GraphNode :=
  g.find? (fun n => n.name = name)

/-- Result of one node (wall-clock duration not modelled). -/
structure GraphNodeResult where
  name : String
  agent_name : String
  result : Dict String
  data_slush : Option Slush
  status : String
deriving Repr, DecidableEq

/-- `GraphResult`. -/
structure GraphResult where
  status : String
  nodes : Dict GraphNodeResult
  execution_order : List String
  error : Option String := none
deriving Repr, DecidableEq

structure GraphOptions where
  stop_on_error : Bool := false
  parallel : Bool := true

/-! ### Validation (`AgentGraph.validate`) -/

/-- The missing-dependency pass: one error per dependency that names no
existing node. -/
def missingDepErrors (g : Graph) : List String :=
  g.foldl (fun errs node =>
    errs ++ (node.depends_on.filter (fun dep => !nodeExists g dep)).map
      (fun dep => "Node \"" ++ node.name ++ "\" depends on \"" ++ dep ++
        "\", which does not exist")) []

inductive Color
  | white
  | gray
  | black
deriving Repr, DecidableEq

/-- Mutable state of the three-color DFS: the color dict and the shared
errors list (which already holds the missing-dependency errors). -/
structure DfsState where
  color : Dict Color
  errors : List String

def colorOf (st : DfsState) (name : String) : Color :=
  dictGetD st.color name Color.white

/-!
The three-color DFS of `validate` (`dfs(name, stack)` and its inner
`for dep in node.depends_on` loop).  The boolean is the Python return value
("cycle found below here"); on a cycle the stack is *not* popped, exactly as
in the source, so gray residue survives an aborted walk.  A gray node met
while absent from the current stack reproduces the uncaught `ValueError` that
`stack.index(dep)` raises.  The fuel only bounds the recursion depth
(`g.length + 1` is enough, since the walk recurses into white nodes only).
-/

/-- One check of `dep` inside `dfs`: either a cycle error (gray hit, stack
split at `stack.index(dep)` — which raises `ValueError` when `dep` is not on
the current stack), a crash, or "no cycle here". -/
def dfsCheckGray (stack : List String) (dep : String) (st : DfsState) :
    Except String (Bool × DfsState) :=
  match stack.findIdx? (· = dep) with
  | none => .error ("ValueError: " ++ dep ++ " is not in list")
  | some cycleStart =>
    .ok (true, { st with errors := st.errors ++
      ["Cycle detected: " ++
        String.intercalate " → " (stack.drop cycleStart ++ [dep])] })

/-- `dfs(name, stack)` of `validate`, structurally recursive on fuel.  The
`for dep in node.depends_on` loop with its early `return True` becomes a
short-circuiting left fold.  On a cycle the stack is *not* popped and the
walked nodes stay gray, exactly as in the source. -/
def dfsNode (g : Graph) : Nat → String → List String → DfsState →
    Except String (Bool × DfsState)
  | 0, _, _, _ => .error "RecursionError: maximum recursion depth exceeded"
  | fuel + 1, name, stack, st =>
    match lookupNode g name with
    | none => .error ("KeyError: " ++ name)
    | some node =>
      match node.depends_on.foldl
        (fun (acc : Except String (Bool × DfsState)) dep =>
          match acc with
          | .error e => .error e
          | .ok (true, st2) => .ok (true, st2)
          | .ok (false, st2) =>
            if nodeExists g dep then
              match colorOf st2 dep with
              | Color.gray => dfsCheckGray (stack ++ [name]) dep st2
              | Color.white => dfsNode g fuel dep (stack ++ [name]) st2
              | Color.black => .ok (false, st2)
            else .ok (false, st2))
        (.ok (false, { st with color := dictInsert st.color name Color.gray })) with
      | .error e => .error e
      | .ok (true, st2) => .ok (true, st2)
      | .ok (false, st2) =>
        .ok (false, { st2 with color := dictInsert st2.color name Color.black })

/-- The `for name in self._nodes: if color[name] == WHITE: dfs(name, [])`
outer loop (the boolean result of `dfs` is discarded). -/
def validateLoop (g : Graph) : List String → DfsState → Except String DfsState
  | [], st => .ok st
  | name :: rest, st =>
    if colorOf st name = Color.white then
      match dfsNode g (g.length + 1) name [] st with
      | .error e => .error e
      | .ok (_, st2) => validateLoop g rest st2
    else validateLoop g rest st

/-- `AgentGraph.validate`: missing-dependency errors, then cycle detection.
The result is `(valid, errors)`; `.error` is an uncaught Python exception
escaping `validate`. -/
def validate (g : Graph) : Except String (Bool × List String) :=
  match validateLoop g (g.map (·.name))
      { color := g.map (fun n => (n.name, Color.white)),
        errors := missingDepErrors g } with
  | .error e => .error e
  | .ok st => .ok (st.errors.isEmpty, st.errors)

/-! ### Topological levels (`AgentGraph._topological_levels`, Kahn) -/

/-- Build the in-degree and dependents maps (edges to existing nodes only).
Degrees are integers: Python happily decrements below zero. -/
def topoInit (g : Graph) : Dict Int × Dict (List String) :=
  g.foldl (fun (acc : Dict Int × Dict (List String)) node =>
    node.depends_on.foldl (fun (acc2 : Dict Int × Dict (List String)) dep =>
      if nodeExists g dep then
        (dictInsert acc2.1 node.name (dictGetD acc2.1 node.name 0 + 1),
         dictInsert acc2.2 dep (dictGetD acc2.2 dep [] ++ [node.name]))
      else acc2) acc)
    (g.map (fun n => (n.name, (0 : Int))), g.map (fun n => (n.name, ([] : List String))))

/-- One `while` iteration body: decrement every dependent of the current
level, collecting those that hit exactly zero as the next level. -/
def topoStep (inDeg : Dict Int) (dependents : Dict (List String))
    (currentLevel : List String) : Dict Int × List String :=
  currentLevel.foldl (fun (acc : Dict Int × List String) name =>
    (dictGetD dependents name []).foldl (fun (acc2 : Dict Int × List String) dependent =>
      (dictInsert acc2.1 dependent (dictGetD acc2.1 dependent 0 - 1),
       if dictGetD acc2.1 dependent 0 - 1 = 0 then acc2.2 ++ [dependent]
       else acc2.2)) acc) (inDeg, [])

/-- The `while current_level:` loop.  `g.length + 1` fuel suffices: every
iteration appends a non-empty level of fresh names. -/
def topoLoop (dependents : Dict (List String)) :
    Nat → Dict Int → List String → List (List String) → List (List String)
  | 0, _, _, levels => levels
  | fuel + 1, inDeg, currentLevel, levels =>
    if currentLevel = [] then levels
    else
      topoLoop dependents fuel (topoStep inDeg dependents currentLevel).1
        (topoStep inDeg dependents currentLevel).2 (levels ++ [currentLevel])

/-- `AgentGraph._topological_levels`. -/
def topological_levels (g : Graph) : List (List String) :=
  topoLoop (topoInit g).2 (g.length + 1) (topoInit g).1
    ((g.map (·.name)).filter (fun n => dictGetD (topoInit g).1 n 0 = 0)) []

/-! ### Node execution and the run loop (`AgentGraph.run`) -/

/-- The node's emitted slush: `last_data_slush` if truthy, else the
synthesized `slush_out(signals={node_name, node_result_status})`. -/
def graphNewSlush (node : GraphNode) (nodeName : String) (kwargs : Kwargs)
    (result : Dict String) : Option Slush :=
  if truthySlush (node.agent.lastSlush kwargs) then node.agent.lastSlush kwargs
  else some (node.agent.slushOut
    [("node_name", nodeName),
     ("node_result_status", dictGetD result "status" "unknown")])

/-- Keyword-argument construction of `_execute_node`: the graph's initial
kwargs for root nodes only, the node's static kwargs on top, and the merged
dependency slushes under the reserved `upstream_slush` key (omitting
dependencies whose result is absent or whose slush is falsy). -/
def graphBuildKwargs (node : GraphNode) (completed : Dict GraphNodeResult)
    (initial : Kwargs) : Kwargs :=
  let kwargs1 : Kwargs :=
    if node.depends_on = [] ∧ initial ≠ [] then dictUpdate [] initial else []
  let kwargs2 :=
    if node.kwargs ≠ [] then dictUpdate kwargs1 node.kwargs else kwargs1
  let upstream : Dict Slush := node.depends_on.foldl (fun acc dep =>
    match dictGet completed dep with
    | some depRes =>
      match depRes.data_slush with
      | some s => if s ≠ [] then dictInsert acc dep s else acc
      | none => acc
    | none => acc) []
  if node.depends_on ≠ [] ∧ upstream ≠ [] then
    dictInsert kwargs2 "upstream_slush" (JVal.smap upstream)
  else kwargs2

/-- `AgentGraph._execute_node`. -/
def executeNode (g : Graph) (nodeName : String) (completed : Dict GraphNodeResult)
    (initial : Kwargs) : GraphNodeResult :=
  match lookupNode g nodeName with
  | none =>
    -- unreachable: the run loop only executes names of existing nodes
    { name := nodeName, agent_name := "",
      result := [("status", "error"), ("message", "KeyError")],
      data_slush := none, status := "error" }
  | some node =>
    match node.agent.execute (graphBuildKwargs node completed initial) with
    | .ok result =>
      { name := nodeName, agent_name := node.agent.name, result := result,
        data_slush := graphNewSlush node nodeName
          (graphBuildKwargs node completed initial) result,
        status := "success" }
    | .error e =>
      { name := nodeName, agent_name := node.agent.name,
        result := [("status", "error"), ("message", e)],
        data_slush := none, status := "error" }

/-- `AgentGraph._make_skipped`. -/
def makeSkipped (g : Graph) (name : String) : GraphNodeResult :=
  { name := name,
    agent_name := ((lookupNode g name).map (fun n => n.agent.name)).getD "",
    result := [("status", "info"), ("message", "skipped")],
    data_slush := none, status := "skipped" }

/-- `AgentGraph._should_skip`: some dependency is in the skipped set or has an
error result. -/
def shouldSkip (g : Graph) (name : String) (skipped : List String)
    (completed : Dict GraphNodeResult) : Bool :=
  match lookupNode g name with
  | none => false
  | some node =>
    node.depends_on.any (fun dep =>
      decide (dep ∈ skipped) ||
      (match dictGet completed dep with
       | some r => decide (r.status = "error")
       | none => false))

/-- `AgentGraph._collect_dependents`: transitively add all dependents of a
failed node to the skipped set.  Fuel bounds the recursion depth; every
recursive call has first added a new name, so `g.length + 1` is enough. -/
def collectDependents (g : Graph) : Nat → String → List String → List String
  | 0, _, skipped => skipped
  | fuel + 1, failedName, skipped =>
    g.foldl (fun sk node =>
      if node.name ∉ sk ∧ failedName ∈ node.depends_on then
        collectDependents g fuel node.name (sk ++ [node.name])
      else sk) skipped

/-- `AgentGraph._has_error`. -/
def hasErrorResults (results : Dict GraphNodeResult) : Bool :=
  results.any (fun kv => kv.2.status = "error")

/-- Per-run mutable state of `AgentGraph.run`. -/
structure GraphRunState where
  results : Dict GraphNodeResult := []
  order : List String := []
  skipped : List String := []

/-- The stop-on-error early return: mark every node not yet in the result map
as skipped, in insertion order. -/
def markAllRemainingSkipped (g : Graph) (st : GraphRunState) : GraphRunState :=
  g.foldl (fun acc node =>
    if (dictGet acc.results node.name).isSome then acc
    else { acc with
      results := dictInsert acc.results node.name (makeSkipped g node.name),
      order := acc.order ++ [node.name] }) st

/-- The pre-level sweep when `stop_on_error` already saw an error: mark the
whole level skipped without running it. -/
def markLevelSkippedAll (g : Graph) (level : List String) (st : GraphRunState) :
    GraphRunState :=
  level.foldl (fun acc name =>
    if (dictGet acc.results name).isSome then acc
    else { acc with
      results := dictInsert acc.results name (makeSkipped g name),
      order := acc.order ++ [name] }) st

/-- The `for name in level` partition: mark nodes with failed/skipped
dependencies as skipped, keep the rest (in level order) to run. -/
def markLevel (g : Graph) (level : List String) (st : GraphRunState) :
    GraphRunState × List String :=
  level.foldl (fun (p : GraphRunState × List String) name =>
    if shouldSkip g name p.1.skipped p.1.results then
      ({ results := dictInsert p.1.results name (makeSkipped g name),
         order := p.1.order ++ [name],
         skipped := setAdd p.1.skipped name }, p.2)
    else (p.1, p.2 ++ [name])) (st, [])

inductive GraphSeqOut
  | done (st : GraphRunState)
  | halted (res : GraphResult)

/-- The sequential execution branch of a level (also the `stop_on_error`
branch, whose first error halts the whole run). -/
def runSeq (g : Graph) (opts : GraphOptions) (initial : Kwargs) :
    List String → GraphRunState → GraphSeqOut
  | [], st => .done st
  | name :: rest, st =>
    if (executeNode g name st.results initial).status == "error" then
      if opts.stop_on_error then
        .halted
          { status := "error",
            nodes := (markAllRemainingSkipped g
              { st with
                results := dictInsert st.results name (executeNode g name st.results initial),
                order := st.order ++ [name] }).results,
            execution_order := (markAllRemainingSkipped g
              { st with
                results := dictInsert st.results name (executeNode g name st.results initial),
                order := st.order ++ [name] }).order,
            error := some (dictGetD (executeNode g name st.results initial).result
              "message" "A node failed") }
      else
        runSeq g opts initial rest
          { results := dictInsert st.results name (executeNode g name st.results initial),
            order := st.order ++ [name],
            skipped := collectDependents g (g.length + 1) name st.skipped }
    else
      runSeq g opts initial rest
        { st with
          results := dictInsert st.results name (executeNode g name st.results initial),
          order := st.order ++ [name] }

/-- The parallel execution branch: all of the level's runnable nodes execute
against the pre-level result snapshot, then the results are merged back in
stable (level) order by the scheduling loop. -/
def applyLevelResults (g : Graph) : List (String × GraphNodeResult) →
    GraphRunState → GraphRunState
  | [], st => st
  | (name, r) :: rest, st =>
    applyLevelResults g rest
      (if r.status = "error" then
        { results := dictInsert st.results name r, order := st.order ++ [name],
          skipped := collectDependents g (g.length + 1) name st.skipped }
      else
        { st with results := dictInsert st.results name r,
                  order := st.order ++ [name] })

/-- The tail of `AgentGraph.run`: `partial` iff any node errored or was
skipped, else `success`. -/
def graphFinalize (st : GraphRunState) : GraphResult :=
  { status :=
      if hasErrorResults st.results ||
         st.results.any (fun kv => kv.2.status = "skipped")
      then "partial" else "success",
    nodes := st.results, execution_order := st.order, error := none }

/-- The `for level in levels` loop of `AgentGraph.run`. -/
def runLevels (g : Graph) (opts : GraphOptions) (initial : Kwargs) :
    List (List String) → GraphRunState → GraphResult
  | [], st => graphFinalize st
  | level :: rest, st =>
    if opts.stop_on_error ∧ hasErrorResults st.results then
      runLevels g opts initial rest (markLevelSkippedAll g level st)
    else
      if (markLevel g level st).2 = [] then
        runLevels g opts initial rest (markLevel g level st).1
      else if opts.parallel ∧ ¬opts.stop_on_error ∧ (markLevel g level st).2.length > 1 then
        runLevels g opts initial rest
          (applyLevelResults g
            ((markLevel g level st).2.map
              (fun n => (n, executeNode g n (markLevel g level st).1.results initial)))
            (markLevel g level st).1)
      else
        match runSeq g opts initial (markLevel g level st).2 (markLevel g level st).1 with
        | .done st3 => runLevels g opts initial rest st3
        | .halted res => res

/-- `AgentGraph.run`: validate (re-raising a crash, raising on invalid), then
execute level by level. -/
def runGraph (g : Graph) (opts : GraphOptions) (initial : Kwargs) :
    Except String GraphResult :=
  match validate g with
  | .error e => .error e
  | .ok (valid, errors) =>
    if valid then .ok (runLevels g opts initial (topological_levels g) {})
    else .error ("AgentGraph validation failed:\n" ++ String.intercalate "\n" errors)

/-! ### Claim C2: validation on a cyclic graph with a second root -/

/-- An agent whose behaviour is irrelevant to validation. -/
def stubAgent (nm : String) : AgentBeh :=
  { name := nm, execute := fun _ => .ok [("status", "success")],
    lastSlush := fun _ => none, slushOut := fun s => s }

/-- `a → b → c → b` (cycle `b → c → b`) plus `d → a`: the walk from `a` finds
the cycle and aborts, leaving `a`, `b`, `c` gray; the walk from `d` then meets
the gray `a` with `a` absent from its fresh stack. -/
def residueCycleGraph : Graph :=
  [ { name := "a", agent := stubAgent "A", depends_on := ["b"] },
    { name := "b", agent := stubAgent "B", depends_on := ["c"] },
    { name := "c", agent := stubAgent "C", depends_on := ["b"] },
    { name := "d", agent := stubAgent "D", depends_on := ["a"] } ]

/-- C2 (code bug): `validate()` does not return a "Cycle" error for every
cyclic graph — on this one it crashes with an uncaught `ValueError` from
`stack.index(dep)`: the aborted first walk leaves `b → c → b`'s tree gray, and
the walk from the second root `d` meets the gray `a` which is not on its own
stack.  The spec requires validation errors to be returned as a list. -/
theorem validate_cycle_residue_crash :
    validate residueCycleGraph =
      .error ("ValueError: " ++ "a" ++ " is not in list") := by
  rfl

/-! ### Claim C8: the diamond graph -/

/-- The diamond: `left` and `right` depend on `root`, `sink` on both.  All
agents succeed; `left` and `right` emit the given (non-empty) slushes; the
sink's `execute` is an arbitrary function `f`, so the result it records
identifies exactly the kwargs the scheduler passed it. -/
def diamondGraph (rR rL rG : Dict String) (sL sR : Slush)
    (f : Kwargs → Dict String) : Graph :=
  [ { name := "root",
      agent := { name := "rootagent", execute := fun _ => .ok rR,
                 lastSlush := fun _ => some [("rootsig", "1")],
                 slushOut := fun s => s } },
    { name := "left",
      agent := { name := "leftagent", execute := fun _ => .ok rL,
                 lastSlush := fun _ => some sL, slushOut := fun s => s },
      depends_on := ["root"] },
    { name := "right",
      agent := { name := "rightagent", execute := fun _ => .ok rG,
                 lastSlush := fun _ => some sR, slushOut := fun s => s },
      depends_on := ["root"] },
    { name := "sink",
      agent := { name := "sinkagent", execute := fun kw => .ok (f kw),
                 lastSlush := fun _ => some [("sinksig", "1")],
                 slushOut := fun s => s },
      depends_on := ["left", "right"] } ]

/-- `run` under a passing validation. -/
theorem runGraph_of_valid (g : Graph) (opts : GraphOptions) (initial : Kwargs)
    (h : validate g = .ok (true, [])) :
    runGraph g opts initial =
      .ok (runLevels g opts initial (topological_levels g) ({} : GraphRunState)) := by
  unfold runGraph
  rw [h]
  rfl

/-- State after the diamond's first level. -/
def dmSt1 (rR : Dict String) : GraphRunState :=
  { results := [("root",
      { name := "root", agent_name := "rootagent", result := rR,
        data_slush := some [("rootsig", "1")], status := "success" })],
    order := ["root"], skipped := [] }

/-- State after the diamond's second level. -/
def dmSt2 (rR rL rG : Dict String) (sL sR : Slush) : GraphRunState :=
  { results := [("root",
      { name := "root", agent_name := "rootagent", result := rR,
        data_slush := some [("rootsig", "1")], status := "success" }),
    ("left",
      { name := "left", agent_name := "leftagent", result := rL,
        data_slush := some sL, status := "success" }),
    ("right",
      { name := "right", agent_name := "rightagent", result := rG,
        data_slush := some sR, status := "success" })],
    order := ["root", "left", "right"], skipped := [] }

/-- State after the diamond's third level. -/
def dmSt3 (rR rL rG : Dict String) (sL sR : Slush) (f : Kwargs → Dict String) :
    GraphRunState :=
  { results := [("root",
      { name := "root", agent_name := "rootagent", result := rR,
        data_slush := some [("rootsig", "1")], status := "success" }),
    ("left",
      { name := "left", agent_name := "leftagent", result := rL,
        data_slush := some sL, status := "success" }),
    ("right",
      { name := "right", agent_name := "rightagent", result := rG,
        data_slush := some sR, status := "success" }),
    ("sink",
      { name := "sink", agent_name := "sinkagent",
        result := f [("upstream_slush", JVal.smap [("left", sL), ("right", sR)])],
        data_slush := some [("sinksig", "1")], status := "success" })],
    order := ["root", "left", "right", "sink"], skipped := [] }

theorem diamond_validate (rR rL rG : Dict String) (sL sR : Slush)
    (f : Kwargs → Dict String) :
    validate (diamondGraph rR rL rG sL sR f) = .ok (true, []) := by
  rfl

theorem diamond_topoInit (rR rL rG : Dict String) (sL sR : Slush)
    (f : Kwargs → Dict String) :
    topoInit (diamondGraph rR rL rG sL sR f) =
      ([("root", 0), ("left", 1), ("right", 1), ("sink", 2)],
       [("root", ["left", "right"]), ("left", ["sink"]), ("right", ["sink"]),
        ("sink", [])]) := by
  rfl

theorem diamond_levels (rR rL rG : Dict String) (sL sR : Slush)
    (f : Kwargs → Dict String) :
    topological_levels (diamondGraph rR rL rG sL sR f) =
      [["root"], ["left", "right"], ["sink"]] := by
  unfold topological_levels
  rw [diamond_topoInit]
  rfl

theorem diamond_level1 (rR rL rG : Dict String) (sL sR : Slush)
    (f : Kwargs → Dict String) (rest : List (List String)) :
    runLevels (diamondGraph rR rL rG sL sR f) {} [] (["root"] :: rest)
        ({} : GraphRunState) =
      runLevels (diamondGraph rR rL rG sL sR f) {} [] rest (dmSt1 rR) := by
  rfl

theorem diamond_level2 (rR rL rG : Dict String) (kL vL : String) (tL : Slush)
    (kR vR : String) (tR : Slush) (f : Kwargs → Dict String)
    (rest : List (List String)) :
    runLevels (diamondGraph rR rL rG ((kL, vL) :: tL) ((kR, vR) :: tR) f) {} []
        (["left", "right"] :: rest) (dmSt1 rR) =
      runLevels (diamondGraph rR rL rG ((kL, vL) :: tL) ((kR, vR) :: tR) f) {} []
        rest (dmSt2 rR rL rG ((kL, vL) :: tL) ((kR, vR) :: tR)) := by
  rfl

theorem diamond_level3 (rR rL rG : Dict String) (kL vL : String) (tL : Slush)
    (kR vR : String) (tR : Slush) (f : Kwargs → Dict String) :
    runLevels (diamondGraph rR rL rG ((kL, vL) :: tL) ((kR, vR) :: tR) f) {} []
        [["sink"]] (dmSt2 rR rL rG ((kL, vL) :: tL) ((kR, vR) :: tR)) =
      graphFinalize
        (dmSt3 rR rL rG ((kL, vL) :: tL) ((kR, vR) :: tR) f) := by
  rfl

/-- C8: running the diamond graph (all agents succeed, `left`/`right` emit
non-empty slushes) succeeds with execution order `root, left, right, sink`
(root before both, both before sink), and the sink's agent is invoked with
kwargs holding, under the reserved `upstream_slush` key, the map with keys
exactly `{left, right}`, each bound to that producer's slush. -/
theorem diamond_graph_spec (rR rL rG : Dict String) (kL vL : String)
    (tL : Slush) (kR vR : String) (tR : Slush) (f : Kwargs → Dict String) :
    ∃ gr, runGraph
        (diamondGraph rR rL rG ((kL, vL) :: tL) ((kR, vR) :: tR) f) {} [] =
          .ok gr ∧
      gr.execution_order = ["root", "left", "right", "sink"] ∧
      dictGet gr.nodes "sink" = some
        { name := "sink", agent_name := "sinkagent",
          result := f [("upstream_slush",
            JVal.smap [("left", (kL, vL) :: tL), ("right", (kR, vR) :: tR)])],
          data_slush := some [("sinksig", "1")], status := "success" } ∧
      gr.status = "success" := by
  refine ⟨graphFinalize (dmSt3 rR rL rG ((kL, vL) :: tL) ((kR, vR) :: tR) f),
    ?_, ?_, ?_, ?_⟩
  · rw [runGraph_of_valid _ _ _ (diamond_validate rR rL rG _ _ f),
      diamond_levels rR rL rG _ _ f, diamond_level1 rR rL rG _ _ f,
      diamond_level2 rR rL rG kL vL tL kR vR tR f,
      diamond_level3 rR rL rG kL vL tL kR vR tR f]
  · rfl
  · rfl
  · rfl

/-! ## Claim C7: skip propagation.  Dictionary access lemmas. -/

theorem dictGet_insert_self {α : Type} (d : Dict α) (k : String) (v : α) :
    dictGet (dictInsert d k v) k = some v := by
  induction d with
  | nil => simp [dictInsert, dictGet]
  | cons hd tl ih =>
    obtain ⟨k0, v0⟩ := hd
    by_cases h : k0 = k
    · subst h
      show dictGet (if k0 = k0 then (k0, v) :: tl else (k0, v0) :: dictInsert tl k0 v) k0 = some v
      rw [if_pos rfl]
      simp [dictGet]
    · show dictGet (if k0 = k then (k, v) :: tl else (k0, v0) :: dictInsert tl k v) k = some v
      rw [if_neg h]
      simp only [dictGet, if_neg h]
      exact ih

theorem dictGet_insert_ne {α : Type} (d : Dict α) (k k' : String) (v : α)
    (hne : k' ≠ k) : dictGet (dictInsert d k v) k' = dictGet d k' := by
  induction d with
  | nil =>
    simp only [dictInsert, dictGet]
    rw [if_neg (fun h => hne h.symm)]
  | cons hd tl ih =>
    obtain ⟨k0, v0⟩ := hd
    by_cases h : k0 = k
    · subst h
      show dictGet (if k0 = k0 then (k0, v) :: tl else (k0, v0) :: dictInsert tl k0 v) k' =
        dictGet ((k0, v0) :: tl) k'
      rw [if_pos rfl]
      simp only [dictGet, if_neg (fun h2 : k0 = k' => hne h2.symm)]
    · show dictGet (if k0 = k then (k, v) :: tl else (k0, v0) :: dictInsert tl k v) k' =
        dictGet ((k0, v0) :: tl) k'
      rw [if_neg h]
      by_cases h2 : k0 = k'
      · simp [dictGet, h2]
      · simp only [dictGet, if_neg h2]
        exact ih

theorem dictGet_isSome_insert {α : Type} (d : Dict α) (k k' : String) (v : α) :
    (dictGet (dictInsert d k v) k').isSome = true ↔
      ((dictGet d k').isSome = true ∨ k' = k) := by
  by_cases h : k' = k
  · subst h
    simp [dictGet_insert_self]
  · rw [dictGet_insert_ne d k k' v h]
    simp [h]

/-! ### The dependency relation -/

/-- `n` depends on `a` through an edge the scheduler honours: some node named
`n` lists `a` among its dependencies and `a` names an existing node. -/
def depEdgeE (g : Graph) (n a : String) : Prop :=
  (∃ nd ∈ g, nd.name = n ∧ a ∈ nd.depends_on) ∧ nodeExists g a = true

theorem depEdgeE_source_exists {g : Graph} {n a : String}
    (h : depEdgeE g n a) : nodeExists g n = true := by
  obtain ⟨⟨nd, hnd, hname, _⟩, _⟩ := h
  subst hname
  simp only [nodeExists, List.any_eq_true]
  exact ⟨nd, hnd, by simp⟩

/-- Every existing dependency is an existing node when the missing-dependency
pass emits nothing. -/
theorem missingDepErrors_nil_deps_exist (g : Graph)
    (h : missingDepErrors g = []) :
    ∀ nd ∈ g, ∀ dep ∈ nd.depends_on, nodeExists g dep = true := by
  intro nd hnd dep hdep
  by_contra hne
  have hin : ∃ e, e ∈ missingDepErrors g := by
    unfold missingDepErrors
    have hgen : ∀ (l : List GraphNode) (acc : List String),
        nd ∈ l → ∀ e ∈ acc, e ∈ l.foldl (fun errs node =>
          errs ++ (node.depends_on.filter (fun d => !nodeExists g d)).map
            (fun d => "Node \"" ++ node.name ++ "\" depends on \"" ++ d ++
              "\", which does not exist")) acc →
        True := fun _ _ _ _ _ _ => trivial
    -- the fold only appends, so the entry generated for (nd, dep) survives
    clear hgen
    suffices hsuf : ∀ (l : List GraphNode) (acc : List String), nd ∈ l →
        ∃ e, e ∈ l.foldl (fun errs node =>
          errs ++ (node.depends_on.filter (fun d => !nodeExists g d)).map
            (fun d => "Node \"" ++ node.name ++ "\" depends on \"" ++ d ++
              "\", which does not exist")) acc by
      exact hsuf g [] hnd
    intro l
    induction l with
    | nil => intro acc hmem; simp at hmem
    | cons x xs ih =>
      intro acc hmem
      rcases List.mem_cons.mp hmem with hx | hx
      · subst hx
        have hmem2 : ("Node \"" ++ nd.name ++ "\" depends on \"" ++ dep ++
            "\", which does not exist") ∈
            acc ++ (nd.depends_on.filter (fun d => !nodeExists g d)).map
              (fun d => "Node \"" ++ nd.name ++ "\" depends on \"" ++ d ++
                "\", which does not exist") := by
          rw [List.mem_append]
          right
          rw [List.mem_map]
          exact ⟨dep, List.mem_filter.mpr ⟨hdep, by simp [hne]⟩, rfl⟩
        -- an element of the accumulator survives the rest of the fold
        suffices hkeep : ∀ (l2 : List GraphNode) (acc2 : List String) (e : String),
            e ∈ acc2 → e ∈ l2.foldl (fun errs node =>
              errs ++ (node.depends_on.filter (fun d => !nodeExists g d)).map
                (fun d => "Node \"" ++ node.name ++ "\" depends on \"" ++ d ++
                  "\", which does not exist")) acc2 by
          exact ⟨_, hkeep xs _ _ hmem2⟩
        intro l2
        induction l2 with
        | nil => intro acc2 e he; simpa using he
        | cons y ys ih2 =>
          intro acc2 e he
          exact ih2 _ _ (by rw [List.mem_append]; exact Or.inl he)
      · exact ih _ hx
  obtain ⟨e, he⟩ := hin
  rw [h] at he
  simp at he

/-! ### DFS completeness: a passing validation implies acyclicity -/

/-- Every entry's existing dependencies appear strictly earlier in the list. -/
def TopoRanked (g : Graph) (L : List String) : Prop :=
  ∀ l1 u l2, L = l1 ++ u :: l2 → ∀ a, depEdgeE g u a → a ∈ l1

/-- Two DFS states with the same gray nodes. -/
def grayEq (st st2 : DfsState) : Prop :=
  ∀ m, colorOf st2 m = Color.gray ↔ colorOf st m = Color.gray

/-- The black nodes are exactly a duplicate-free topologically ranked list. -/
structure InvBlack (g : Graph) (st : DfsState) (L : List String) : Prop where
  ranked : TopoRanked g L
  nodup : L.Nodup
  blackIff : ∀ n, colorOf st n = Color.black ↔ n ∈ L

/-- The body of the dependency fold inside `dfsNode`, extracted for proofs. -/
def dfsStep (g : Graph) (fuel : Nat) (stack1 : List String)
    (acc : Except String (Bool × DfsState)) (dep : String) :
    Except String (Bool × DfsState) :=
  match acc with
  | .error e => .error e
  | .ok (true, st2) => .ok (true, st2)
  | .ok (false, st2) =>
    if nodeExists g dep then
      match colorOf st2 dep with
      | Color.gray => dfsCheckGray stack1 dep st2
      | Color.white => dfsNode g fuel dep stack1 st2
      | Color.black => .ok (false, st2)
    else .ok (false, st2)

theorem dfsNode_succ_eq (g : Graph) (fuel : Nat) (name : String)
    (stack : List String) (st : DfsState) :
    dfsNode g (fuel + 1) name stack st =
      match lookupNode g name with
      | none => .error ("KeyError: " ++ name)
      | some node =>
        match node.depends_on.foldl (dfsStep g fuel (stack ++ [name]))
          (.ok (false, { st with color := dictInsert st.color name Color.gray })) with
        | .error e => .error e
        | .ok (true, st2) => .ok (true, st2)
        | .ok (false, st2) =>
          .ok (false, { st2 with color := dictInsert st2.color name Color.black }) := by
  rfl

/-- Accumulated-error shape of a fold over `dfsStep`. -/
def ErrShape (base : List String) (acc : Except String (Bool × DfsState)) : Prop :=
  ∀ b s2, acc = .ok (b, s2) → ∃ t, s2.errors = base ++ t ∧ (b = true → t ≠ [])

/-- `dfs` only appends to the error list, and returning `True` means it
appended a cycle error. -/
theorem dfsNode_errors_mono (g : Graph) : ∀ (fuel : Nat) (name : String)
    (stack : List String) (st : DfsState) (b : Bool) (st2 : DfsState),
    dfsNode g fuel name stack st = .ok (b, st2) →
    ∃ t, st2.errors = st.errors ++ t ∧ (b = true → t ≠ []) := by
  intro fuel
  induction fuel with
  | zero => intro name stack st b st2 h; exact absurd h (by simp [dfsNode])
  | succ fuel ih =>
    intro name stack st b st2 h
    rw [dfsNode_succ_eq] at h
    cases hlook : lookupNode g name with
    | none => rw [hlook] at h; exact absurd h (by simp)
    | some node =>
      rw [hlook] at h
      replace h : (match node.depends_on.foldl (dfsStep g fuel (stack ++ [name]))
          (.ok (false, { st with color := dictInsert st.color name Color.gray })) with
        | .error e => (.error e : Except String (Bool × DfsState))
        | .ok (true, st2) => .ok (true, st2)
        | .ok (false, st2) =>
          .ok (false, { st2 with color := dictInsert st2.color name Color.black })) =
          .ok (b, st2) := h
      have hfold : ∀ (deps : List String) (acc : Except String (Bool × DfsState)),
          ErrShape st.errors acc →
          ErrShape st.errors (deps.foldl (dfsStep g fuel (stack ++ [name])) acc) := by
        intro deps
        induction deps with
        | nil => intro acc hacc; exact hacc
        | cons dep rest ihd =>
          intro acc hacc
          refine ihd _ ?_
          intro b3 s3 h3
          unfold dfsStep at h3
          cases acc with
          | error e => exact absurd h3 (by simp)
          | ok p =>
            obtain ⟨bb, ss⟩ := p
            cases bb with
            | true =>
              simp only at h3
              obtain ⟨t, ht, hnt⟩ := hacc true ss rfl
              cases h3
              exact ⟨t, ht, hnt⟩
            | false =>
              simp only at h3
              obtain ⟨t, ht, _⟩ := hacc false ss rfl
              by_cases hex : nodeExists g dep
              · rw [if_pos hex] at h3
                cases hcol : colorOf ss dep with
                | gray =>
                  rw [hcol] at h3
                  unfold dfsCheckGray at h3
                  cases hidx : (stack ++ [name]).findIdx? (· = dep) with
                  | none => rw [hidx] at h3; exact absurd h3 (by simp)
                  | some cs =>
                    rw [hidx] at h3
                    simp only [Except.ok.injEq, Prod.mk.injEq] at h3
                    obtain ⟨hb3, hs3⟩ := h3
                    refine ⟨t ++ ["Cycle detected: " ++ String.intercalate " → "
                      (((stack ++ [name]).drop cs) ++ [dep])], ?_, ?_⟩
                    · rw [← hs3]
                      simp [ht]
                    · intro
                      simp
                | white =>
                  rw [hcol] at h3
                  obtain ⟨t2, ht2, hnt2⟩ := ih dep (stack ++ [name]) ss b3 s3 h3
                  refine ⟨t ++ t2, by rw [ht2, ht, List.append_assoc], ?_⟩
                  intro hb3
                  have := hnt2 hb3
                  intro hcontra
                  rcases List.append_eq_nil.mp hcontra with ⟨_, h2⟩
                  exact this h2
                | black =>
                  rw [hcol] at h3
                  simp only [Except.ok.injEq, Prod.mk.injEq] at h3
                  obtain ⟨hb3, hs3⟩ := h3
                  subst hb3 hs3
                  exact ⟨t, ht, by simp⟩
              · rw [if_neg hex] at h3
                simp only [Except.ok.injEq, Prod.mk.injEq] at h3
                obtain ⟨hb3, hs3⟩ := h3
                subst hb3 hs3
                exact ⟨t, ht, by simp⟩
      have hinit : ErrShape st.errors
          (.ok (false, { st with color := dictInsert st.color name Color.gray })) := by
        intro b s2 hb
        simp only [Except.ok.injEq, Prod.mk.injEq] at hb
        obtain ⟨hb1, hb2⟩ := hb
        subst hb1 hb2
        exact ⟨[], by simp⟩
      have hres := hfold node.depends_on _ hinit
      cases hf : node.depends_on.foldl (dfsStep g fuel (stack ++ [name]))
          (.ok (false, { st with color := dictInsert st.color name Color.gray })) with
      | error e => rw [hf] at h; exact absurd h (by simp)
      | ok p =>
        obtain ⟨bb, ss⟩ := p
        rw [hf] at h
        obtain ⟨t, ht, hnt⟩ := hres bb ss hf
        cases bb with
        | true =>
          simp only [Except.ok.injEq, Prod.mk.injEq] at h
          obtain ⟨h1, h2⟩ := h
          subst h1 h2
          exact ⟨t, ht, hnt⟩
        | false =>
          simp only [Except.ok.injEq, Prod.mk.injEq] at h
          obtain ⟨h1, h2⟩ := h
          subst h1
          rw [← h2]
          exact ⟨t, ht, by simp⟩

theorem colorOf_mk_insert (c : Dict Color) (e e' : List String) (k m : String)
    (col : Color) :
    colorOf ⟨dictInsert c k col, e⟩ m = if m = k then col else colorOf ⟨c, e'⟩ m := by
  by_cases h : m = k
  · subst h
    simp [colorOf, dictGetD, dictGet_insert_self]
  · rw [if_neg h]
    simp [colorOf, dictGetD, dictGet_insert_ne c k m col h]

theorem lookupNode_unique (g : Graph) (hnodup : (g.map (·.name)).Nodup)
    {nd : GraphNode} (hnd : nd ∈ g) : lookupNode g nd.name = some nd := by
  induction g with
  | nil => simp at hnd
  | cons x xs ih =>
    rw [List.map_cons, List.nodup_cons] at hnodup
    rcases List.mem_cons.mp hnd with hx | hx
    · subst hx
      simp [lookupNode, List.find?]
    · by_cases hname : x.name = nd.name
      · exfalso
        apply hnodup.1
        rw [hname]
        exact List.mem_map.mpr ⟨nd, hx, rfl⟩
      · show List.find? (fun n => n.name = nd.name) (x :: xs) = some nd
        rw [List.find?_cons_of_neg _ (by simp [hname])]
        exact ih hnodup.2 hx

theorem append_singleton_split {α : Type} (L2 : List α) (x : α) (l1 : List α)
    (u : α) (l2 : List α) (h : l1 ++ u :: l2 = L2 ++ [x]) :
    (l1 = L2 ∧ u = x ∧ l2 = []) ∨ ∃ l2', l2 = l2' ++ [x] ∧ L2 = l1 ++ u :: l2' := by
  rcases List.eq_nil_or_concat l2 with rfl | ⟨l2', y, rfl⟩
  · left
    have h2 : l1 ++ [u] = L2 ++ [x] := h
    have hu : u = x := by
      have h4 := congrArg List.getLast? h2
      rw [List.getLast?_concat, List.getLast?_concat] at h4
      exact Option.some.inj h4
    have hL : l1 = L2 := by
      have h5 := congrArg List.dropLast h2
      rw [List.dropLast_concat, List.dropLast_concat] at h5
      exact h5
    exact ⟨hL, hu, rfl⟩
  · right
    have h2 : (l1 ++ u :: l2') ++ [y] = L2 ++ [x] := by
      rw [← h]
      simp
    have hy : y = x := by
      have h4 := congrArg List.getLast? h2
      rw [List.getLast?_concat, List.getLast?_concat] at h4
      exact Option.some.inj h4
    subst hy
    have hL2 : l1 ++ u :: l2' = L2 := by
      have h5 := congrArg List.dropLast h2
      rw [List.dropLast_concat, List.dropLast_concat] at h5
      exact h5
    exact ⟨l2', by simp, hL2.symm⟩

/-- Invariant carried through the dependency fold of `dfsNode`: on the
"no cycle found yet" path the black set extends topologically, the gray set is
that of the grayed start state, and all existing dependencies processed so far
are black. -/
def FoldP (g : Graph) (L : List String) (st1 : DfsState) (processed : List String)
    (acc : Except String (Bool × DfsState)) : Prop :=
  ∀ s, acc = .ok (false, s) →
    ∃ L2, L <+: L2 ∧ InvBlack g s L2 ∧ grayEq st1 s ∧
      ∀ a ∈ processed, nodeExists g a = true → colorOf s a = Color.black

/-- When error-free DFS from a white node returns `False`, the newly black
nodes extend the topological enumeration, the gray set is untouched, and the
node itself ends black. -/
theorem dfsNode_black (g : Graph) (hnodup : (g.map (·.name)).Nodup) :
    ∀ (fuel : Nat) (name : String) (stack : List String) (st st2 : DfsState)
      (L : List String),
    InvBlack g st L → colorOf st name = Color.white →
    dfsNode g fuel name stack st = .ok (false, st2) →
    ∃ L2, L <+: L2 ∧ InvBlack g st2 L2 ∧ grayEq st st2 ∧
      colorOf st2 name = Color.black := by
  intro fuel
  induction fuel with
  | zero =>
    intro name stack st st2 L _ _ h
    exact absurd h (by simp [dfsNode])
  | succ fuel ih =>
    intro name stack st st2 L hinv hwhite h
    rw [dfsNode_succ_eq] at h
    cases hlook : lookupNode g name with
    | none => rw [hlook] at h; exact absurd h (by simp)
    | some node =>
      rw [hlook] at h
      replace h : (match node.depends_on.foldl (dfsStep g fuel (stack ++ [name]))
          (.ok (false, { st with color := dictInsert st.color name Color.gray })) with
        | .error e => (.error e : Except String (Bool × DfsState))
        | .ok (true, s2) => .ok (true, s2)
        | .ok (false, s2) =>
          .ok (false, { s2 with color := dictInsert s2.color name Color.black })) =
          .ok (false, st2) := h
      have hnameL : name ∉ L := by
        intro hmem
        have hb := (hinv.blackIff name).mpr hmem
        rw [hwhite] at hb
        exact Color.noConfusion hb
      have hc1 : ∀ m, colorOf { st with color := dictInsert st.color name Color.gray } m =
          if m = name then Color.gray else colorOf st m := by
        intro m
        exact colorOf_mk_insert st.color st.errors st.errors name m Color.gray
      have hinv1 : InvBlack g { st with color := dictInsert st.color name Color.gray } L := by
        refine ⟨hinv.ranked, hinv.nodup, ?_⟩
        intro n
        rw [hc1 n]
        by_cases hn : n = name
        · subst hn
          rw [if_pos rfl]
          constructor
          · intro hh; exact absurd hh (by decide)
          · intro hh; exact absurd hh hnameL
        · rw [if_neg hn]
          exact hinv.blackIff n
      have hstep : ∀ (processed : List String) (acc : Except String (Bool × DfsState))
          (dep : String),
          FoldP g L { st with color := dictInsert st.color name Color.gray } processed acc →
          FoldP g L { st with color := dictInsert st.color name Color.gray }
            (processed ++ [dep]) (dfsStep g fuel (stack ++ [name]) acc dep) := by
        intro processed acc dep hacc s hs
        unfold dfsStep at hs
        cases acc with
        | error e => exact absurd hs (by simp)
        | ok p =>
          obtain ⟨bb, ss⟩ := p
          cases bb with
          | true => exact absurd hs (by simp)
          | false =>
            simp only at hs
            obtain ⟨L2, hpre, hinv2, hgr2, hblk⟩ := hacc ss rfl
            by_cases hex : nodeExists g dep
            · rw [if_pos hex] at hs
              cases hcol : colorOf ss dep with
              | gray =>
                rw [hcol] at hs
                unfold dfsCheckGray at hs
                cases hidx : (stack ++ [name]).findIdx? (· = dep) with
                | none => rw [hidx] at hs; exact absurd hs (by simp)
                | some cs => rw [hidx] at hs; exact absurd hs (by simp)
              | white =>
                rw [hcol] at hs
                obtain ⟨L3, hpre3, hinv3, hgr3, hdblack⟩ :=
                  ih dep (stack ++ [name]) ss s L2 hinv2 hcol hs
                refine ⟨L3, hpre.trans hpre3, hinv3, ?_, ?_⟩
                · intro m
                  rw [hgr3 m, hgr2 m]
                · intro a ha hexa
                  rcases List.mem_append.mp ha with hm | hm
                  · have hbss := hblk a hm hexa
                    have haL2 : a ∈ L2 := (hinv2.blackIff a).mp hbss
                    exact (hinv3.blackIff a).mpr (hpre3.subset haL2)
                  · have : a = dep := by simpa using hm
                    subst this
                    exact hdblack
              | black =>
                rw [hcol] at hs
                simp only [Except.ok.injEq, Prod.mk.injEq, true_and] at hs
                subst hs
                refine ⟨L2, hpre, hinv2, hgr2, ?_⟩
                intro a ha hexa
                rcases List.mem_append.mp ha with hm | hm
                · exact hblk a hm hexa
                · have : a = dep := by simpa using hm
                  subst this
                  exact hcol
            · rw [if_neg hex] at hs
              simp only [Except.ok.injEq, Prod.mk.injEq, true_and] at hs
              subst hs
              refine ⟨L2, hpre, hinv2, hgr2, ?_⟩
              intro a ha hexa
              rcases List.mem_append.mp ha with hm | hm
              · exact hblk a hm hexa
              · have : a = dep := by simpa using hm
                subst this
                exact absurd hexa hex
      have hfold : ∀ (deps processed : List String)
          (acc : Except String (Bool × DfsState)),
          FoldP g L { st with color := dictInsert st.color name Color.gray } processed acc →
          FoldP g L { st with color := dictInsert st.color name Color.gray }
            (processed ++ deps) (deps.foldl (dfsStep g fuel (stack ++ [name])) acc) := by
        intro deps
        induction deps with
        | nil =>
          intro processed acc hacc
          simpa using hacc
        | cons d rest ihd =>
          intro processed acc hacc
          have h2 := ihd (processed ++ [d]) _ (hstep processed acc d hacc)
          rw [List.append_assoc] at h2
          simpa using h2
      have hinit : FoldP g L { st with color := dictInsert st.color name Color.gray } []
          (.ok (false, { st with color := dictInsert st.color name Color.gray })) := by
        intro s hs
        simp only [Except.ok.injEq, Prod.mk.injEq, true_and] at hs
        subst hs
        exact ⟨L, List.prefix_refl L, hinv1, fun m => Iff.rfl, by simp⟩
      have hfoldRes := hfold node.depends_on [] _ hinit
      rw [List.nil_append] at hfoldRes
      cases hf : node.depends_on.foldl (dfsStep g fuel (stack ++ [name]))
          (.ok (false, { st with color := dictInsert st.color name Color.gray })) with
      | error e => rw [hf] at h; exact absurd h (by simp)
      | ok p =>
        obtain ⟨bb, sF⟩ := p
        rw [hf] at h
        cases bb with
        | true => exact absurd h (by simp)
        | false =>
          simp only [Except.ok.injEq, Prod.mk.injEq, true_and] at h
          obtain ⟨L2, hpre, hinv2, hgr2, hblkAll⟩ := hfoldRes sF hf
          have hgraySF : colorOf sF name = Color.gray := by
            rw [hgr2 name, hc1 name, if_pos rfl]
          have hnameL2 : name ∉ L2 := by
            intro hmem
            have hb := (hinv2.blackIff name).mpr hmem
            rw [hgraySF] at hb
            exact Color.noConfusion hb
          have hc2 : ∀ m, colorOf st2 m =
              if m = name then Color.black else colorOf sF m := by
            intro m
            rw [← h]
            exact colorOf_mk_insert sF.color sF.errors sF.errors name m Color.black
          refine ⟨L2 ++ [name], hpre.trans (List.prefix_append L2 [name]),
            ⟨?_, ?_, ?_⟩, ?_, ?_⟩
          · intro l1 u l2 hsplit a hedge
            rcases append_singleton_split L2 name l1 u l2 hsplit.symm with
              ⟨hl1, hu, _⟩ | ⟨l2', _, hL2⟩
            · subst hl1 hu
              obtain ⟨⟨nd, hndg, hndname, hadep⟩, hexa⟩ := hedge
              have hun := lookupNode_unique g hnodup hndg
              rw [hndname, hlook] at hun
              have hnd : nd = node := by
                injection hun with h2
                exact h2.symm
              subst hnd
              have hblack := hblkAll a hadep hexa
              exact (hinv2.blackIff a).mp hblack
            · exact hinv2.ranked l1 u l2' hL2 a hedge
          · rw [List.nodup_append]
            refine ⟨hinv2.nodup, List.nodup_singleton name, ?_⟩
            intro a ha hb
            have hab : a = name := by simpa using hb
            subst hab
            exact hnameL2 ha
          · intro n
            rw [hc2 n]
            by_cases hn : n = name
            · subst hn
              simp
            · rw [if_neg hn]
              rw [hinv2.blackIff n]
              simp [hn]
          · intro m
            rw [hc2 m]
            by_cases hm : m = name
            · subst hm
              rw [if_pos rfl, hwhite]
              constructor
              · intro hh; exact absurd hh (by decide)
              · intro hh; exact absurd hh (by decide)
            · rw [if_neg hm, hgr2 m, hc1 m, if_neg hm]
          · rw [hc2 name, if_pos rfl]

theorem validateLoop_errors_mono (g : Graph) : ∀ (names : List String)
    (st stF : DfsState), validateLoop g names st = .ok stF →
    ∃ t, stF.errors = st.errors ++ t := by
  intro names
  induction names with
  | nil =>
    intro st stF h
    simp only [validateLoop, Except.ok.injEq] at h
    subst h
    exact ⟨[], by simp⟩
  | cons name rest ih =>
    intro st stF h
    unfold validateLoop at h
    by_cases hcol : colorOf st name = Color.white
    · rw [if_pos hcol] at h
      cases hdfs : dfsNode g (g.length + 1) name [] st with
      | error e => rw [hdfs] at h; exact absurd h (by simp)
      | ok p =>
        obtain ⟨b, st2⟩ := p
        rw [hdfs] at h
        obtain ⟨t1, ht1, _⟩ := dfsNode_errors_mono g _ _ _ _ _ _ hdfs
        obtain ⟨t2, ht2⟩ := ih st2 stF h
        exact ⟨t1 ++ t2, by rw [ht2, ht1, List.append_assoc]⟩
    · rw [if_neg hcol] at h
      exact ih st stF h

theorem validateLoop_black (g : Graph) (hnodup : (g.map (·.name)).Nodup) :
    ∀ (names : List String) (st stF : DfsState) (L : List String),
    InvBlack g st L → (∀ m, colorOf st m ≠ Color.gray) →
    validateLoop g names st = .ok stF → stF.errors.isEmpty = true →
    ∃ LF, L <+: LF ∧ InvBlack g stF LF ∧
      ∀ n ∈ names, colorOf stF n = Color.black := by
  intro names
  induction names with
  | nil =>
    intro st stF L hinv hng h _
    simp only [validateLoop, Except.ok.injEq] at h
    subst h
    exact ⟨L, List.prefix_refl L, hinv, by simp⟩
  | cons name rest ih =>
    intro st stF L hinv hng h hempty
    unfold validateLoop at h
    by_cases hcol : colorOf st name = Color.white
    · rw [if_pos hcol] at h
      cases hdfs : dfsNode g (g.length + 1) name [] st with
      | error e => rw [hdfs] at h; exact absurd h (by simp)
      | ok p =>
        obtain ⟨b, st2⟩ := p
        rw [hdfs] at h
        cases b with
        | true =>
          exfalso
          obtain ⟨t1, ht1, hne1⟩ := dfsNode_errors_mono g _ _ _ _ _ _ hdfs
          obtain ⟨t2, ht2⟩ := validateLoop_errors_mono g rest st2 stF h
          rw [List.isEmpty_iff] at hempty
          rw [hempty, ht1, List.append_assoc] at ht2
          rcases List.append_eq_nil.mp ht2.symm with ⟨_, h2⟩
          rcases List.append_eq_nil.mp h2 with ⟨h3, _⟩
          exact hne1 rfl h3
        | false =>
          obtain ⟨L2, hpre2, hinv2, hgr2, hblack⟩ :=
            dfsNode_black g hnodup (g.length + 1) name [] st st2 L hinv hcol hdfs
          have hng2 : ∀ m, colorOf st2 m ≠ Color.gray := by
            intro m hm
            exact hng m ((hgr2 m).mp hm)
          obtain ⟨LF, hpre3, hinvF, hrest⟩ := ih st2 stF L2 hinv2 hng2 h hempty
          refine ⟨LF, hpre2.trans hpre3, hinvF, ?_⟩
          intro n hn
          rcases List.mem_cons.mp hn with hn1 | hn1
          · subst hn1
            have : n ∈ L2 := (hinv2.blackIff n).mp hblack
            exact (hinvF.blackIff n).mpr (hpre3.subset this)
          · exact hrest n hn1
    · rw [if_neg hcol] at h
      have hblackst : colorOf st name = Color.black := by
        cases hc : colorOf st name with
        | white => exact absurd hc hcol
        | gray => exact absurd hc (hng name)
        | black => rfl
      obtain ⟨LF, hpre3, hinvF, hrest⟩ := ih st stF L hinv hng h hempty
      refine ⟨LF, hpre3, hinvF, ?_⟩
      intro n hn
      rcases List.mem_cons.mp hn with hn1 | hn1
      · subst hn1
        have : n ∈ L := (hinv.blackIff n).mp hblackst
        exact (hinvF.blackIff n).mpr (hpre3.subset this)
      · exact hrest n hn1

/-- First index of an element (length if absent). -/
def myIdx (L : List String) (x : String) : Nat :=
  match L with
  | [] => 0
  | y :: r => if y = x then 0 else myIdx r x + 1

theorem myIdx_append_self (l1 : List String) (u : String) (l2 : List String)
    (hu : u ∉ l1) : myIdx (l1 ++ u :: l2) u = l1.length := by
  induction l1 with
  | nil => simp [myIdx]
  | cons y r ih =>
    have hne : ¬(y = u) := fun he => hu (by simp [he])
    simp only [List.cons_append, myIdx, if_neg hne, List.length_cons, List.append_eq]
    rw [ih (fun hm => hu (by simp [hm]))]

theorem myIdx_mem_lt (l1 : List String) (a : String) (ha : a ∈ l1)
    (l2 : List String) : myIdx (l1 ++ l2) a < l1.length := by
  induction l1 with
  | nil => simp at ha
  | cons y r ih =>
    by_cases hy : y = a
    · simp [myIdx, hy]
    · have har : a ∈ r := by
        rcases List.mem_cons.mp ha with h1 | h1
        · exact absurd h1.symm hy
        · exact h1
      simp only [List.cons_append, myIdx, if_neg hy, List.length_cons]
      exact Nat.succ_lt_succ (ih har)

theorem topoRanked_step (g : Graph) (L : List String) (hTR : TopoRanked g L)
    (hnd : L.Nodup) {u a : String} (hu : u ∈ L) (he : depEdgeE g u a) :
    a ∈ L ∧ myIdx L a < myIdx L u := by
  obtain ⟨l1, l2, rfl⟩ := List.append_of_mem hu
  have hal1 : a ∈ l1 := hTR l1 u l2 rfl a he
  have hunotl1 : u ∉ l1 := by
    rw [List.nodup_append] at hnd
    intro hmem
    exact hnd.2.2 hmem (by simp)
  constructor
  · exact List.mem_append.mpr (Or.inl hal1)
  · rw [myIdx_append_self l1 u l2 hunotl1]
    exact myIdx_mem_lt l1 a hal1 (u :: l2)

theorem topoRanked_transGen (g : Graph) (L : List String) (hTR : TopoRanked g L)
    (hnd : L.Nodup) {x y : String}
    (htg : Relation.TransGen (depEdgeE g) x y) (hx : x ∈ L) :
    y ∈ L ∧ myIdx L y < myIdx L x := by
  induction htg with
  | single h => exact topoRanked_step g L hTR hnd hx h
  | tail htg h ih =>
    obtain ⟨hb, hlt⟩ := ih
    obtain ⟨hy, hlt2⟩ := topoRanked_step g L hTR hnd hb h
    exact ⟨hy, hlt2.trans hlt⟩

theorem transGen_source_exists (g : Graph) {x y : String}
    (h : Relation.TransGen (depEdgeE g) x y) : nodeExists g x = true := by
  induction h using Relation.TransGen.head_induction_on with
  | base h2 => exact depEdgeE_source_exists h2
  | ih h2 _ _ => exact depEdgeE_source_exists h2

/-- A validation run that returns `valid` with no errors certifies that every
dependency exists and the dependency relation over existing nodes is acyclic. -/
theorem validate_ok_acyclic (g : Graph) (hnodup : (g.map (·.name)).Nodup)
    (hvalid : validate g = .ok (true, [])) :
    missingDepErrors g = [] ∧ ∀ x, ¬ Relation.TransGen (depEdgeE g) x x := by
  unfold validate at hvalid
  cases hloop : validateLoop g (g.map (·.name))
      { color := g.map (fun n => (n.name, Color.white)),
        errors := missingDepErrors g } with
  | error e => rw [hloop] at hvalid; exact absurd hvalid (by simp)
  | ok stF =>
    rw [hloop] at hvalid
    simp only [Except.ok.injEq, Prod.mk.injEq] at hvalid
    obtain ⟨hemp, herrs⟩ := hvalid
    have hngInit : ∀ m, colorOf
        { color := g.map (fun n => (n.name, Color.white)),
          errors := missingDepErrors g } m ≠ Color.gray := by
      intro m hm
      unfold colorOf dictGetD at hm
      cases hget : dictGet (g.map (fun n => ((n.name : String), Color.white))) m with
      | none => rw [hget] at hm; exact Color.noConfusion hm
      | some c =>
        rw [hget] at hm
        simp only [Option.getD_some] at hm
        subst hm
        have : ∀ (l : List GraphNode), dictGet (l.map (fun n => (n.name, Color.white))) m ≠
            some Color.gray := by
          intro l
          induction l with
          | nil => simp [dictGet]
          | cons hd tl ihl =>
            simp only [List.map_cons, dictGet]
            by_cases hh : hd.name = m
            · rw [if_pos hh]; simp
            · rw [if_neg hh]; exact ihl
        exact this g hget
    have hnbInit : ∀ m, colorOf
        { color := g.map (fun n => (n.name, Color.white)),
          errors := missingDepErrors g } m ≠ Color.black := by
      intro m hm
      unfold colorOf dictGetD at hm
      cases hget : dictGet (g.map (fun n => ((n.name : String), Color.white))) m with
      | none => rw [hget] at hm; exact Color.noConfusion hm
      | some c =>
        rw [hget] at hm
        simp only [Option.getD_some] at hm
        subst hm
        have : ∀ (l : List GraphNode), dictGet (l.map (fun n => (n.name, Color.white))) m ≠
            some Color.black := by
          intro l
          induction l with
          | nil => simp [dictGet]
          | cons hd tl ihl =>
            simp only [List.map_cons, dictGet]
            by_cases hh : hd.name = m
            · rw [if_pos hh]; simp
            · rw [if_neg hh]; exact ihl
        exact this g hget
    have hinvInit : InvBlack g
        { color := g.map (fun n => (n.name, Color.white)),
          errors := missingDepErrors g } [] := by
      refine ⟨?_, List.nodup_nil, ?_⟩
      · intro l1 u l2 hsplit
        simp at hsplit
      · intro n
        simp only [List.not_mem_nil, iff_false]
        exact hnbInit n
    have hempAll : stF.errors.isEmpty = true := by
      rw [herrs]
      rfl
    obtain ⟨LF, _, hinvF, hblackAll⟩ := validateLoop_black g hnodup _ _ stF []
      hinvInit hngInit hloop hempAll
    constructor
    · obtain ⟨t, ht⟩ := validateLoop_errors_mono g _ _ _ hloop
      rw [herrs] at ht
      exact (List.append_eq_nil.mp ht.symm).1
    · intro x htg
      have hxL : x ∈ LF := by
        have hex : nodeExists g x = true := transGen_source_exists g htg
        simp only [nodeExists, List.any_eq_true] at hex
        obtain ⟨nd, hndg, hname⟩ := hex
        have hnm : nd.name = x := by simpa using hname
        have := hblackAll x (by
          rw [← hnm]
          exact List.mem_map.mpr ⟨nd, hndg, rfl⟩)
        exact (hinvF.blackIff x).mp this
      obtain ⟨_, hlt⟩ := topoRanked_transGen g LF hinvF.ranked hinvF.nodup htg hxL
      exact Nat.lt_irrefl _ hlt

/-! ### Kahn correctness (`_topological_levels`) -/

theorem dictGetD_insert_self {α : Type} (d : Dict α) (k : String) (v dflt : α) :
    dictGetD (dictInsert d k v) k dflt = v := by
  unfold dictGetD
  rw [dictGet_insert_self]
  rfl

theorem dictGetD_insert_ne {α : Type} (d : Dict α) (k k' : String) (v dflt : α)
    (hne : k' ≠ k) : dictGetD (dictInsert d k v) k' dflt = dictGetD d k' dflt := by
  unfold dictGetD
  rw [dictGet_insert_ne d k k' v hne]

theorem dictGetD_const_map {α : Type} (l : List GraphNode) (k : String) (c : α) :
    dictGetD (l.map (fun nd => (nd.name, c))) k c = c := by
  induction l with
  | nil => rfl
  | cons hd tl ih =>
    simp only [List.map_cons]
    unfold dictGetD dictGet
    by_cases h : hd.name = k
    · rw [if_pos h]; rfl
    · rw [if_neg h]; exact ih

/-- The dependency list of the (unique) node with a given name. -/
def depsOfName (g : Graph) (n : String) : List String :=
  ((lookupNode g n).map GraphNode.depends_on).getD []

/-- A node's initial Kahn in-degree: its existing dependencies, with
multiplicity. -/
def inDegSpec (g : Graph) (n : String) : Nat :=
  ((depsOfName g n).filter (fun d => nodeExists g d)).length

/-- The dependents list the Kahn initialisation builds for `a`: every node
name, in insertion order, once per occurrence of `a` in its dependency list
(only for existing `a`). -/
def dependentsOf (g : Graph) (a : String) : List String :=
  if nodeExists g a then
    g.flatMap (fun nd => (nd.depends_on.filter (fun d => d = a)).map (fun _ => nd.name))
  else []

/-- The inner-fold body of `topoInit`, extracted for proofs. -/
def topoInitStep (g : Graph) (node : GraphNode)
    (acc2 : Dict Int × Dict (List String)) (dep : String) :
    Dict Int × Dict (List String) :=
  if nodeExists g dep then
    (dictInsert acc2.1 node.name (dictGetD acc2.1 node.name 0 + 1),
     dictInsert acc2.2 dep (dictGetD acc2.2 dep [] ++ [node.name]))
  else acc2

theorem topoInit_eq (g : Graph) :
    topoInit g = g.foldl (fun acc node =>
      node.depends_on.foldl (topoInitStep g node) acc)
      (g.map (fun n => (n.name, (0 : Int))),
       g.map (fun n => (n.name, ([] : List String)))) := by
  rfl

/-- Effect of one node's inner fold on the accumulated maps. -/
theorem topoInitStep_fold (g : Graph) (node : GraphNode) :
    ∀ (deps : List String) (acc : Dict Int × Dict (List String)),
    (∀ n, n ≠ node.name →
      dictGetD (deps.foldl (topoInitStep g node) acc).1 n 0 = dictGetD acc.1 n 0) ∧
    (dictGetD (deps.foldl (topoInitStep g node) acc).1 node.name 0 =
      dictGetD acc.1 node.name 0 +
        ((deps.filter (fun d => nodeExists g d)).length : Int)) ∧
    (∀ a, dictGetD (deps.foldl (topoInitStep g node) acc).2 a [] =
      dictGetD acc.2 a [] ++
        (if nodeExists g a then
          (deps.filter (fun d => d = a)).map (fun _ => node.name) else [])) := by
  intro deps
  induction deps with
  | nil =>
    intro acc
    refine ⟨fun n _ => rfl, by simp, fun a => by simp⟩
  | cons dep rest ih =>
    intro acc
    by_cases hex : nodeExists g dep
    · have hstep : topoInitStep g node acc dep =
          (dictInsert acc.1 node.name (dictGetD acc.1 node.name 0 + 1),
           dictInsert acc.2 dep (dictGetD acc.2 dep [] ++ [node.name])) := by
        unfold topoInitStep
        rw [if_pos hex]
      obtain ⟨ih1, ih2, ih3⟩ := ih (topoInitStep g node acc dep)
      refine ⟨?_, ?_, ?_⟩
      · intro n hn
        rw [show (dep :: rest).foldl (topoInitStep g node) acc =
          rest.foldl (topoInitStep g node) (topoInitStep g node acc dep) from rfl]
        rw [ih1 n hn, hstep]
        exact dictGetD_insert_ne _ _ _ _ _ hn
      · rw [show (dep :: rest).foldl (topoInitStep g node) acc =
          rest.foldl (topoInitStep g node) (topoInitStep g node acc dep) from rfl]
        rw [ih2, hstep]
        simp only [dictGetD_insert_self]
        rw [List.filter_cons, if_pos (by simp [hex])]
        simp only [List.length_cons]
        push_cast
        ring
      · intro a
        rw [show (dep :: rest).foldl (topoInitStep g node) acc =
          rest.foldl (topoInitStep g node) (topoInitStep g node acc dep) from rfl]
        rw [ih3 a, hstep]
        by_cases ha : a = dep
        · subst ha
          simp only [dictGetD_insert_self]
          rw [if_pos hex, if_pos hex]
          rw [List.filter_cons, if_pos (by simp)]
          simp
        · rw [dictGetD_insert_ne _ _ _ _ _ ha]
          congr 1
          by_cases hexa : nodeExists g a
          · rw [if_pos hexa, if_pos hexa]
            rw [List.filter_cons, if_neg (by simp; exact fun h => ha h.symm)]
          · rw [if_neg hexa, if_neg hexa]
    · have hstep : topoInitStep g node acc dep = acc := by
        unfold topoInitStep
        rw [if_neg hex]
      obtain ⟨ih1, ih2, ih3⟩ := ih (topoInitStep g node acc dep)
      rw [hstep] at ih1 ih2 ih3
      refine ⟨?_, ?_, ?_⟩
      · intro n hn
        rw [show (dep :: rest).foldl (topoInitStep g node) acc =
          rest.foldl (topoInitStep g node) (topoInitStep g node acc dep) from rfl, hstep]
        exact ih1 n hn
      · rw [show (dep :: rest).foldl (topoInitStep g node) acc =
          rest.foldl (topoInitStep g node) (topoInitStep g node acc dep) from rfl]
        rw [hstep, ih2]
        rw [List.filter_cons, if_neg (by simp [hex])]
      · intro a
        rw [show (dep :: rest).foldl (topoInitStep g node) acc =
          rest.foldl (topoInitStep g node) (topoInitStep g node acc dep) from rfl]
        rw [hstep, ih3 a]
        congr 1
        by_cases hexa : nodeExists g a
        · rw [if_pos hexa, if_pos hexa]
          rw [List.filter_cons, if_neg (by simp; intro hda; subst hda; exact absurd hexa hex)]
        · rw [if_neg hexa, if_neg hexa]

theorem lookupNode_append (l1 l2 : Graph) (n : String) :
    lookupNode (l1 ++ l2) n =
      match lookupNode l1 n with
      | some nd => some nd
      | none => lookupNode l2 n := by
  induction l1 with
  | nil => rfl
  | cons hd tl ih =>
    by_cases h : hd.name = n
    · have e1 : lookupNode ((hd :: tl) ++ l2) n = some hd := by
        show List.find? _ (hd :: (tl ++ l2)) = some hd
        rw [List.find?_cons_of_pos _ (by simp [h])]
      have e2 : lookupNode (hd :: tl) n = some hd := by
        show List.find? _ (hd :: tl) = some hd
        rw [List.find?_cons_of_pos _ (by simp [h])]
      rw [e1, e2]
    · have e1 : lookupNode ((hd :: tl) ++ l2) n = lookupNode (tl ++ l2) n := by
        show List.find? _ (hd :: (tl ++ l2)) = _
        rw [List.find?_cons_of_neg _ (by simp [h])]
        rfl
      have e2 : lookupNode (hd :: tl) n = lookupNode tl n := by
        show List.find? _ (hd :: tl) = _
        rw [List.find?_cons_of_neg _ (by simp [h])]
        rfl
      rw [e1, e2, ih]

theorem lookupNode_not_mem (l : Graph) (n : String)
    (h : n ∉ l.map (·.name)) : lookupNode l n = none := by
  induction l with
  | nil => rfl
  | cons hd tl ih =>
    have h1 : hd.name ≠ n := by
      intro he
      exact h (by simp [he])
    show List.find? _ (hd :: tl) = none
    rw [List.find?_cons_of_neg _ (by simp [h1])]
    exact ih (fun hm => h (by simp; right; simpa using hm))

/-- In-degree restricted to the nodes of a processed prefix. -/
def inDegSpecOn (g : Graph) (pre : List GraphNode) (n : String) : Nat :=
  ((((lookupNode pre n).map GraphNode.depends_on).getD []).filter
    (fun d => nodeExists g d)).length

/-- Dependents list built from a processed prefix. -/
def dependentsOfOn (g : Graph) (pre : List GraphNode) (a : String) : List String :=
  if nodeExists g a then
    pre.flatMap (fun nd => (nd.depends_on.filter (fun d => d = a)).map (fun _ => nd.name))
  else []

theorem topoInit_fold_spec (g : Graph) (hnodup : (g.map (·.name)).Nodup) :
    ∀ (suf pre : List GraphNode), g = pre ++ suf →
    ∀ acc : Dict Int × Dict (List String),
    (∀ n, dictGetD acc.1 n 0 = (inDegSpecOn g pre n : Int)) →
    (∀ a, dictGetD acc.2 a [] = dependentsOfOn g pre a) →
    (∀ n, dictGetD (suf.foldl (fun acc node =>
        node.depends_on.foldl (topoInitStep g node) acc) acc).1 n 0 =
      (inDegSpecOn g (pre ++ suf) n : Int)) ∧
    (∀ a, dictGetD (suf.foldl (fun acc node =>
        node.depends_on.foldl (topoInitStep g node) acc) acc).2 a [] =
      dependentsOfOn g (pre ++ suf) a) := by
  intro suf
  induction suf with
  | nil =>
    intro pre hg acc h1 h2
    constructor
    · intro n; rw [List.foldl_nil, h1 n, List.append_nil]
    · intro a; rw [List.foldl_nil, h2 a, List.append_nil]
  | cons node rest ih =>
    intro pre hg acc h1 h2
    have hfresh : node.name ∉ pre.map (·.name) := by
      rw [hg] at hnodup
      rw [List.map_append, List.nodup_append] at hnodup
      intro hmem
      exact hnodup.2.2 hmem (by simp)
    obtain ⟨f1, f2, f3⟩ := topoInitStep_fold g node node.depends_on acc
    have hdeg : ∀ n, dictGetD (node.depends_on.foldl (topoInitStep g node) acc).1 n 0 =
        (inDegSpecOn g (pre ++ [node]) n : Int) := by
      intro n
      by_cases hn : n = node.name
      · rw [hn, f2, h1]
        have hprenone : lookupNode pre node.name = none :=
          lookupNode_not_mem pre node.name hfresh
        have hlookpre : inDegSpecOn g pre node.name = 0 := by
          unfold inDegSpecOn
          rw [hprenone]
          rfl
        have hlookapp : lookupNode (pre ++ [node]) node.name = some node := by
          rw [lookupNode_append, hprenone]
          show List.find? _ [node] = some node
          rw [List.find?_cons_of_pos _ (by simp)]
        unfold inDegSpecOn
        rw [hlookapp, hprenone]
        simp
      · rw [f1 n hn, h1 n]
        unfold inDegSpecOn
        rw [lookupNode_append]
        cases hfind : lookupNode pre n with
        | some nd => rfl
        | none =>
          have : lookupNode [node] n = none := by
            show List.find? _ [node] = none
            rw [List.find?_cons_of_neg _ (by simp; exact fun h => hn h.symm)]
            rfl
          rw [this]
    have hdeps : ∀ a, dictGetD (node.depends_on.foldl (topoInitStep g node) acc).2 a [] =
        dependentsOfOn g (pre ++ [node]) a := by
      intro a
      rw [f3 a, h2 a]
      unfold dependentsOfOn
      by_cases hexa : nodeExists g a
      · rw [if_pos hexa, if_pos hexa, if_pos hexa]
        rw [List.flatMap_append]
        simp
      · rw [if_neg hexa, if_neg hexa, if_neg hexa]
        rfl
    have hg2 : g = (pre ++ [node]) ++ rest := by rw [hg]; simp
    have := ih (pre ++ [node]) hg2 _ hdeg hdeps
    rw [show ((pre ++ [node]) ++ rest) = pre ++ node :: rest by simp] at this
    exact this

/-- The maps `_topological_levels` starts from. -/
theorem topoInit_spec (g : Graph) (hnodup : (g.map (·.name)).Nodup) :
    (∀ n, dictGetD (topoInit g).1 n 0 = (inDegSpec g n : Int)) ∧
    (∀ a, dictGetD (topoInit g).2 a [] = dependentsOf g a) := by
  rw [topoInit_eq]
  have h := topoInit_fold_spec g hnodup g [] rfl
    (g.map (fun n => (n.name, (0 : Int))), g.map (fun n => (n.name, ([] : List String))))
    (fun n => by
      show dictGetD (g.map (fun n => (n.name, (0 : Int)))) n 0 = _
      rw [dictGetD_const_map]
      unfold inDegSpecOn lookupNode
      simp [List.find?_nil])
    (fun a => by
      show dictGetD (g.map (fun n => (n.name, ([] : List String)))) a [] = _
      rw [dictGetD_const_map]
      unfold dependentsOfOn
      by_cases hexa : nodeExists g a
      · rw [if_pos hexa]; rfl
      · rw [if_neg hexa])
  rw [List.nil_append] at h
  obtain ⟨ha, hb⟩ := h
  constructor
  · intro n
    rw [ha n]
    rfl
  · intro a
    rw [hb a]
    unfold dependentsOfOn dependentsOf
    rfl

/-- Occurrence count. -/
def cnt (l : List String) (y : String) : Nat :=
  (l.filter (fun d => d = y)).length

theorem cnt_append (l1 l2 : List String) (y : String) :
    cnt (l1 ++ l2) y = cnt l1 y + cnt l2 y := by
  unfold cnt
  rw [List.filter_append, List.length_append]

theorem cnt_singleton (x y : String) :
    cnt [x] y = if x = y then 1 else 0 := by
  unfold cnt
  by_cases h : x = y
  · rw [List.filter_singleton, if_pos (by simp [h])]
    simp [h]
  · rw [List.filter_singleton, if_neg (by simp [h])]
    simp [h]

theorem length_filter_or_disjoint (l : List String) (p q : String → Bool)
    (hdis : ∀ d, ¬(p d = true ∧ q d = true)) :
    (l.filter (fun d => p d || q d)).length =
      (l.filter p).length + (l.filter q).length := by
  induction l with
  | nil => rfl
  | cons x r ih =>
    rw [List.filter_cons, List.filter_cons, List.filter_cons]
    by_cases hp : p x = true
    · have hq : ¬ q x = true := fun hq => hdis x ⟨hp, hq⟩
      rw [if_pos (by simp [hp]), if_pos hp, if_neg hq]
      simp only [List.length_cons]
      rw [ih]
      omega
    · by_cases hq : q x = true
      · rw [if_pos (by simp [hq]), if_neg hp, if_pos hq]
        simp only [List.length_cons]
        rw [ih]
        omega
      · rw [if_neg (by simp [hp, hq]), if_neg hp, if_neg hq]
        exact ih

theorem length_filter_congr (l : List String) (p q : String → Bool)
    (h : ∀ d ∈ l, p d = q d) :
    (l.filter p).length = (l.filter q).length := by
  induction l with
  | nil => rfl
  | cons x r ih =>
    rw [List.filter_cons, List.filter_cons, h x (by simp)]
    by_cases hq : q x = true
    · rw [if_pos hq, if_pos hq]
      simp only [List.length_cons]
      rw [ih (fun d hd => h d (by simp [hd]))]
    · rw [if_neg hq, if_neg hq]
      exact ih (fun d hd => h d (by simp [hd]))

theorem cnt_flatMap {α : Type} (l : List α) (f : α → List String) (y : String) :
    cnt (l.flatMap f) y = (l.map (fun x => cnt (f x) y)).sum := by
  induction l with
  | nil => rfl
  | cons x r ih =>
    rw [List.flatMap_cons, cnt_append, List.map_cons, List.sum_cons, ih]

/-- Remaining in-degree: existing dependencies not yet processed, counted with
multiplicity. -/
def remDeg (g : Graph) (processed : List String) (n : String) : Nat :=
  ((depsOfName g n).filter
    (fun d => nodeExists g d && decide (d ∉ processed))).length

theorem remDeg_nil (g : Graph) (n : String) : remDeg g [] n = inDegSpec g n := by
  unfold remDeg inDegSpec
  apply length_filter_congr
  intro d _
  simp

/-- Splitting the remaining degree over a freshly processed level. -/
theorem remDeg_split (g : Graph) (P C : List String) (n : String)
    (hCex : ∀ c ∈ C, nodeExists g c = true) (hCP : ∀ c ∈ C, c ∉ P) :
    remDeg g P n = remDeg g (P ++ C) n +
      ((depsOfName g n).filter (fun d => decide (d ∈ C))).length := by
  unfold remDeg
  have h1 : ((depsOfName g n).filter
      (fun d => nodeExists g d && decide (d ∉ P))).length =
      ((depsOfName g n).filter (fun d =>
        (nodeExists g d && decide (d ∉ P ++ C)) || decide (d ∈ C))).length := by
    apply length_filter_congr
    intro d _
    by_cases hdC : d ∈ C
    · simp [hdC, hCex d hdC, hCP d hdC]
    · by_cases hdex : nodeExists g d
      · by_cases hdP : d ∈ P
        · simp [hdC, hdex, hdP]
        · simp [hdC, hdex, hdP]
      · simp [hdC, hdex]
  rw [h1]
  apply length_filter_or_disjoint
  intro d ⟨hp, hq⟩
  simp only [Bool.and_eq_true, decide_eq_true_eq] at hp hq
  exact hp.2 (List.mem_append.mpr (Or.inr hq))

theorem cnt_const_map {α : Type} (l : List α) (c y : String) :
    cnt (l.map (fun _ => c)) y = if c = y then l.length else 0 := by
  induction l with
  | nil => simp [cnt]
  | cons x r ih =>
    rw [List.map_cons]
    show cnt (c :: r.map (fun _ => c)) y = _
    unfold cnt
    rw [List.filter_cons]
    by_cases h : c = y
    · rw [if_pos (by simp [h]), if_pos h]
      simp only [List.length_cons]
      unfold cnt at ih
      rw [ih, if_pos h]
    · rw [if_neg (by simp [h]), if_neg h]
      unfold cnt at ih
      rw [ih, if_neg h]

theorem sum_zero_of_absent (n x : String) : ∀ (l : List GraphNode),
    n ∉ l.map (·.name) →
    (l.map (fun nd => if nd.name = n then
      ((nd.depends_on.filter (fun d => d = x)).length) else 0)).sum = 0 := by
  intro l
  induction l with
  | nil => intro _; rfl
  | cons hd tl ih =>
    intro h
    have h1 : ¬(hd.name = n) := fun he => h (by simp [he])
    rw [List.map_cons, List.sum_cons, if_neg h1, ih (fun hm => h (by simp; right; simpa using hm))]

theorem sum_single_name (g : Graph) (n x : String) : ∀ (l : List GraphNode),
    (l.map (·.name)).Nodup →
    (l.map (fun nd => if nd.name = n then
      ((nd.depends_on.filter (fun d => d = x)).length) else 0)).sum =
    (((((lookupNode l n).map GraphNode.depends_on).getD [])).filter
      (fun d => d = x)).length := by
  intro l
  induction l with
  | nil => intro _; rfl
  | cons hd tl ih =>
    intro hnd
    rw [List.map_cons, List.nodup_cons] at hnd
    rw [List.map_cons, List.sum_cons]
    by_cases h : hd.name = n
    · rw [if_pos h]
      have hlook : lookupNode (hd :: tl) n = some hd := by
        show List.find? _ (hd :: tl) = some hd
        rw [List.find?_cons_of_pos _ (by simp [h])]
      rw [hlook]
      have hzero := sum_zero_of_absent n x tl (by rw [← h]; exact hnd.1)
      rw [hzero]
      simp
    · rw [if_neg h]
      have hlook : lookupNode (hd :: tl) n = lookupNode tl n := by
        show List.find? _ (hd :: tl) = _
        rw [List.find?_cons_of_neg _ (by simp [h])]
        rfl
      rw [hlook, Nat.zero_add]
      exact ih hnd.2

theorem cnt_dependentsOf (g : Graph) (hnodup : (g.map (·.name)).Nodup)
    (x n : String) :
    cnt (dependentsOf g x) n =
      if nodeExists g x then cnt (depsOfName g n) x else 0 := by
  unfold dependentsOf
  by_cases hex : nodeExists g x
  · rw [if_pos hex, if_pos hex]
    rw [cnt_flatMap]
    have hmap : g.map (fun nd => cnt ((nd.depends_on.filter (fun d => d = x)).map
        (fun _ => nd.name)) n) =
        g.map (fun nd => if nd.name = n then
          ((nd.depends_on.filter (fun d => d = x)).length) else 0) := by
      apply List.map_congr_left
      intro nd _
      rw [cnt_const_map]
    rw [hmap, sum_single_name g n x g hnodup]
    rfl
  · rw [if_neg hex, if_neg hex]
    rfl

theorem sum_cnt_nodup (l : List String) : ∀ (C : List String), C.Nodup →
    (C.map (fun x => cnt l x)).sum =
      (l.filter (fun d => decide (d ∈ C))).length := by
  intro C
  induction C with
  | nil =>
    intro _
    simp [List.filter_eq_nil_iff]
  | cons x r ih =>
    intro hnd
    rw [List.nodup_cons] at hnd
    rw [List.map_cons, List.sum_cons, ih hnd.2]
    have hcong : (l.filter (fun d => decide (d ∈ x :: r))).length =
        (l.filter (fun d => decide (d = x) || decide (d ∈ r))).length := by
      apply length_filter_congr
      intro d _
      by_cases h1 : d = x
      · simp [h1]
      · by_cases h2 : d ∈ r <;> simp [h1, h2]
    rw [hcong, length_filter_or_disjoint]
    · rfl
    · intro d ⟨h1, h2⟩
      simp only [decide_eq_true_eq] at h1 h2
      subst h1
      exact hnd.1 h2

theorem cnt_flatMap_dependents (g : Graph) (hnodup : (g.map (·.name)).Nodup)
    (C : List String) (hCex : ∀ c ∈ C, nodeExists g c = true) (hCnd : C.Nodup)
    (n : String) :
    cnt (C.flatMap (fun x => dependentsOf g x)) n =
      ((depsOfName g n).filter (fun d => decide (d ∈ C))).length := by
  rw [cnt_flatMap]
  have hmap : C.map (fun x => cnt (dependentsOf g x) n) =
      C.map (fun x => cnt (depsOfName g n) x) := by
    apply List.map_congr_left
    intro x hx
    rw [cnt_dependentsOf g hnodup x n, if_pos (hCex x hx)]
  rw [hmap]
  exact sum_cnt_nodup (depsOfName g n) C hCnd

theorem mem_dependentsOf (g : Graph) (x n : String) (h : n ∈ dependentsOf g x) :
    nodeExists g x = true ∧ ∃ nd ∈ g, nd.name = n ∧ x ∈ nd.depends_on := by
  unfold dependentsOf at h
  by_cases hex : nodeExists g x
  · rw [if_pos hex] at h
    rw [List.mem_flatMap] at h
    obtain ⟨nd, hnd, hmem⟩ := h
    rw [List.mem_map] at hmem
    obtain ⟨d, hd, hdn⟩ := hmem
    rw [List.mem_filter] at hd
    have hdx : d = x := by simpa using hd.2
    exact ⟨hex, nd, hnd, hdn.symm ▸ rfl, hdx ▸ hd.1⟩
  · rw [if_neg hex] at h
    simp at h

/-- One Kahn decrement: lower the dependent's degree, collect it when the new
value is exactly zero. -/
def decStep (acc : Dict Int × List String) (dependent : String) :
    Dict Int × List String :=
  (dictInsert acc.1 dependent (dictGetD acc.1 dependent 0 - 1),
   if dictGetD acc.1 dependent 0 - 1 = 0 then acc.2 ++ [dependent] else acc.2)

theorem foldl_flatMap {α β γ : Type} (f : γ → β → γ) (gg : α → List β)
    (l : List α) : ∀ (init : γ),
    (l.flatMap gg).foldl f init = l.foldl (fun acc x => (gg x).foldl f acc) init := by
  induction l with
  | nil => intro init; rfl
  | cons x r ih =>
    intro init
    rw [List.flatMap_cons, List.foldl_append, List.foldl_cons]
    exact ih _

theorem topoStep_eq (inDeg : Dict Int) (dependents : Dict (List String))
    (current : List String) :
    topoStep inDeg dependents current =
      (current.flatMap (fun x => dictGetD dependents x [])).foldl decStep
        (inDeg, []) := by
  rw [foldl_flatMap]
  rfl

/-- A node untouched by the Kahn loop so far. -/
def Fresh (g : Graph) (P C : List String) (n : String) : Prop :=
  nodeExists g n = true ∧ n ∉ P ∧ n ∉ C

theorem targets_fresh (g : Graph) (P C : List String)
    (hnd : (P ++ C).Nodup)
    (hproc : ∀ n ∈ P, ∀ a, depEdgeE g n a → a ∈ P)
    (hcur : ∀ n ∈ C, ∀ a, depEdgeE g n a → a ∈ P) :
    ∀ t ∈ C.flatMap (fun x => dependentsOf g x), Fresh g P C t := by
  intro t ht
  rw [List.mem_flatMap] at ht
  obtain ⟨x, hxC, htx⟩ := ht
  obtain ⟨hex, nd, hnd2, hname, hxdep⟩ := mem_dependentsOf g x t htx
  have hedge : depEdgeE g t x := ⟨⟨nd, hnd2, hname, hxdep⟩, hex⟩
  have htex : nodeExists g t = true := by
    rw [← hname]
    simp only [nodeExists, List.any_eq_true]
    exact ⟨nd, hnd2, by simp⟩
  have hdisj : List.Disjoint P C := List.disjoint_of_nodup_append hnd
  refine ⟨htex, ?_, ?_⟩
  · intro htP
    exact hdisj (hproc t htP x hedge) hxC
  · intro htC
    exact hdisj (hcur t htC x hedge) hxC

theorem decStep_fold (g : Graph) (P C : List String) :
    ∀ (T Tdone : List String) (acc : Dict Int × List String),
    (∀ t ∈ T, Fresh g P C t) →
    (∀ n, Fresh g P C n →
      dictGetD acc.1 n 0 = (remDeg g P n : Int) - (cnt Tdone n : Int)) →
    (∀ n, Fresh g P C n → (n ∈ acc.2 ↔ remDeg g P n ≤ cnt Tdone n)) →
    acc.2.Nodup →
    (∀ n ∈ acc.2, Fresh g P C n) →
    (∀ n, Fresh g P C n →
      dictGetD (T.foldl decStep acc).1 n 0 =
        (remDeg g P n : Int) - (cnt (Tdone ++ T) n : Int)) ∧
    (∀ n, Fresh g P C n →
      (n ∈ (T.foldl decStep acc).2 ↔ remDeg g P n ≤ cnt (Tdone ++ T) n)) ∧
    (T.foldl decStep acc).2.Nodup ∧
    (∀ n ∈ (T.foldl decStep acc).2, Fresh g P C n) := by
  intro T
  induction T with
  | nil =>
    intro Tdone acc _ h1 h2 h3 h4
    refine ⟨?_, ?_, h3, h4⟩
    · intro n hn; rw [List.append_nil]; exact h1 n hn
    · intro n hn; rw [List.append_nil]; exact h2 n hn
  | cons t T2 ih =>
    intro Tdone acc hT h1 h2 h3 h4
    have htF : Fresh g P C t := hT t (by simp)
    have hv : dictGetD acc.1 t 0 = (remDeg g P t : Int) - (cnt Tdone t : Int) :=
      h1 t htF
    have hcnt_t : ∀ n, cnt (Tdone ++ [t]) n =
        cnt Tdone n + (if t = n then 1 else 0) := by
      intro n
      rw [cnt_append, cnt_singleton]
    have hnew1 : ∀ n, Fresh g P C n →
        dictGetD (decStep acc t).1 n 0 =
          (remDeg g P n : Int) - (cnt (Tdone ++ [t]) n : Int) := by
      intro n hn
      show dictGetD (dictInsert acc.1 t (dictGetD acc.1 t 0 - 1)) n 0 = _
      by_cases hnt : n = t
      · subst hnt
        rw [dictGetD_insert_self, hv, hcnt_t n, if_pos rfl]
        push_cast
        ring
      · rw [dictGetD_insert_ne _ _ _ _ _ hnt, h1 n hn, hcnt_t n,
          if_neg (fun he => hnt he.symm)]
        push_cast
        ring
    have hnew2 : ∀ n, Fresh g P C n →
        (n ∈ (decStep acc t).2 ↔ remDeg g P n ≤ cnt (Tdone ++ [t]) n) := by
      intro n hn
      show (n ∈ if dictGetD acc.1 t 0 - 1 = 0 then acc.2 ++ [t] else acc.2) ↔ _
      by_cases hcond : dictGetD acc.1 t 0 - 1 = 0
      · rw [if_pos hcond]
        rw [hv] at hcond
        by_cases hnt : n = t
        · subst hnt
          rw [hcnt_t n, if_pos rfl]
          constructor
          · intro _
            omega
          · intro _
            simp
        · rw [List.mem_append]
          rw [hcnt_t n, if_neg (fun he => hnt he.symm)]
          constructor
          · intro hmem
            rcases hmem with hmem | hmem
            · have := (h2 n hn).mp hmem
              omega
            · exact absurd (by simpa using hmem) hnt
          · intro hle
            left
            exact (h2 n hn).mpr (by omega)
      · rw [if_neg hcond]
        rw [hv] at hcond
        by_cases hnt : n = t
        · subst hnt
          rw [hcnt_t n, if_pos rfl]
          rw [h2 n hn]
          omega
        · rw [hcnt_t n, if_neg (fun he => hnt he.symm)]
          rw [h2 n hn]
          omega
    have hnew3 : (decStep acc t).2.Nodup := by
      show (if dictGetD acc.1 t 0 - 1 = 0 then acc.2 ++ [t] else acc.2).Nodup
      by_cases hcond : dictGetD acc.1 t 0 - 1 = 0
      · rw [if_pos hcond]
        rw [hv] at hcond
        have htnot : t ∉ acc.2 := by
          intro hmem
          have := (h2 t htF).mp hmem
          omega
        rw [List.nodup_append]
        refine ⟨h3, List.nodup_singleton t, ?_⟩
        intro a ha hb
        have hab : a = t := by simpa using hb
        subst hab
        exact htnot ha
      · rw [if_neg hcond]
        exact h3
    have hnew4 : ∀ n ∈ (decStep acc t).2, Fresh g P C n := by
      intro n hmem
      simp only [decStep] at hmem
      by_cases hcond : dictGetD acc.1 t 0 - 1 = 0
      · rw [if_pos hcond] at hmem
        rcases List.mem_append.mp hmem with hm | hm
        · exact h4 n hm
        · have : n = t := by simpa using hm
          subst this
          exact htF
      · rw [if_neg hcond] at hmem
        exact h4 n hmem
    have hres := ih (Tdone ++ [t]) (decStep acc t)
      (fun t2 ht2 => hT t2 (by simp [ht2])) hnew1 hnew2 hnew3 hnew4
    rw [List.append_assoc] at hres
    simpa using hres

theorem flatMap_congr {α β : Type} (l : List α) (f h : α → List β)
    (he : ∀ x ∈ l, f x = h x) : l.flatMap f = l.flatMap h := by
  induction l with
  | nil => rfl
  | cons x r ih =>
    rw [List.flatMap_cons, List.flatMap_cons, he x (by simp),
      ih (fun y hy => he y (by simp [hy]))]

theorem lookupNode_mem (g : Graph) (n : String) {nd : GraphNode}
    (h : lookupNode g n = some nd) : nd ∈ g ∧ nd.name = n := by
  unfold lookupNode at h
  refine ⟨List.mem_of_find?_eq_some h, ?_⟩
  have := List.find?_some h
  simpa using this

theorem depEdgeE_iff (g : Graph) (hnodup : (g.map (·.name)).Nodup)
    (n a : String) :
    depEdgeE g n a ↔ (a ∈ depsOfName g n ∧ nodeExists g a = true) := by
  constructor
  · rintro ⟨⟨nd, hnd, hname, ha⟩, hex⟩
    refine ⟨?_, hex⟩
    have hlook : lookupNode g n = some nd := by
      rw [← hname]
      exact lookupNode_unique g hnodup hnd
    unfold depsOfName
    rw [hlook]
    exact ha
  · rintro ⟨ha, hex⟩
    unfold depsOfName at ha
    cases hlook : lookupNode g n with
    | none =>
      rw [hlook] at ha
      simp at ha
    | some nd =>
      rw [hlook] at ha
      have ha2 : a ∈ nd.depends_on := ha
      obtain ⟨hmem, hname⟩ := lookupNode_mem g n hlook
      exact ⟨⟨nd, hmem, hname, ha2⟩, hex⟩

theorem topoStep_spec (g : Graph) (hnodup : (g.map (·.name)).Nodup)
    (P C : List String) (inDeg : Dict Int)
    (hnd : (P ++ C).Nodup)
    (hCex : ∀ c ∈ C, nodeExists g c = true)
    (hproc : ∀ n ∈ P, ∀ a, depEdgeE g n a → a ∈ P)
    (hcur : ∀ n ∈ C, ∀ a, depEdgeE g n a → a ∈ P)
    (hdeg : ∀ n, Fresh g P C n → dictGetD inDeg n 0 = (remDeg g P n : Int))
    (hdeg1 : ∀ n, Fresh g P C n → 1 ≤ remDeg g P n) :
    (∀ n, Fresh g P C n →
      dictGetD (topoStep inDeg (topoInit g).2 C).1 n 0 =
        (remDeg g (P ++ C) n : Int)) ∧
    (∀ n, Fresh g P C n →
      (n ∈ (topoStep inDeg (topoInit g).2 C).2 ↔ remDeg g (P ++ C) n = 0)) ∧
    (topoStep inDeg (topoInit g).2 C).2.Nodup ∧
    (∀ n ∈ (topoStep inDeg (topoInit g).2 C).2, Fresh g P C n) := by
  have hdisj : List.Disjoint P C := List.disjoint_of_nodup_append hnd
  have hCP : ∀ c ∈ C, c ∉ P := fun c hc hp => hdisj hp hc
  have hCnd : C.Nodup := hnd.of_append_right
  have hTeq : C.flatMap (fun x => dictGetD (topoInit g).2 x []) =
      C.flatMap (fun x => dependentsOf g x) :=
    flatMap_congr C _ _ (fun x _ => (topoInit_spec g hnodup).2 x)
  rw [topoStep_eq, hTeq]
  have hfold := decStep_fold g P C (C.flatMap (fun x => dependentsOf g x)) []
    (inDeg, [])
    (targets_fresh g P C hnd hproc hcur)
    (fun n hn => by
      show dictGetD inDeg n 0 = _
      rw [hdeg n hn]
      have h0 : cnt [] n = 0 := rfl
      rw [h0]
      ring)
    (fun n hn => by
      show n ∈ ([] : List String) ↔ remDeg g P n ≤ cnt [] n
      have h1 := hdeg1 n hn
      have h0 : cnt [] n = 0 := rfl
      simp only [List.not_mem_nil, false_iff]
      omega)
    List.nodup_nil
    (fun n hn => absurd hn (List.not_mem_nil n))
  rw [List.nil_append] at hfold
  obtain ⟨hf1, hf2, hf3, hf4⟩ := hfold
  have hcntT : ∀ n, cnt (C.flatMap (fun x => dependentsOf g x)) n =
      ((depsOfName g n).filter (fun d => decide (d ∈ C))).length :=
    cnt_flatMap_dependents g hnodup C hCex hCnd
  have hsplit : ∀ n, remDeg g P n = remDeg g (P ++ C) n +
      ((depsOfName g n).filter (fun d => decide (d ∈ C))).length :=
    fun n => remDeg_split g P C n hCex hCP
  refine ⟨?_, ?_, hf3, hf4⟩
  · intro n hn
    rw [hf1 n hn, hcntT n]
    have := hsplit n
    omega
  · intro n hn
    rw [hf2 n hn, hcntT n]
    have := hsplit n
    omega

theorem topoLoop_succ (dependents : Dict (List String)) (fuel : Nat)
    (inDeg : Dict Int) (C : List String) (levels : List (List String)) :
    topoLoop dependents (fuel + 1) inDeg C levels =
      if C = [] then levels
      else topoLoop dependents fuel (topoStep inDeg dependents C).1
        (topoStep inDeg dependents C).2 (levels ++ [C]) := rfl

theorem nodeExists_mem (g : Graph) (n : String) (h : nodeExists g n = true) :
    n ∈ g.map (·.name) := by
  simp only [nodeExists, List.any_eq_true] at h
  obtain ⟨nd, hnd, he⟩ := h
  have he2 : nd.name = n := by simpa using he
  rw [← he2]
  exact List.mem_map_of_mem _ hnd

theorem mem_nodeExists (g : Graph) (n : String) (h : n ∈ g.map (·.name)) :
    nodeExists g n = true := by
  rw [List.mem_map] at h
  obtain ⟨nd, hnd, he⟩ := h
  simp only [nodeExists, List.any_eq_true]
  exact ⟨nd, hnd, by simp [he]⟩

theorem filter_length_mono {α : Type} (p q : α → Bool)
    (himp : ∀ x, q x = true → p x = true) :
    ∀ (l : List α), (l.filter q).length ≤ (l.filter p).length := by
  intro l
  induction l with
  | nil => exact Nat.le_refl 0
  | cons x r ih =>
    rw [List.filter_cons, List.filter_cons]
    by_cases hq : q x = true
    · rw [if_pos hq, if_pos (himp x hq)]
      simp only [List.length_cons]
      exact Nat.succ_le_succ ih
    · rw [if_neg hq]
      by_cases hp : p x = true
      · rw [if_pos hp]
        exact Nat.le_succ_of_le ih
      · rw [if_neg hp]
        exact ih

theorem filter_length_lt {α : Type} (p q : α → Bool)
    (himp : ∀ x, q x = true → p x = true) :
    ∀ (l : List α) (c : α), c ∈ l → p c = true → q c = false →
    (l.filter q).length < (l.filter p).length := by
  intro l
  induction l with
  | nil =>
    intro c hc
    cases hc
  | cons x r ih =>
    intro c hc hcp hcq
    rw [List.filter_cons, List.filter_cons]
    rcases List.mem_cons.mp hc with rfl | hcr
    · rw [if_neg (by simp [hcq]), if_pos hcp]
      simp only [List.length_cons]
      exact Nat.lt_succ_of_le (filter_length_mono p q himp r)
    · by_cases hqx : q x = true
      · rw [if_pos hqx, if_pos (himp x hqx)]
        simp only [List.length_cons]
        exact Nat.succ_lt_succ (ih c hcr hcp hcq)
      · rw [if_neg hqx]
        by_cases hpx : p x = true
        · rw [if_pos hpx]
          exact Nat.lt_succ_of_lt (ih c hcr hcp hcq)
        · rw [if_neg hpx]
          exact ih c hcr hcp hcq

/-- A nonempty set of nodes each of which has a dependency inside the set
yields a dependency cycle (finite pigeonhole on the iterated chosen edge). -/
theorem closed_set_cycle (g : Graph) (S : List String) (hSne : S ≠ [])
    (hclosed : ∀ n ∈ S, ∃ a, a ∈ S ∧ depEdgeE g n a) :
    ∃ x, Relation.TransGen (depEdgeE g) x x := by
  classical
  obtain ⟨s0, hs0⟩ := List.exists_mem_of_ne_nil S hSne
  have hf : ∀ n ∈ S,
      (if h : n ∈ S then (hclosed n h).choose else n) ∈ S ∧
      depEdgeE g n (if h : n ∈ S then (hclosed n h).choose else n) := by
    intro n hn
    rw [dif_pos hn]
    exact (hclosed n hn).choose_spec
  have hseqS : ∀ i,
      (fun m => if h : m ∈ S then (hclosed m h).choose else m)^[i] s0 ∈ S := by
    intro i
    induction i with
    | zero => exact hs0
    | succ k ihk =>
      rw [Function.iterate_succ_apply']
      exact (hf _ ihk).1
  have hstep : ∀ i, depEdgeE g
      ((fun m => if h : m ∈ S then (hclosed m h).choose else m)^[i] s0)
      ((fun m => if h : m ∈ S then (hclosed m h).choose else m)^[i + 1] s0) := by
    intro i
    rw [Function.iterate_succ_apply']
    exact (hf _ (hseqS i)).2
  have hchain : ∀ j i, i < j → Relation.TransGen (depEdgeE g)
      ((fun m => if h : m ∈ S then (hclosed m h).choose else m)^[i] s0)
      ((fun m => if h : m ∈ S then (hclosed m h).choose else m)^[j] s0) := by
    intro j
    induction j with
    | zero =>
      intro i hi
      exact absurd hi (Nat.not_lt_zero i)
    | succ k ihk =>
      intro i hi
      by_cases hik : i = k
      · subst hik
        exact Relation.TransGen.single (hstep i)
      · exact Relation.TransGen.tail (ihk i (by omega)) (hstep k)
  have hcard : S.toFinset.card < (Finset.range (S.length + 1)).card := by
    rw [Finset.card_range]
    exact Nat.lt_succ_of_le (List.toFinset_card_le S)
  have hmaps : ∀ i ∈ Finset.range (S.length + 1),
      (fun m => if h : m ∈ S then (hclosed m h).choose else m)^[i] s0 ∈
        S.toFinset := by
    intro i _
    rw [List.mem_toFinset]
    exact hseqS i
  obtain ⟨i, _, j, _, hij, heq⟩ :=
    Finset.exists_ne_map_eq_of_card_lt_of_maps_to hcard hmaps
  rcases Nat.lt_or_ge i j with hlt | hge
  · have h2 := hchain j i hlt
    rw [← heq] at h2
    exact ⟨_, h2⟩
  · have hlt : j < i := by omega
    have h2 := hchain i j hlt
    rw [heq] at h2
    exact ⟨_, h2⟩

/-- Well-formedness of a level decomposition: every member of a level is an
existing node all of whose dependency edges point into earlier levels. -/
def LevelsOK (g : Graph) (levels : List (List String)) : Prop :=
  ∀ done L rest, levels = done ++ L :: rest →
    ∀ m ∈ L, nodeExists g m = true ∧ ∀ a, depEdgeE g m a → a ∈ done.flatten

theorem topoLoop_ind (g : Graph) (hnodup : (g.map (·.name)).Nodup)
    (hacyc : ∀ x, ¬ Relation.TransGen (depEdgeE g) x x) :
    ∀ (fuel : Nat) (inDeg : Dict Int) (C : List String)
      (levels : List (List String)),
    ((g.map (·.name)).filter
      (fun n => decide (n ∉ levels.flatten))).length + 1 ≤ fuel →
    (levels.flatten ++ C).Nodup →
    (∀ c ∈ levels.flatten ++ C, nodeExists g c = true) →
    (∀ n ∈ levels.flatten, ∀ a, depEdgeE g n a → a ∈ levels.flatten) →
    (∀ n ∈ C, ∀ a, depEdgeE g n a → a ∈ levels.flatten) →
    (∀ n, Fresh g levels.flatten C n →
      dictGetD inDeg n 0 = (remDeg g levels.flatten n : Int)) →
    (∀ n, Fresh g levels.flatten C n → 1 ≤ remDeg g levels.flatten n) →
    LevelsOK g levels →
    (topoLoop (topoInit g).2 fuel inDeg C levels).flatten.Nodup ∧
    (∀ n, n ∈ (topoLoop (topoInit g).2 fuel inDeg C levels).flatten ↔
      nodeExists g n = true) ∧
    LevelsOK g (topoLoop (topoInit g).2 fuel inDeg C levels) := by
  intro fuel
  induction fuel with
  | zero =>
    intro inDeg C levels hfuel _ _ _ _ _ _ _
    exact absurd hfuel (by omega)
  | succ fuel ih =>
    intro inDeg C levels hfuel hnd hex hproc hcur hdeg hdeg1 hlev
    by_cases hCnil : C = []
    · subst hCnil
      rw [topoLoop_succ, if_pos rfl]
      refine ⟨by rw [← List.append_nil levels.flatten]; exact hnd, ?_, hlev⟩
      intro n
      constructor
      · intro hn
        exact hex n (List.mem_append.mpr (Or.inl hn))
      · intro hexn
        by_contra hnP
        have hnS : n ∈ (g.map (·.name)).filter
            (fun m => decide (m ∉ levels.flatten)) :=
          List.mem_filter.mpr ⟨nodeExists_mem g n hexn, by simpa using hnP⟩
        have hSne : (g.map (·.name)).filter
            (fun m => decide (m ∉ levels.flatten)) ≠ [] := by
          intro he
          rw [he] at hnS
          exact List.not_mem_nil n hnS
        have hclosed : ∀ m ∈ (g.map (·.name)).filter
            (fun m2 => decide (m2 ∉ levels.flatten)),
            ∃ a, a ∈ (g.map (·.name)).filter
              (fun m2 => decide (m2 ∉ levels.flatten)) ∧ depEdgeE g m a := by
          intro m hmS
          have hm := List.mem_filter.mp hmS
          have hmex : nodeExists g m = true := mem_nodeExists g m hm.1
          have hmP : m ∉ levels.flatten := by simpa using hm.2
          have hmF : Fresh g levels.flatten [] m :=
            ⟨hmex, hmP, List.not_mem_nil m⟩
          have h1 := hdeg1 m hmF
          have hne : (depsOfName g m).filter
              (fun d => nodeExists g d && decide (d ∉ levels.flatten)) ≠ [] := by
            intro he
            unfold remDeg at h1
            rw [he] at h1
            exact absurd h1 (by simp)
          obtain ⟨d, hd⟩ := List.exists_mem_of_ne_nil _ hne
          have hd2 := List.mem_filter.mp hd
          have hdprops : nodeExists g d = true ∧ d ∉ levels.flatten := by
            have h3 := hd2.2
            simp only [Bool.and_eq_true, decide_eq_true_eq] at h3
            exact h3
          refine ⟨d, List.mem_filter.mpr
            ⟨nodeExists_mem g d hdprops.1, by simpa using hdprops.2⟩, ?_⟩
          exact (depEdgeE_iff g hnodup m d).mpr ⟨hd2.1, hdprops.1⟩
        obtain ⟨x, hx⟩ := closed_set_cycle g _ hSne hclosed
        exact absurd hx (hacyc x)
    · rw [topoLoop_succ, if_neg hCnil]
      have hspec := topoStep_spec g hnodup levels.flatten C inDeg hnd
        (fun c hc => hex c (List.mem_append.mpr (Or.inr hc))) hproc hcur
        hdeg hdeg1
      obtain ⟨hs1, hs2, hs3, hs4⟩ := hspec
      have hflat : (levels ++ [C]).flatten = levels.flatten ++ C := by
        rw [List.flatten_append]
        simp
      have hdisj : List.Disjoint levels.flatten C :=
        List.disjoint_of_nodup_append hnd
      refine ih (topoStep inDeg (topoInit g).2 C).1
        (topoStep inDeg (topoInit g).2 C).2 (levels ++ [C])
        ?_ ?_ ?_ ?_ ?_ ?_ ?_ ?_
      · simp only [hflat]
        obtain ⟨c, hc⟩ := List.exists_mem_of_ne_nil C hCnil
        have hlt := filter_length_lt
          (fun n => decide (n ∉ levels.flatten))
          (fun n => decide (n ∉ levels.flatten ++ C))
          (by
            intro x hx
            simp only [decide_eq_true_eq] at hx ⊢
            intro hxP
            exact hx (List.mem_append.mpr (Or.inl hxP)))
          (g.map (·.name)) c
          (nodeExists_mem g c (hex c (List.mem_append.mpr (Or.inr hc))))
          (by
            simp only [decide_eq_true_eq]
            exact fun hcP => hdisj hcP hc)
          (by
            have hcmem : c ∈ levels.flatten ++ C :=
              List.mem_append.mpr (Or.inr hc)
            simp [hcmem])
        omega
      · simp only [hflat]
        refine List.Nodup.append hnd hs3 ?_
        intro a haPC haC2
        have hF := hs4 a haC2
        rcases List.mem_append.mp haPC with h | h
        · exact hF.2.1 h
        · exact hF.2.2 h
      · simp only [hflat]
        intro c hc
        rcases List.mem_append.mp hc with h | h
        · exact hex c h
        · exact (hs4 c h).1
      · simp only [hflat]
        intro n hn a ha
        rcases List.mem_append.mp hn with h | h
        · exact List.mem_append.mpr (Or.inl (hproc n h a ha))
        · exact List.mem_append.mpr (Or.inl (hcur n h a ha))
      · simp only [hflat]
        intro m hm a ha
        have hF := hs4 m hm
        have hzero := (hs2 m hF).mp hm
        have hiff := (depEdgeE_iff g hnodup m a).mp ha
        by_contra haPC
        have hmemf : a ∈ (depsOfName g m).filter
            (fun d => nodeExists g d && decide (d ∉ levels.flatten ++ C)) :=
          List.mem_filter.mpr ⟨hiff.1, by simp [hiff.2, haPC]⟩
        unfold remDeg at hzero
        rw [List.length_eq_zero] at hzero
        rw [hzero] at hmemf
        exact List.not_mem_nil a hmemf
      · simp only [hflat]
        intro n hF2
        refine hs1 n ⟨hF2.1, ?_, ?_⟩
        · exact fun h => hF2.2.1 (List.mem_append.mpr (Or.inl h))
        · exact fun h => hF2.2.1 (List.mem_append.mpr (Or.inr h))
      · simp only [hflat]
        intro n hF2
        have hF : Fresh g levels.flatten C n := ⟨hF2.1,
          fun h => hF2.2.1 (List.mem_append.mpr (Or.inl h)),
          fun h => hF2.2.1 (List.mem_append.mpr (Or.inr h))⟩
        have hne : ¬(remDeg g (levels.flatten ++ C) n = 0) :=
          fun h0 => hF2.2.2 ((hs2 n hF).mpr h0)
        omega
      · intro done L rest hsplit m hm
        rcases append_singleton_split levels C done L rest hsplit.symm with
          ⟨hd, hL, _⟩ | ⟨rest2, _, hlev2⟩
        · subst hd
          subst hL
          refine ⟨hex m (List.mem_append.mpr (Or.inr hm)), ?_⟩
          exact fun a ha => hcur m hm a ha
        · exact hlev done L rest2 hlev2 m hm

/-- For a validated graph the Kahn levels enumerate each existing node exactly
once, and every node's dependencies lie in strictly earlier levels. -/
theorem topological_levels_spec (g : Graph) (hnodup : (g.map (·.name)).Nodup)
    (hvalid : validate g = .ok (true, [])) :
    (topological_levels g).flatten.Nodup ∧
    (∀ n, n ∈ (topological_levels g).flatten ↔ nodeExists g n = true) ∧
    LevelsOK g (topological_levels g) := by
  obtain ⟨hmiss, hacyc⟩ := validate_ok_acyclic g hnodup hvalid
  have hinit := (topoInit_spec g hnodup).1
  have hroots : ∀ n, n ∈ (g.map (·.name)).filter
      (fun n => dictGetD (topoInit g).1 n 0 = 0) →
      n ∈ g.map (·.name) ∧ inDegSpec g n = 0 := by
    intro n hn
    have h2 := List.mem_filter.mp hn
    refine ⟨h2.1, ?_⟩
    have h3 : dictGetD (topoInit g).1 n 0 = 0 := by simpa using h2.2
    rw [hinit n] at h3
    exact_mod_cast h3
  unfold topological_levels
  refine topoLoop_ind g hnodup hacyc (g.length + 1) (topoInit g).1
    ((g.map (·.name)).filter (fun n => dictGetD (topoInit g).1 n 0 = 0)) []
    ?_ ?_ ?_ ?_ ?_ ?_ ?_ ?_
  · simp
  · show (([] : List String) ++ _).Nodup
    rw [List.nil_append]
    exact hnodup.filter _
  · intro c hc
    rw [show (([] : List (List String)).flatten ++ _) = _ from
      List.nil_append _] at hc
    exact mem_nodeExists g c (hroots c hc).1
  · intro n hn
    exact absurd hn (List.not_mem_nil n)
  · intro n hn a ha
    exfalso
    have h0 := (hroots n hn).2
    have hiff := (depEdgeE_iff g hnodup n a).mp ha
    have hmemf : a ∈ (depsOfName g n).filter (fun d => nodeExists g d) :=
      List.mem_filter.mpr ⟨hiff.1, hiff.2⟩
    unfold inDegSpec at h0
    rw [List.length_eq_zero] at h0
    rw [h0] at hmemf
    exact List.not_mem_nil a hmemf
  · intro n _
    show dictGetD (topoInit g).1 n 0 = (remDeg g ([] : List (List String)).flatten n : Int)
    rw [hinit n]
    have : remDeg g ([] : List (List String)).flatten n = inDegSpec g n :=
      remDeg_nil g n
    rw [this]
  · intro n hF
    have hmem : n ∈ g.map (·.name) := nodeExists_mem g n hF.1
    have hnC := hF.2.2
    have hne : ¬(dictGetD (topoInit g).1 n 0 = 0) := by
      intro h0
      exact hnC (List.mem_filter.mpr ⟨hmem, by simpa using h0⟩)
    rw [hinit n] at hne
    have : remDeg g ([] : List (List String)).flatten n = inDegSpec g n :=
      remDeg_nil g n
    rw [this]
    have : ¬(inDegSpec g n = 0) := fun h0 => hne (by exact_mod_cast h0)
    omega
  · intro done L rest h
    exact absurd h (by simp)

/-- `a` is recorded with a failed or skipped status. -/
def BadAt (res : Dict GraphNodeResult) (a : String) : Prop :=
  ∃ ra, dictGet res a = some ra ∧ (ra.status = "error" ∨ ra.status = "skipped")

/-- The run-loop invariant between levels: the result map covers exactly the
processed names, every entry is either a skip marker or a genuine execution,
any entry with a failed/skipped dependency is a skip marker, skipped-status
entries are tracked in the skipped set (while no stop-mode error halts
bookkeeping), and processed names are dependency-closed. -/
structure RunInv (g : Graph) (opts : GraphOptions) (initial : Kwargs)
    (P : List String) (st : GraphRunState) : Prop where
  keys : ∀ n, (dictGet st.results n).isSome = true ↔ n ∈ P
  shape : ∀ n r, dictGet st.results n = some r →
    r = makeSkipped g n ∨ ∃ c, r = executeNode g n c initial
  skipProp : ∀ n r a, dictGet st.results n = some r → depEdgeE g n a →
    BadAt st.results a → r = makeSkipped g n
  skSet : opts.stop_on_error = false ∨ hasErrorResults st.results = false →
    ∀ n r, dictGet st.results n = some r → r.status = "skipped" → n ∈ st.skipped
  closedP : ∀ n ∈ P, ∀ a, depEdgeE g n a → a ∈ P

theorem dictInsert_fresh {α : Type} (d : Dict α) (k : String) (v : α)
    (h : k ∉ dictKeys d) : dictInsert d k v = d ++ [(k, v)] := by
  induction d with
  | nil => rfl
  | cons hd tl ih =>
    obtain ⟨k0, v0⟩ := hd
    have hk0 : ¬(k0 = k) := by
      intro he
      exact h (by simp [dictKeys, he])
    show (if k0 = k then _ else _) = _
    rw [if_neg hk0]
    rw [ih (fun hm => h (by simp [dictKeys] at hm ⊢; right; exact hm))]
    rfl

theorem hasErrorResults_insert_mono (res : Dict GraphNodeResult) (k : String)
    (v : GraphNodeResult) (hk : dictGet res k = none)
    (h : hasErrorResults res = true) :
    hasErrorResults (dictInsert res k v) = true := by
  rw [dictInsert_fresh res k v ((dictGet_eq_none_iff res k).mp hk)]
  unfold hasErrorResults at h ⊢
  rw [List.any_append, h]
  rfl

theorem hasErrorResults_false (res : Dict GraphNodeResult) :
    hasErrorResults res = false ↔ ∀ kv ∈ res, kv.2.status ≠ "error" := by
  unfold hasErrorResults
  rw [← Bool.not_eq_true, List.any_eq_true]
  simp

theorem executeNode_status (g : Graph) (n : String) (c : Dict GraphNodeResult)
    (initial : Kwargs) :
    (executeNode g n c initial).status = "success" ∨
    (executeNode g n c initial).status = "error" := by
  unfold executeNode
  split
  · right
    rfl
  · split
    · left
      rfl
    · right
      rfl

theorem executeNode_eq (g : Graph) (A : String) (ndA : GraphNode)
    (hlook : lookupNode g A = some ndA) (c : Dict GraphNodeResult)
    (initial : Kwargs) :
    executeNode g A c initial =
      match ndA.agent.execute (graphBuildKwargs ndA c initial) with
      | .ok result =>
        { name := A, agent_name := ndA.agent.name, result := result,
          data_slush := graphNewSlush ndA A (graphBuildKwargs ndA c initial)
            result,
          status := "success" }
      | .error e =>
        { name := A, agent_name := ndA.agent.name,
          result := [("status", "error"), ("message", e)],
          data_slush := none, status := "error" } := by
  unfold executeNode
  rw [hlook]

theorem executeNode_fails (g : Graph) (A : String) (ndA : GraphNode)
    (hlook : lookupNode g A = some ndA)
    (hfail : ∀ kw, ∃ e, ndA.agent.execute kw = Except.error e)
    (c : Dict GraphNodeResult) (initial : Kwargs) :
    (executeNode g A c initial).status = "error" := by
  rw [executeNode_eq g A ndA hlook c initial]
  obtain ⟨e, he⟩ := hfail (graphBuildKwargs ndA c initial)
  rw [he]

theorem foldl_subset {α : Type} (f : List String → α → List String)
    (hf : ∀ s a x, x ∈ s → x ∈ f s a) :
    ∀ (l : List α) (s : List String) (x : String), x ∈ s → x ∈ l.foldl f s := by
  intro l
  induction l with
  | nil =>
    intro s x hx
    exact hx
  | cons a r ih =>
    intro s x hx
    exact ih (f s a) x (hf s a x hx)

theorem collectDependents_mono (g : Graph) :
    ∀ (fuel : Nat) (fn : String) (sk : List String) (x : String),
    x ∈ sk → x ∈ collectDependents g fuel fn sk := by
  intro fuel
  induction fuel with
  | zero =>
    intro fn sk x hx
    exact hx
  | succ fuel ih =>
    intro fn sk x hx
    show x ∈ g.foldl _ sk
    refine foldl_subset _ ?_ g sk x hx
    intro s node y hy
    show y ∈ (if node.name ∉ s ∧ fn ∈ node.depends_on then _ else s)
    by_cases hc : node.name ∉ s ∧ fn ∈ node.depends_on
    · rw [if_pos hc]
      exact ih node.name (s ++ [node.name]) y (List.mem_append.mpr (Or.inl hy))
    · rw [if_neg hc]
      exact hy

theorem sweepStr_get (g : Graph) :
    ∀ (L : List String) (st : GraphRunState) (n : String),
    dictGet (markLevelSkippedAll g L st).results n =
      match dictGet st.results n with
      | some r => some r
      | none => if n ∈ L then some (makeSkipped g n) else none := by
  intro L
  induction L with
  | nil =>
    intro st n
    show dictGet st.results n = _
    cases h : dictGet st.results n
    · simp
    · rfl
  | cons m L2 ih =>
    intro st n
    have hcons : markLevelSkippedAll g (m :: L2) st = markLevelSkippedAll g L2
        (if (dictGet st.results m).isSome then st
         else { st with
           results := dictInsert st.results m (makeSkipped g m),
           order := st.order ++ [m] }) := rfl
    rw [hcons]
    by_cases hm : (dictGet st.results m).isSome = true
    · rw [if_pos hm, ih st n]
      cases hn : dictGet st.results n
      · have hnm : n ≠ m := by
          intro he
          rw [he] at hn
          rw [hn] at hm
          exact absurd hm (by simp)
        simp [List.mem_cons, hnm]
      · rfl
    · rw [if_neg hm]
      rw [ih _ n]
      by_cases hnm : n = m
      · have h1 : dictGet (dictInsert st.results m (makeSkipped g m)) n =
            some (makeSkipped g m) := by
          rw [hnm]
          exact dictGet_insert_self _ m _
        have h2 : dictGet st.results n = none := by
          rw [hnm]
          exact Option.not_isSome_iff_eq_none.mp hm
        show (match dictGet (dictInsert st.results m (makeSkipped g m)) n with
          | some r => some r
          | none => if n ∈ L2 then some (makeSkipped g n) else none) = _
        rw [h1, h2]
        have h3 : n ∈ m :: L2 := by simp [hnm]
        simp [h3, hnm]
      · have h1 : dictGet (dictInsert st.results m (makeSkipped g m)) n =
            dictGet st.results n := dictGet_insert_ne _ m n _ hnm
        show (match dictGet (dictInsert st.results m (makeSkipped g m)) n with
          | some r => some r
          | none => if n ∈ L2 then some (makeSkipped g n) else none) = _
        rw [h1]
        cases hn : dictGet st.results n
        · simp [List.mem_cons, hnm]
        · rfl

theorem sweepStr_skipped (g : Graph) :
    ∀ (L : List String) (st : GraphRunState),
    (markLevelSkippedAll g L st).skipped = st.skipped := by
  intro L
  induction L with
  | nil =>
    intro st
    rfl
  | cons m L2 ih =>
    intro st
    have hcons : markLevelSkippedAll g (m :: L2) st = markLevelSkippedAll g L2
        (if (dictGet st.results m).isSome then st
         else { st with
           results := dictInsert st.results m (makeSkipped g m),
           order := st.order ++ [m] }) := rfl
    rw [hcons, ih]
    by_cases hm : (dictGet st.results m).isSome = true
    · rw [if_pos hm]
    · rw [if_neg hm]

theorem sweepNodes_get (g : Graph) :
    ∀ (l : List GraphNode) (st : GraphRunState) (n : String),
    dictGet ((l.foldl (fun acc node =>
      if (dictGet acc.results node.name).isSome then acc
      else { acc with
        results := dictInsert acc.results node.name (makeSkipped g node.name),
        order := acc.order ++ [node.name] }) st)).results n =
      match dictGet st.results n with
      | some r => some r
      | none => if n ∈ l.map (·.name) then some (makeSkipped g n) else none := by
  intro l
  induction l with
  | nil =>
    intro st n
    show dictGet st.results n = _
    cases h : dictGet st.results n
    · simp
    · rfl
  | cons nd l2 ih =>
    intro st n
    rw [List.foldl_cons, ih]
    by_cases hm : (dictGet st.results nd.name).isSome = true
    · rw [if_pos hm]
      cases hn : dictGet st.results n
      · have hnm : n ≠ nd.name := by
          intro he
          rw [he] at hn
          rw [hn] at hm
          exact absurd hm (by simp)
        simp [hnm]
      · rfl
    · rw [if_neg hm]
      by_cases hnm : n = nd.name
      · have h1 : dictGet (dictInsert st.results nd.name
            (makeSkipped g nd.name)) n = some (makeSkipped g nd.name) := by
          rw [hnm]
          exact dictGet_insert_self _ nd.name _
        have h2 : dictGet st.results n = none := by
          rw [hnm]
          exact Option.not_isSome_iff_eq_none.mp hm
        show (match dictGet (dictInsert st.results nd.name
            (makeSkipped g nd.name)) n with
          | some r => some r
          | none => if n ∈ l2.map (fun x : GraphNode => x.name) then some (makeSkipped g n) else none) = _
        rw [h1, h2]
        have h3 : n ∈ (nd :: l2).map (·.name) := by simp [hnm]
        simp [h3, hnm]
      · have h1 : dictGet (dictInsert st.results nd.name
            (makeSkipped g nd.name)) n = dictGet st.results n :=
          dictGet_insert_ne _ nd.name n _ hnm
        show (match dictGet (dictInsert st.results nd.name
            (makeSkipped g nd.name)) n with
          | some r => some r
          | none => if n ∈ l2.map (fun x : GraphNode => x.name) then some (makeSkipped g n) else none) = _
        rw [h1]
        cases hn : dictGet st.results n
        · simp [hnm]
        · rfl

theorem markAllRemainingSkipped_get (g : Graph) (st : GraphRunState)
    (n : String) :
    dictGet (markAllRemainingSkipped g st).results n =
      match dictGet st.results n with
      | some r => some r
      | none => if n ∈ g.map (·.name) then some (makeSkipped g n) else none :=
  sweepNodes_get g g st n

theorem setAdd_mem_self (s : List String) (x : String) : x ∈ setAdd s x := by
  unfold setAdd
  by_cases h : x ∈ s
  · rw [if_pos h]
    exact h
  · rw [if_neg h]
    simp

theorem setAdd_mono (s : List String) (x y : String) (h : y ∈ s) :
    y ∈ setAdd s x := by
  unfold setAdd
  by_cases h2 : x ∈ s
  · rw [if_pos h2]
    exact h
  · rw [if_neg h2]
    exact List.mem_append.mpr (Or.inl h)

theorem shouldSkip_false_no_bad (g : Graph) (hnodup : (g.map (·.name)).Nodup)
    (name : String) (skipped : List String) (results : Dict GraphNodeResult)
    (hsk : shouldSkip g name skipped results = false)
    (a : String) (hedge : depEdgeE g name a) :
    a ∉ skipped ∧ ∀ ra, dictGet results a = some ra → ra.status ≠ "error" := by
  obtain ⟨⟨nd, hnd, hname, hadep⟩, hex⟩ := hedge
  have hlook : lookupNode g name = some nd := by
    rw [← hname]
    exact lookupNode_unique g hnodup hnd
  unfold shouldSkip at hsk
  rw [hlook] at hsk
  replace hsk : nd.depends_on.any (fun dep =>
      decide (dep ∈ skipped) ||
      (match dictGet results dep with
       | some r => decide (r.status = "error")
       | none => false)) = false := hsk
  have hne : ¬(nd.depends_on.any (fun dep =>
      decide (dep ∈ skipped) ||
      (match dictGet results dep with
       | some r => decide (r.status = "error")
       | none => false)) = true) := by
    rw [hsk]
    simp
  constructor
  · intro hask
    apply hne
    refine List.any_eq_true.mpr ⟨a, hadep, ?_⟩
    simp [hask]
  · intro ra hget hstat
    apply hne
    refine List.any_eq_true.mpr ⟨a, hadep, ?_⟩
    rw [hget]
    simp [hstat]

theorem markLevel_fold (g : Graph) (opts : GraphOptions) (initial : Kwargs)
    (P : List String) (st : GraphRunState) (L : List String)
    (hnodup : (g.map (·.name)).Nodup)
    (hinv : RunInv g opts initial P st)
    (hguard : opts.stop_on_error = false ∨ hasErrorResults st.results = false)
    (hLP : ∀ m ∈ L, m ∉ P)
    (hLdeps : ∀ m ∈ L, ∀ a, depEdgeE g m a → a ∈ P) :
    ∀ (Lr : List String) (p : GraphRunState × List String),
    (∀ x, x ∈ p.2 ∨ x ∈ Lr → x ∈ L) →
    (∀ a, a ∉ L → dictGet p.1.results a = dictGet st.results a) →
    (∀ x ∈ st.skipped, x ∈ p.1.skipped) →
    (∀ m ∈ p.2, ∀ a, depEdgeE g m a → ¬ BadAt st.results a) →
    (∀ n, (dictGet p.1.results n).isSome = true ↔
      (n ∈ P ∨ (n ∈ L ∧ n ∉ p.2 ∧ n ∉ Lr))) →
    (∀ n r, dictGet p.1.results n = some r →
      dictGet st.results n = some r ∨ r = makeSkipped g n) →
    (∀ n r, dictGet p.1.results n = some r → r.status = "skipped" →
      n ∈ p.1.skipped) →
    (p.2 ++ Lr).Nodup →
    (∀ x ∈ (Lr.foldl (fun (p : GraphRunState × List String) name =>
        if shouldSkip g name p.1.skipped p.1.results then
          ({ results := dictInsert p.1.results name (makeSkipped g name),
             order := p.1.order ++ [name],
             skipped := setAdd p.1.skipped name }, p.2)
        else (p.1, p.2 ++ [name])) p).2, x ∈ L) ∧
    (∀ a, a ∉ L → dictGet (Lr.foldl (fun (p : GraphRunState × List String) name =>
        if shouldSkip g name p.1.skipped p.1.results then
          ({ results := dictInsert p.1.results name (makeSkipped g name),
             order := p.1.order ++ [name],
             skipped := setAdd p.1.skipped name }, p.2)
        else (p.1, p.2 ++ [name])) p).1.results a = dictGet st.results a) ∧
    (∀ x ∈ st.skipped, x ∈ (Lr.foldl (fun (p : GraphRunState × List String) name =>
        if shouldSkip g name p.1.skipped p.1.results then
          ({ results := dictInsert p.1.results name (makeSkipped g name),
             order := p.1.order ++ [name],
             skipped := setAdd p.1.skipped name }, p.2)
        else (p.1, p.2 ++ [name])) p).1.skipped) ∧
    (∀ m ∈ (Lr.foldl (fun (p : GraphRunState × List String) name =>
        if shouldSkip g name p.1.skipped p.1.results then
          ({ results := dictInsert p.1.results name (makeSkipped g name),
             order := p.1.order ++ [name],
             skipped := setAdd p.1.skipped name }, p.2)
        else (p.1, p.2 ++ [name])) p).2, ∀ a, depEdgeE g m a →
          ¬ BadAt st.results a) ∧
    (∀ n, (dictGet (Lr.foldl (fun (p : GraphRunState × List String) name =>
        if shouldSkip g name p.1.skipped p.1.results then
          ({ results := dictInsert p.1.results name (makeSkipped g name),
             order := p.1.order ++ [name],
             skipped := setAdd p.1.skipped name }, p.2)
        else (p.1, p.2 ++ [name])) p).1.results n).isSome = true ↔
      (n ∈ P ∨ (n ∈ L ∧ n ∉ (Lr.foldl (fun (p : GraphRunState × List String) name =>
        if shouldSkip g name p.1.skipped p.1.results then
          ({ results := dictInsert p.1.results name (makeSkipped g name),
             order := p.1.order ++ [name],
             skipped := setAdd p.1.skipped name }, p.2)
        else (p.1, p.2 ++ [name])) p).2))) ∧
    (∀ n r, dictGet (Lr.foldl (fun (p : GraphRunState × List String) name =>
        if shouldSkip g name p.1.skipped p.1.results then
          ({ results := dictInsert p.1.results name (makeSkipped g name),
             order := p.1.order ++ [name],
             skipped := setAdd p.1.skipped name }, p.2)
        else (p.1, p.2 ++ [name])) p).1.results n = some r →
      dictGet st.results n = some r ∨ r = makeSkipped g n) ∧
    (∀ n r, dictGet (Lr.foldl (fun (p : GraphRunState × List String) name =>
        if shouldSkip g name p.1.skipped p.1.results then
          ({ results := dictInsert p.1.results name (makeSkipped g name),
             order := p.1.order ++ [name],
             skipped := setAdd p.1.skipped name }, p.2)
        else (p.1, p.2 ++ [name])) p).1.results n = some r →
      r.status = "skipped" →
      n ∈ (Lr.foldl (fun (p : GraphRunState × List String) name =>
        if shouldSkip g name p.1.skipped p.1.results then
          ({ results := dictInsert p.1.results name (makeSkipped g name),
             order := p.1.order ++ [name],
             skipped := setAdd p.1.skipped name }, p.2)
        else (p.1, p.2 ++ [name])) p).1.skipped) ∧
    ((Lr.foldl (fun (p : GraphRunState × List String) name =>
        if shouldSkip g name p.1.skipped p.1.results then
          ({ results := dictInsert p.1.results name (makeSkipped g name),
             order := p.1.order ++ [name],
             skipped := setAdd p.1.skipped name }, p.2)
        else (p.1, p.2 ++ [name])) p).2.Nodup) := by
  intro Lr
  induction Lr with
  | nil =>
    intro p h0 h1 h2 h3 h5 h6 h7 h8
    rw [List.append_nil] at h8
    simp only [List.foldl_nil]
    refine ⟨fun x hx => h0 x (Or.inl hx), h1, h2, h3, ?_, h6, h7, h8⟩
    intro n
    rw [h5 n]
    constructor
    · rintro (h | ⟨ha, hb, _⟩)
      · exact Or.inl h
      · exact Or.inr ⟨ha, hb⟩
    · rintro (h | ⟨ha, hb⟩)
      · exact Or.inl h
      · exact Or.inr ⟨ha, hb, List.not_mem_nil n⟩
  | cons name Lr2 ih =>
    intro p h0 h1 h2 h3 h5 h6 h7 h8
    rw [List.foldl_cons]
    have hnameL : name ∈ L := h0 name (Or.inr (by simp))
    have hnameNotP2 : name ∉ p.2 := by
      intro hmem
      have := List.disjoint_of_nodup_append h8
      exact this hmem (by simp)
    have hnameNotLr2 : name ∉ Lr2 := by
      have h9 := h8.of_append_right
      rw [List.nodup_cons] at h9
      exact h9.1
    by_cases hsk : shouldSkip g name p.1.skipped p.1.results = true
    · rw [if_pos hsk]
      refine ih _ ?_ ?_ ?_ ?_ ?_ ?_ ?_ ?_
      · intro x hx
        exact h0 x (by
          rcases hx with hx | hx
          · exact Or.inl hx
          · exact Or.inr (by simp [hx]))
      · intro a ha
        show dictGet (dictInsert p.1.results name (makeSkipped g name)) a = _
        rw [dictGet_insert_ne _ name a _ (fun he => ha (he ▸ hnameL))]
        exact h1 a ha
      · intro x hx
        exact setAdd_mono _ name x (h2 x hx)
      · exact h3
      · intro n
        show (dictGet (dictInsert p.1.results name (makeSkipped g name)) n).isSome = true ↔ _
        rw [dictGet_isSome_insert]
        constructor
        · rintro (h | h)
          · rcases (h5 n).mp h with h | ⟨ha, hb, hc⟩
            · exact Or.inl h
            · refine Or.inr ⟨ha, hb, ?_⟩
              intro hmem
              exact hc (by simp [hmem])
          · subst h
            exact Or.inr ⟨hnameL, hnameNotP2, hnameNotLr2⟩
        · rintro (h | ⟨ha, hb, hc⟩)
          · exact Or.inl ((h5 n).mpr (Or.inl h))
          · by_cases hn : n = name
            · exact Or.inr hn
            · refine Or.inl ((h5 n).mpr (Or.inr ⟨ha, hb, ?_⟩))
              simp [hn, hc]
      · intro n r hget
        show dictGet st.results n = some r ∨ r = makeSkipped g n
        by_cases hn : n = name
        · rw [hn] at hget
          rw [dictGet_insert_self] at hget
          right
          rw [hn]
          exact (Option.some.injEq _ _).mp hget.symm
        · rw [dictGet_insert_ne _ name n _ hn] at hget
          exact h6 n r hget
      · intro n r hget hstat
        show n ∈ setAdd p.1.skipped name
        by_cases hn : n = name
        · rw [hn]
          exact setAdd_mem_self _ name
        · rw [dictGet_insert_ne _ name n _ hn] at hget
          exact setAdd_mono _ name n (h7 n r hget hstat)
      · show (p.2 ++ Lr2).Nodup
        have hsub : List.Sublist (p.2 ++ Lr2) (p.2 ++ name :: Lr2) :=
          List.Sublist.append_left (List.sublist_cons_self name Lr2) p.2
        exact h8.sublist hsub
    · rw [if_neg hsk]
      have hskF : shouldSkip g name p.1.skipped p.1.results = false := by
        cases h : shouldSkip g name p.1.skipped p.1.results
        · rfl
        · exact absurd h hsk
      refine ih _ ?_ h1 h2 ?_ ?_ h6 h7 ?_
      · intro x hx
        exact h0 x (by
          rcases hx with hx | hx
          · rcases List.mem_append.mp hx with hx | hx
            · exact Or.inl hx
            · exact Or.inr (by simp at hx; simp [hx])
          · exact Or.inr (by simp [hx]))
      · intro m hm a hedge
        rcases List.mem_append.mp hm with hm | hm
        · exact h3 m hm a hedge
        · have hmname : m = name := by simpa using hm
          subst hmname
          intro hbad
          obtain ⟨ra, hga, hra⟩ := hbad
          have haP : a ∈ P := hLdeps m hnameL a hedge
          have haL : a ∉ L := fun haL2 => hLP a haL2 haP
          have hgetp : dictGet p.1.results a = some ra := by
            rw [h1 a haL]
            exact hga
          have hnb := shouldSkip_false_no_bad g hnodup m p.1.skipped
            p.1.results hskF a hedge
          rcases hra with hra | hra
          · exact hnb.2 ra hgetp hra
          · have haSk : a ∈ st.skipped :=
              hinv.skSet hguard a ra hga hra
            exact hnb.1 (h2 a haSk)
      · intro n
        rw [h5 n]
        constructor
        · rintro (h | ⟨ha, hb, hc⟩)
          · exact Or.inl h
          · refine Or.inr ⟨ha, ?_, fun hm => hc (by simp [hm])⟩
            intro hm
            rcases List.mem_append.mp hm with hm | hm
            · exact hb hm
            · exact hc (by simp at hm; simp [hm])
        · rintro (h | ⟨ha, hb, hc⟩)
          · exact Or.inl h
          · refine Or.inr ⟨ha, fun hm => hb (List.mem_append.mpr (Or.inl hm)), ?_⟩
            intro hm
            rcases List.mem_cons.mp hm with hm | hm
            · exact hb (by rw [hm]; simp)
            · exact hc hm
      · show ((p.2 ++ [name]) ++ Lr2).Nodup
        rw [List.append_assoc]
        exact h8

theorem markLevel_spec (g : Graph) (opts : GraphOptions) (initial : Kwargs)
    (P : List String) (st : GraphRunState) (L : List String)
    (hnodup : (g.map (·.name)).Nodup)
    (hinv : RunInv g opts initial P st)
    (hguard : opts.stop_on_error = false ∨ hasErrorResults st.results = false)
    (hLP : ∀ m ∈ L, m ∉ P)
    (hLnd : L.Nodup)
    (hLdeps : ∀ m ∈ L, ∀ a, depEdgeE g m a → a ∈ P) :
    (∀ x ∈ (markLevel g L st).2, x ∈ L) ∧
    (∀ a, a ∉ L →
      dictGet (markLevel g L st).1.results a = dictGet st.results a) ∧
    (∀ x ∈ st.skipped, x ∈ (markLevel g L st).1.skipped) ∧
    (∀ m ∈ (markLevel g L st).2, ∀ a, depEdgeE g m a →
      ¬ BadAt st.results a) ∧
    (∀ n, (dictGet (markLevel g L st).1.results n).isSome = true ↔
      (n ∈ P ∨ (n ∈ L ∧ n ∉ (markLevel g L st).2))) ∧
    (∀ n r, dictGet (markLevel g L st).1.results n = some r →
      dictGet st.results n = some r ∨ r = makeSkipped g n) ∧
    (∀ n r, dictGet (markLevel g L st).1.results n = some r →
      r.status = "skipped" → n ∈ (markLevel g L st).1.skipped) ∧
    (markLevel g L st).2.Nodup := by
  have h := markLevel_fold g opts initial P st L hnodup hinv hguard hLP hLdeps
    L (st, [])
    (fun x hx => by
      rcases hx with hx | hx
      · exact absurd hx (List.not_mem_nil x)
      · exact hx)
    (fun a _ => rfl)
    (fun x hx => hx)
    (fun m hm => absurd hm (List.not_mem_nil m))
    (fun n => by
      constructor
      · intro h2
        exact Or.inl ((hinv.keys n).mp h2)
      · rintro (h2 | ⟨ha, _, hc⟩)
        · exact (hinv.keys n).mpr h2
        · exact absurd ha hc)
    (fun n r h2 => Or.inl h2)
    (hinv.skSet hguard)
    (by rw [List.nil_append]; exact hLnd)
  exact h

/-- What the run guarantees of a finished result: total coverage of existing
nodes, entries that are skip markers or genuine executions, and entries with a
failed/skipped dependency being skip markers. -/
def FinalOK (g : Graph) (initial : Kwargs) (gr : GraphResult) : Prop :=
  (∀ n, nodeExists g n = true → (dictGet gr.nodes n).isSome = true) ∧
  (∀ n r, dictGet gr.nodes n = some r →
    r = makeSkipped g n ∨ ∃ c, r = executeNode g n c initial) ∧
  (∀ n r a, dictGet gr.nodes n = some r → depEdgeE g n a →
    BadAt gr.nodes a → r = makeSkipped g n)

theorem runSeq_cons (g : Graph) (opts : GraphOptions) (initial : Kwargs)
    (name : String) (rest : List String) (st : GraphRunState) :
    runSeq g opts initial (name :: rest) st =
      if (executeNode g name st.results initial).status == "error" then
        if opts.stop_on_error then
          .halted
            { status := "error",
              nodes := (markAllRemainingSkipped g
                { st with
                  results := dictInsert st.results name
                    (executeNode g name st.results initial),
                  order := st.order ++ [name] }).results,
              execution_order := (markAllRemainingSkipped g
                { st with
                  results := dictInsert st.results name
                    (executeNode g name st.results initial),
                  order := st.order ++ [name] }).order,
              error := some (dictGetD (executeNode g name st.results initial).result
                "message" "A node failed") }
        else
          runSeq g opts initial rest
            { results := dictInsert st.results name
                (executeNode g name st.results initial),
              order := st.order ++ [name],
              skipped := collectDependents g (g.length + 1) name st.skipped }
      else
        runSeq g opts initial rest
          { st with
            results := dictInsert st.results name
              (executeNode g name st.results initial),
            order := st.order ++ [name] } := rfl

theorem executeNode_not_skipped (g : Graph) (n : String)
    (c : Dict GraphNodeResult) (initial : Kwargs) :
    (executeNode g n c initial).status ≠ "skipped" := by
  rcases executeNode_status g n c initial with h | h <;> rw [h] <;> decide

/-- The stop-on-error halt: after recording the failing node and sweeping all
remaining nodes as skipped, the emitted result map is total, well-shaped, and
skip-propagating. -/
theorem halted_finalOK (g : Graph) (initial : Kwargs)
    (P L : List String) (st st2 : GraphRunState) (name : String)
    (gr : GraphResult)
    (hnodup : (g.map (·.name)).Nodup)
    (hLP : ∀ m ∈ L, m ∉ P)
    (hclosedP : ∀ n ∈ P, ∀ a, depEdgeE g n a → a ∈ P)
    (hLdeps : ∀ m ∈ L, ∀ a, depEdgeE g m a → a ∈ P)
    (hnameL : name ∈ L)
    (hnb : ∀ a, depEdgeE g name a → ¬ BadAt st.results a)
    (h3 : ∀ a, a ∉ L → dictGet st2.results a = dictGet st.results a)
    (h4w : ∀ n, (dictGet st2.results n).isSome = true → n ∈ P ∨ n ∈ L)
    (h4P : ∀ n ∈ P, (dictGet st2.results n).isSome = true)
    (h5 : ∀ n r, dictGet st2.results n = some r →
      r = makeSkipped g n ∨ ∃ c, r = executeNode g n c initial)
    (h7 : ∀ n r, dictGet st2.results n = some r →
      (∀ a, depEdgeE g n a → ¬ BadAt st.results a) ∨ r = makeSkipped g n)
    (hgr : gr.nodes = (markAllRemainingSkipped g
      { st2 with
        results := dictInsert st2.results name
          (executeNode g name st2.results initial),
        order := st2.order ++ [name] }).results) :
    FinalOK g initial gr := by
  have hGot : ∀ n, dictGet gr.nodes n =
      match dictGet (dictInsert st2.results name
        (executeNode g name st2.results initial)) n with
      | some r => some r
      | none => if n ∈ g.map (·.name) then some (makeSkipped g n)
                else none := by
    intro n
    rw [hgr]
    exact markAllRemainingSkipped_get g _ n
  have hstable : ∀ a ∈ P, dictGet gr.nodes a = dictGet st.results a ∧
      (dictGet st.results a).isSome = true := by
    intro a haP
    have haL : a ∉ L := fun h => hLP a h haP
    have hane : a ≠ name := fun he => haL (by rw [he]; exact hnameL)
    have h1a : dictGet (dictInsert st2.results name
        (executeNode g name st2.results initial)) a = dictGet st.results a := by
      rw [dictGet_insert_ne _ name a _ hane]
      exact h3 a haL
    have hsome := h4P a haP
    rw [h3 a haL] at hsome
    obtain ⟨ra, hra⟩ := Option.isSome_iff_exists.mp hsome
    refine ⟨?_, hsome⟩
    rw [hGot a, h1a, hra]
  refine ⟨?_, ?_, ?_⟩
  · intro n hex
    rw [hGot n]
    cases hc : dictGet (dictInsert st2.results name
        (executeNode g name st2.results initial)) n
    · simp [nodeExists_mem g n hex]
    · simp
  · intro n r hget
    rw [hGot n] at hget
    cases hc : dictGet (dictInsert st2.results name
        (executeNode g name st2.results initial)) n with
    | none =>
      rw [hc] at hget
      by_cases hmem : n ∈ g.map (·.name)
      · rw [if_pos hmem] at hget
        left
        exact ((Option.some.injEq _ _).mp hget).symm
      · rw [if_neg hmem] at hget
        cases hget
    | some r0 =>
      rw [hc] at hget
      replace hget : some r0 = some r := hget
      have hr0 : r0 = r := by injection hget
      by_cases hn : n = name
      · right
        refine ⟨st2.results, ?_⟩
        rw [hn] at hc
        rw [dictGet_insert_self] at hc
        have : executeNode g name st2.results initial = r0 := by
          injection hc
        rw [← hr0, ← this, hn]
      · rw [dictGet_insert_ne _ name n _ hn] at hc
        rw [← hr0]
        exact h5 n r0 hc
  · intro n r a hget hedge hbad
    rw [hGot n] at hget
    cases hc : dictGet (dictInsert st2.results name
        (executeNode g name st2.results initial)) n with
    | none =>
      rw [hc] at hget
      by_cases hmem : n ∈ g.map (·.name)
      · rw [if_pos hmem] at hget
        exact ((Option.some.injEq _ _).mp hget).symm
      · rw [if_neg hmem] at hget
        cases hget
    | some r0 =>
      rw [hc] at hget
      replace hget : some r0 = some r := hget
      have hr0 : r0 = r := by injection hget
      by_cases hn : n = name
      · exfalso
        rw [hn] at hedge
        have haP : a ∈ P := hLdeps name hnameL a hedge
        obtain ⟨hsta, _⟩ := hstable a haP
        obtain ⟨ra, hra, hrab⟩ := hbad
        rw [hsta] at hra
        exact hnb a hedge ⟨ra, hra, hrab⟩
      · rw [dictGet_insert_ne _ name n _ hn] at hc
        rcases h7 n r0 hc with hnb2 | hskip
        · exfalso
          have hnPL : n ∈ P ∨ n ∈ L := h4w n (by rw [hc]; rfl)
          have haP : a ∈ P := by
            rcases hnPL with h | h
            · exact hclosedP n h a hedge
            · exact hLdeps n h a hedge
          obtain ⟨hsta, _⟩ := hstable a haP
          obtain ⟨ra, hra, hrab⟩ := hbad
          rw [hsta] at hra
          exact hnb2 a hedge ⟨ra, hra, hrab⟩
        · rw [← hr0]
          exact hskip

theorem runSeq_ind (g : Graph) (opts : GraphOptions) (initial : Kwargs)
    (P L : List String) (st : GraphRunState)
    (hnodup : (g.map (·.name)).Nodup)
    (hLP : ∀ m ∈ L, m ∉ P)
    (hclosedP : ∀ n ∈ P, ∀ a, depEdgeE g n a → a ∈ P)
    (hLdeps : ∀ m ∈ L, ∀ a, depEdgeE g m a → a ∈ P) :
    ∀ (rs : List String) (st2 : GraphRunState),
    (∀ m ∈ rs, m ∈ L) →
    rs.Nodup →
    (∀ m ∈ rs, ∀ a, depEdgeE g m a → ¬ BadAt st.results a) →
    (∀ a, a ∉ L → dictGet st2.results a = dictGet st.results a) →
    (∀ n, (dictGet st2.results n).isSome = true ↔
      (n ∈ P ∨ (n ∈ L ∧ n ∉ rs))) →
    (∀ n r, dictGet st2.results n = some r →
      r = makeSkipped g n ∨ ∃ c, r = executeNode g n c initial) →
    (∀ n r, dictGet st2.results n = some r → r.status = "skipped" →
      n ∈ st2.skipped) →
    (∀ n r, dictGet st2.results n = some r →
      (∀ a, depEdgeE g n a → ¬ BadAt st.results a) ∨ r = makeSkipped g n) →
    (∀ st3, runSeq g opts initial rs st2 = .done st3 →
      (∀ a, a ∉ L → dictGet st3.results a = dictGet st.results a) ∧
      (∀ n, (dictGet st3.results n).isSome = true ↔ (n ∈ P ∨ n ∈ L)) ∧
      (∀ n r, dictGet st3.results n = some r →
        r = makeSkipped g n ∨ ∃ c, r = executeNode g n c initial) ∧
      (∀ n r, dictGet st3.results n = some r → r.status = "skipped" →
        n ∈ st3.skipped) ∧
      (∀ n r, dictGet st3.results n = some r →
        (∀ a, depEdgeE g n a → ¬ BadAt st.results a) ∨ r = makeSkipped g n)) ∧
    (∀ res, runSeq g opts initial rs st2 = .halted res →
      FinalOK g initial res) := by
  intro rs
  induction rs with
  | nil =>
    intro st2 h0 h1 h2 h3 h4 h5 h6 h7
    constructor
    · intro st3 hdone
      have hred : runSeq g opts initial [] st2 = .done st2 := rfl
      rw [hred] at hdone
      have hst : st2 = st3 := by injection hdone
      rw [← hst]
      refine ⟨h3, ?_, h5, h6, h7⟩
      intro n
      rw [h4 n]
      constructor
      · rintro (h | ⟨ha, _⟩)
        · exact Or.inl h
        · exact Or.inr ha
      · rintro (h | h)
        · exact Or.inl h
        · exact Or.inr ⟨h, List.not_mem_nil n⟩
    · intro res hres
      have hred : runSeq g opts initial [] st2 = .done st2 := rfl
      rw [hred] at hres
      cases hres
  | cons name rs2 ih =>
    intro st2 h0 h1 h2 h3 h4 h5 h6 h7
    rw [List.nodup_cons] at h1
    have hnameL : name ∈ L := h0 name (by simp)
    have hnameNotP : name ∉ P := hLP name hnameL
    have hnotSome : ¬((dictGet st2.results name).isSome = true) := by
      rw [h4 name]
      rintro (h | ⟨_, hb⟩)
      · exact hnameNotP h
      · exact hb (by simp)
    have hnb : ∀ a, depEdgeE g name a → ¬ BadAt st.results a :=
      h2 name (by simp)
    have hkeys2 : ∀ (v : GraphNodeResult) (n : String),
        (dictGet (dictInsert st2.results name v) n).isSome = true ↔
        (n ∈ P ∨ (n ∈ L ∧ n ∉ rs2)) := by
      intro v n
      rw [dictGet_isSome_insert]
      constructor
      · rintro (h | h)
        · rcases (h4 n).mp h with h | ⟨ha, hb⟩
          · exact Or.inl h
          · refine Or.inr ⟨ha, fun hm => hb (by simp [hm])⟩
        · rw [h]
          exact Or.inr ⟨hnameL, h1.1⟩
      · rintro (h | ⟨ha, hb⟩)
        · exact Or.inl ((h4 n).mpr (Or.inl h))
        · by_cases hn : n = name
          · exact Or.inr hn
          · refine Or.inl ((h4 n).mpr (Or.inr ⟨ha, ?_⟩))
            simp [hn, hb]
    have hstable2 : ∀ (v : GraphNodeResult) (a : String), a ∉ L →
        dictGet (dictInsert st2.results name v) a = dictGet st.results a := by
      intro v a ha
      rw [dictGet_insert_ne _ name a _ (fun he => ha (by rw [he]; exact hnameL))]
      exact h3 a ha
    have hshape2 : ∀ n r,
        dictGet (dictInsert st2.results name
          (executeNode g name st2.results initial)) n = some r →
        r = makeSkipped g n ∨ ∃ c, r = executeNode g n c initial := by
      intro n r hget
      by_cases hn : n = name
      · rw [hn, dictGet_insert_self] at hget
        right
        refine ⟨st2.results, ?_⟩
        have : executeNode g name st2.results initial = r := by injection hget
        rw [← this, hn]
      · rw [dictGet_insert_ne _ name n _ hn] at hget
        exact h5 n r hget
    have hexec2 : ∀ n r,
        dictGet (dictInsert st2.results name
          (executeNode g name st2.results initial)) n = some r →
        (∀ a, depEdgeE g n a → ¬ BadAt st.results a) ∨ r = makeSkipped g n := by
      intro n r hget
      by_cases hn : n = name
      · left
        rw [hn]
        exact hnb
      · rw [dictGet_insert_ne _ name n _ hn] at hget
        exact h7 n r hget
    rw [runSeq_cons]
    by_cases herr : (executeNode g name st2.results initial).status = "error"
    · rw [if_pos (by simp [herr])]
      by_cases hstop : opts.stop_on_error = true
      · rw [if_pos hstop]
        constructor
        · intro st3 hdone
          cases hdone
        · intro res hres
          have hresEq := GraphSeqOut.halted.inj hres
          refine halted_finalOK g initial P L st st2 name res hnodup hLP
            hclosedP hLdeps hnameL hnb h3
            (fun n h => by
              rcases (h4 n).mp h with h | ⟨ha, _⟩
              · exact Or.inl h
              · exact Or.inr ha)
            (fun n hn => (h4 n).mpr (Or.inl hn)) h5 h7 ?_
          rw [← hresEq]
      · rw [if_neg hstop]
        refine ih
          { results :=
              dictInsert st2.results name (executeNode g name st2.results initial),
            order := st2.order ++ [name],
            skipped := collectDependents g (g.length + 1) name st2.skipped }
          (fun m hm => h0 m (by simp [hm])) h1.2
          (fun m hm a ha => h2 m (by simp [hm]) a ha)
          (hstable2 _) (hkeys2 _) hshape2 ?_ hexec2
        intro n r hget hstat
        show n ∈ collectDependents g (g.length + 1) name st2.skipped
        by_cases hn : n = name
        · exfalso
          rw [hn, dictGet_insert_self] at hget
          have : executeNode g name st2.results initial = r := by
            injection hget
          rw [← this] at hstat
          rw [herr] at hstat
          exact absurd hstat (by decide)
        · rw [dictGet_insert_ne _ name n _ hn] at hget
          exact collectDependents_mono g _ name _ n (h6 n r hget hstat)
    · rw [if_neg (by simp [herr])]
      refine ih
        { st2 with
          results :=
            dictInsert st2.results name (executeNode g name st2.results initial),
          order := st2.order ++ [name] }
        (fun m hm => h0 m (by simp [hm])) h1.2
        (fun m hm a ha => h2 m (by simp [hm]) a ha)
        (hstable2 _) (hkeys2 _) hshape2 ?_ hexec2
      intro n r hget hstat
      show n ∈ st2.skipped
      by_cases hn : n = name
      · exfalso
        rw [hn, dictGet_insert_self] at hget
        have : executeNode g name st2.results initial = r := by
          injection hget
        rw [← this] at hstat
        exact executeNode_not_skipped g name st2.results initial hstat
      · rw [dictGet_insert_ne _ name n _ hn] at hget
        exact h6 n r hget hstat

theorem applyLevel_ind (g : Graph) (initial : Kwargs)
    (P L : List String) (st : GraphRunState)
    (hLP : ∀ m ∈ L, m ∉ P) :
    ∀ (ps : List (String × GraphNodeResult)) (st2 : GraphRunState),
    (∀ q ∈ ps, q.1 ∈ L ∧ (∀ a, depEdgeE g q.1 a → ¬ BadAt st.results a) ∧
      ∃ c, q.2 = executeNode g q.1 c initial) →
    (ps.map Prod.fst).Nodup →
    (∀ a, a ∉ L → dictGet st2.results a = dictGet st.results a) →
    (∀ n, (dictGet st2.results n).isSome = true ↔
      (n ∈ P ∨ (n ∈ L ∧ n ∉ ps.map Prod.fst))) →
    (∀ n r, dictGet st2.results n = some r →
      r = makeSkipped g n ∨ ∃ c, r = executeNode g n c initial) →
    (∀ n r, dictGet st2.results n = some r → r.status = "skipped" →
      n ∈ st2.skipped) →
    (∀ n r, dictGet st2.results n = some r →
      (∀ a, depEdgeE g n a → ¬ BadAt st.results a) ∨ r = makeSkipped g n) →
    (∀ a, a ∉ L → dictGet (applyLevelResults g ps st2).results a =
      dictGet st.results a) ∧
    (∀ n, (dictGet (applyLevelResults g ps st2).results n).isSome = true ↔
      (n ∈ P ∨ n ∈ L)) ∧
    (∀ n r, dictGet (applyLevelResults g ps st2).results n = some r →
      r = makeSkipped g n ∨ ∃ c, r = executeNode g n c initial) ∧
    (∀ n r, dictGet (applyLevelResults g ps st2).results n = some r →
      r.status = "skipped" → n ∈ (applyLevelResults g ps st2).skipped) ∧
    (∀ n r, dictGet (applyLevelResults g ps st2).results n = some r →
      (∀ a, depEdgeE g n a → ¬ BadAt st.results a) ∨ r = makeSkipped g n) := by
  intro ps
  induction ps with
  | nil =>
    intro st2 h0 h1 h2 h3 h4 h5 h6
    rw [show applyLevelResults g [] st2 = st2 from rfl]
    refine ⟨h2, ?_, h4, h5, h6⟩
    intro n
    rw [h3 n]
    constructor
    · rintro (h | ⟨ha, _⟩)
      · exact Or.inl h
      · exact Or.inr ha
    · rintro (h | h)
      · exact Or.inl h
      · exact Or.inr ⟨h, List.not_mem_nil n⟩
  | cons q ps2 ih =>
    obtain ⟨name, r⟩ := q
    intro st2 h0 h1 h2 h3 h4 h5 h6
    rw [List.map_cons, List.nodup_cons] at h1
    obtain ⟨hnameL, hnb, c0, hc0⟩ := h0 (name, r) (by simp)
    have hc0' : r = executeNode g name c0 initial := hc0
    have hnameNotP : name ∉ P := hLP name hnameL
    have hrstatus : r.status ≠ "skipped" := by
      rw [hc0']
      exact executeNode_not_skipped g name c0 initial
    have hred : applyLevelResults g ((name, r) :: ps2) st2 =
        applyLevelResults g ps2
          (if r.status = "error" then
            { results := dictInsert st2.results name r,
              order := st2.order ++ [name],
              skipped := collectDependents g (g.length + 1) name st2.skipped }
          else
            { st2 with results := dictInsert st2.results name r,
                       order := st2.order ++ [name] }) := rfl
    rw [hred]
    have hstable2 : ∀ a, a ∉ L →
        dictGet (dictInsert st2.results name r) a = dictGet st.results a := by
      intro a ha
      rw [dictGet_insert_ne _ name a _
        (fun he => ha (by rw [he]; exact hnameL))]
      exact h2 a ha
    have hkeys2 : ∀ n, (dictGet (dictInsert st2.results name r) n).isSome =
        true ↔ (n ∈ P ∨ (n ∈ L ∧ n ∉ ps2.map Prod.fst)) := by
      intro n
      rw [dictGet_isSome_insert]
      constructor
      · rintro (h | h)
        · rcases (h3 n).mp h with h | ⟨ha, hb⟩
          · exact Or.inl h
          · refine Or.inr ⟨ha, fun hm => hb (by simp [hm])⟩
        · rw [h]
          exact Or.inr ⟨hnameL, h1.1⟩
      · rintro (h | ⟨ha, hb⟩)
        · exact Or.inl ((h3 n).mpr (Or.inl h))
        · by_cases hn : n = name
          · exact Or.inr hn
          · refine Or.inl ((h3 n).mpr (Or.inr ⟨ha, ?_⟩))
            simp [hn, hb]
    have hshape2 : ∀ n r2, dictGet (dictInsert st2.results name r) n =
        some r2 → r2 = makeSkipped g n ∨ ∃ c, r2 = executeNode g n c initial := by
      intro n r2 hget
      by_cases hn : n = name
      · rw [hn, dictGet_insert_self] at hget
        right
        refine ⟨c0, ?_⟩
        have : r = r2 := by injection hget
        rw [← this, hc0', hn]
      · rw [dictGet_insert_ne _ name n _ hn] at hget
        exact h4 n r2 hget
    have hexec2 : ∀ n r2, dictGet (dictInsert st2.results name r) n =
        some r2 → (∀ a, depEdgeE g n a → ¬ BadAt st.results a) ∨
          r2 = makeSkipped g n := by
      intro n r2 hget
      by_cases hn : n = name
      · left
        rw [hn]
        exact hnb
      · rw [dictGet_insert_ne _ name n _ hn] at hget
        exact h6 n r2 hget
    by_cases hrerr : r.status = "error"
    · rw [if_pos hrerr]
      refine ih _ (fun q2 hq2 => h0 q2 (by simp [hq2])) h1.2
        hstable2 hkeys2 hshape2 ?_ hexec2
      intro n r2 hget hstat
      show n ∈ collectDependents g (g.length + 1) name st2.skipped
      by_cases hn : n = name
      · exfalso
        rw [hn, dictGet_insert_self] at hget
        have : r = r2 := by injection hget
        rw [← this] at hstat
        exact hrstatus hstat
      · rw [dictGet_insert_ne _ name n _ hn] at hget
        exact collectDependents_mono g _ name _ n (h5 n r2 hget hstat)
    · rw [if_neg hrerr]
      refine ih _ (fun q2 hq2 => h0 q2 (by simp [hq2])) h1.2
        hstable2 hkeys2 hshape2 ?_ hexec2
      intro n r2 hget hstat
      show n ∈ st2.skipped
      by_cases hn : n = name
      · exfalso
        rw [hn, dictGet_insert_self] at hget
        have : r = r2 := by injection hget
        rw [← this] at hstat
        exact hrstatus hstat
      · rw [dictGet_insert_ne _ name n _ hn] at hget
        exact h5 n r2 hget hstat

theorem sweepStr_hasError (g : Graph) :
    ∀ (L : List String) (st : GraphRunState),
    hasErrorResults st.results = true →
    hasErrorResults (markLevelSkippedAll g L st).results = true := by
  intro L
  induction L with
  | nil =>
    intro st h
    exact h
  | cons m L2 ih =>
    intro st h
    have hcons : markLevelSkippedAll g (m :: L2) st = markLevelSkippedAll g L2
        (if (dictGet st.results m).isSome then st
         else { st with
           results := dictInsert st.results m (makeSkipped g m),
           order := st.order ++ [m] }) := rfl
    rw [hcons]
    by_cases hm : (dictGet st.results m).isSome = true
    · rw [if_pos hm]
      exact ih st h
    · rw [if_neg hm]
      refine ih _ ?_
      show hasErrorResults (dictInsert st.results m (makeSkipped g m)) = true
      exact hasErrorResults_insert_mono _ m _
        (Option.not_isSome_iff_eq_none.mp hm) h

/-- Branch 0 of the level loop: in stop mode with an error already recorded,
the whole level is swept as skipped; the invariant advances. -/
theorem sweep_level_inv (g : Graph) (opts : GraphOptions) (initial : Kwargs)
    (P : List String) (st : GraphRunState) (L : List String)
    (hinv : RunInv g opts initial P st)
    (hstop : opts.stop_on_error = true)
    (herr : hasErrorResults st.results = true)
    (hLP : ∀ m ∈ L, m ∉ P)
    (hLdeps : ∀ m ∈ L, ∀ a, depEdgeE g m a → a ∈ P) :
    RunInv g opts initial (P ++ L) (markLevelSkippedAll g L st) := by
  have hget := sweepStr_get g L st
  have hsk := sweepStr_skipped g L st
  refine ⟨?_, ?_, ?_, ?_, ?_⟩
  · intro n
    rw [hget n]
    cases hc : dictGet st.results n with
    | none =>
      by_cases hm : n ∈ L
      · simp [hm]
      · have hnP : n ∉ P := by
          intro h
          have := (hinv.keys n).mpr h
          rw [hc] at this
          exact absurd this (by simp)
        simp [hm, hnP]
    | some r =>
      have hnP : n ∈ P := (hinv.keys n).mp (by rw [hc]; rfl)
      simp [hnP]
  · intro n r hget2
    rw [hget n] at hget2
    cases hc : dictGet st.results n with
    | none =>
      rw [hc] at hget2
      by_cases hm : n ∈ L
      · rw [if_pos hm] at hget2
        left
        exact ((Option.some.injEq _ _).mp hget2).symm
      · rw [if_neg hm] at hget2
        cases hget2
    | some r0 =>
      rw [hc] at hget2
      replace hget2 : some r0 = some r := hget2
      have : r0 = r := by injection hget2
      rw [← this]
      exact hinv.shape n r0 hc
  · intro n r a hget2 hedge hbad
    rw [hget n] at hget2
    cases hc : dictGet st.results n with
    | none =>
      rw [hc] at hget2
      by_cases hm : n ∈ L
      · rw [if_pos hm] at hget2
        exact ((Option.some.injEq _ _).mp hget2).symm
      · rw [if_neg hm] at hget2
        cases hget2
    | some r0 =>
      rw [hc] at hget2
      replace hget2 : some r0 = some r := hget2
      have hr0 : r0 = r := by injection hget2
      have hnP : n ∈ P := (hinv.keys n).mp (by rw [hc]; rfl)
      have haP : a ∈ P := hinv.closedP n hnP a hedge
      have haL : a ∉ L := fun h => hLP a h haP
      have hasome := (hinv.keys a).mpr haP
      obtain ⟨ra0, hra0⟩ := Option.isSome_iff_exists.mp hasome
      have hbad2 : BadAt st.results a := by
        obtain ⟨ra, hra, hrab⟩ := hbad
        rw [hget a, hra0] at hra
        replace hra : some ra0 = some ra := hra
        have : ra0 = ra := by injection hra
        exact ⟨ra0, hra0, by rw [this]; exact hrab⟩
      rw [← hr0]
      exact hinv.skipProp n r0 a hc hedge hbad2
  · intro hguard
    exfalso
    rcases hguard with h | h
    · rw [hstop] at h
      exact absurd h (by simp)
    · rw [sweepStr_hasError g L st herr] at h
      exact absurd h (by simp)
  · intro n hn a ha
    rcases List.mem_append.mp hn with h | h
    · exact List.mem_append.mpr (Or.inl (hinv.closedP n h a ha))
    · exact List.mem_append.mpr (Or.inl (hLdeps n h a ha))

/-- Every level-entry record either has no failed/skipped dependency or is a
skip marker (classical split of the invariant's skip propagation). -/
theorem runInv_hexec (g : Graph) (opts : GraphOptions) (initial : Kwargs)
    (P : List String) (st : GraphRunState)
    (hinv : RunInv g opts initial P st) :
    ∀ n r, dictGet st.results n = some r →
      (∀ a, depEdgeE g n a → ¬ BadAt st.results a) ∨ r = makeSkipped g n := by
  intro n r hget
  by_cases h : ∀ a, depEdgeE g n a → ¬ BadAt st.results a
  · exact Or.inl h
  · right
    push_neg at h
    obtain ⟨a, ha, hb⟩ := h
    exact hinv.skipProp n r a hget ha hb

/-- Rebuilding the invariant for the next level from the post-level facts. -/
theorem assemble_inv (g : Graph) (opts : GraphOptions) (initial : Kwargs)
    (P L : List String) (st st3 : GraphRunState)
    (hinv : RunInv g opts initial P st)
    (hLP : ∀ m ∈ L, m ∉ P)
    (hLdeps : ∀ m ∈ L, ∀ a, depEdgeE g m a → a ∈ P)
    (c1 : ∀ a, a ∉ L → dictGet st3.results a = dictGet st.results a)
    (c2 : ∀ n, (dictGet st3.results n).isSome = true ↔ (n ∈ P ∨ n ∈ L))
    (c3 : ∀ n r, dictGet st3.results n = some r →
      r = makeSkipped g n ∨ ∃ c, r = executeNode g n c initial)
    (c4 : ∀ n r, dictGet st3.results n = some r → r.status = "skipped" →
      n ∈ st3.skipped)
    (c5 : ∀ n r, dictGet st3.results n = some r →
      (∀ a, depEdgeE g n a → ¬ BadAt st.results a) ∨ r = makeSkipped g n) :
    RunInv g opts initial (P ++ L) st3 := by
  refine ⟨?_, c3, ?_, fun _ => c4, ?_⟩
  · intro n
    rw [c2 n, List.mem_append]
  · intro n r a hget hedge hbad
    have hnPL : n ∈ P ∨ n ∈ L := (c2 n).mp (by rw [hget]; rfl)
    have haP : a ∈ P := by
      rcases hnPL with h | h
      · exact hinv.closedP n h a hedge
      · exact hLdeps n h a hedge
    have haL : a ∉ L := fun h => hLP a h haP
    have hbad2 : BadAt st.results a := by
      obtain ⟨ra, hra, hrab⟩ := hbad
      rw [c1 a haL] at hra
      exact ⟨ra, hra, hrab⟩
    rcases c5 n r hget with hnb | hskip
    · exact absurd hbad2 (hnb a hedge)
    · exact hskip
  · intro n hn a ha
    rcases List.mem_append.mp hn with h | h
    · exact List.mem_append.mpr (Or.inl (hinv.closedP n h a ha))
    · exact List.mem_append.mpr (Or.inl (hLdeps n h a ha))

theorem runLevels_cons (g : Graph) (opts : GraphOptions) (initial : Kwargs)
    (L : List String) (rest : List (List String)) (st : GraphRunState) :
    runLevels g opts initial (L :: rest) st =
      if opts.stop_on_error ∧ hasErrorResults st.results then
        runLevels g opts initial rest (markLevelSkippedAll g L st)
      else
        if (markLevel g L st).2 = [] then
          runLevels g opts initial rest (markLevel g L st).1
        else if opts.parallel ∧ ¬opts.stop_on_error ∧
            (markLevel g L st).2.length > 1 then
          runLevels g opts initial rest
            (applyLevelResults g
              ((markLevel g L st).2.map
                (fun n => (n, executeNode g n (markLevel g L st).1.results initial)))
              (markLevel g L st).1)
        else
          match runSeq g opts initial (markLevel g L st).2 (markLevel g L st).1 with
          | .done st3 => runLevels g opts initial rest st3
          | .halted res => res := rfl

theorem runLevels_final (g : Graph) (opts : GraphOptions) (initial : Kwargs)
    (LS : List (List String))
    (hnodup : (g.map (·.name)).Nodup)
    (hflat : LS.flatten.Nodup)
    (hcomp : ∀ n, n ∈ LS.flatten ↔ nodeExists g n = true)
    (hlevOK : LevelsOK g LS) :
    ∀ (rest done : List (List String)) (st : GraphRunState),
    LS = done ++ rest →
    RunInv g opts initial done.flatten st →
    FinalOK g initial (runLevels g opts initial rest st) := by
  intro rest
  induction rest with
  | nil =>
    intro done st hsplit hinv
    rw [List.append_nil] at hsplit
    have hred : runLevels g opts initial [] st = graphFinalize st := rfl
    rw [hred]
    refine ⟨?_, ?_, ?_⟩
    · intro n hex
      show (dictGet st.results n).isSome = true
      refine (hinv.keys n).mpr ?_
      have h2 := (hcomp n).mpr hex
      rw [hsplit] at h2
      exact h2
    · exact hinv.shape
    · exact hinv.skipProp
  | cons L rest2 ih =>
    intro done st hsplit hinv
    have hLOK := hlevOK done L rest2 hsplit
    have hLdeps : ∀ m ∈ L, ∀ a, depEdgeE g m a → a ∈ done.flatten :=
      fun m hm a ha => (hLOK m hm).2 a ha
    have hflat2 : (done.flatten ++ (L ++ rest2.flatten)).Nodup := by
      have h2 := hflat
      rw [hsplit, List.flatten_append, List.flatten_cons] at h2
      exact h2
    have hLnd : L.Nodup := (hflat2.of_append_right).of_append_left
    have hLP : ∀ m ∈ L, m ∉ done.flatten := by
      intro m hm hmP
      exact (List.disjoint_of_nodup_append hflat2) hmP
        (List.mem_append.mpr (Or.inl hm))
    have hsplit2 : LS = (done ++ [L]) ++ rest2 := by
      rw [hsplit, List.append_assoc]
      rfl
    have hflatDL : (done ++ [L]).flatten = done.flatten ++ L := by
      rw [List.flatten_append]
      simp
    rw [runLevels_cons]
    by_cases hguardC : opts.stop_on_error = true ∧
        hasErrorResults st.results = true
    · rw [if_pos hguardC]
      have hinv2 := sweep_level_inv g opts initial done.flatten st L hinv
        hguardC.1 hguardC.2 hLP hLdeps
      have hinv3 : RunInv g opts initial (done ++ [L]).flatten
          (markLevelSkippedAll g L st) := by
        rw [hflatDL]
        exact hinv2
      exact ih (done ++ [L]) _ hsplit2 hinv3
    · have hguard : opts.stop_on_error = false ∨
          hasErrorResults st.results = false := by
        by_cases hs : opts.stop_on_error = true
        · by_cases hh : hasErrorResults st.results = true
          · exact absurd ⟨hs, hh⟩ hguardC
          · right
            cases hb : hasErrorResults st.results
            · rfl
            · exact absurd hb hh
        · left
          cases hb : opts.stop_on_error
          · rfl
          · exact absurd hb hs
      rw [if_neg hguardC]
      obtain ⟨o1, o2, o3, o4, o5, o6, o7, o8⟩ :=
        markLevel_spec g opts initial done.flatten st L hnodup hinv hguard
          hLP hLnd hLdeps
      have hexec0 := runInv_hexec g opts initial done.flatten st hinv
      have hshape1 : ∀ n r, dictGet (markLevel g L st).1.results n = some r →
          r = makeSkipped g n ∨ ∃ c, r = executeNode g n c initial := by
        intro n r hget
        rcases o6 n r hget with h | h
        · exact hinv.shape n r h
        · exact Or.inl h
      have hexec1 : ∀ n r, dictGet (markLevel g L st).1.results n = some r →
          (∀ a, depEdgeE g n a → ¬ BadAt st.results a) ∨
            r = makeSkipped g n := by
        intro n r hget
        rcases o6 n r hget with h | h
        · exact hexec0 n r h
        · exact Or.inr h
      by_cases hempty : (markLevel g L st).2 = []
      · rw [if_pos hempty]
        have c2 : ∀ n, (dictGet (markLevel g L st).1.results n).isSome =
            true ↔ (n ∈ done.flatten ∨ n ∈ L) := by
          intro n
          rw [o5 n]
          constructor
          · rintro (h | ⟨ha, _⟩)
            · exact Or.inl h
            · exact Or.inr ha
          · rintro (h | h)
            · exact Or.inl h
            · refine Or.inr ⟨h, ?_⟩
              rw [hempty]
              exact List.not_mem_nil n
        have hinv2 := assemble_inv g opts initial done.flatten L st
          (markLevel g L st).1 hinv hLP hLdeps o2 c2 hshape1 o7 hexec1
        have hinv3 : RunInv g opts initial (done ++ [L]).flatten
            (markLevel g L st).1 := by
          rw [hflatDL]
          exact hinv2
        exact ih (done ++ [L]) _ hsplit2 hinv3
      · rw [if_neg hempty]
        by_cases hpar : opts.parallel = true ∧ ¬(opts.stop_on_error = true) ∧
            (markLevel g L st).2.length > 1
        · rw [if_pos hpar]
          have hmapfst : (((markLevel g L st).2.map
              (fun n => (n, executeNode g n (markLevel g L st).1.results
                initial))).map Prod.fst) = (markLevel g L st).2 := by
            rw [List.map_map]
            have hmapid : ∀ (l : List String),
                List.map (Prod.fst ∘ fun n : String =>
                  (n, executeNode g n (markLevel g L st).1.results initial))
                  l = l := by
              intro l
              induction l with
              | nil => rfl
              | cons x xs ihx =>
                rw [List.map_cons, ihx]
                rfl
            exact hmapid _
          have happ := applyLevel_ind g initial done.flatten L st hLP
            ((markLevel g L st).2.map
              (fun n => (n, executeNode g n (markLevel g L st).1.results
                initial)))
            (markLevel g L st).1
            (fun q hq => by
              rw [List.mem_map] at hq
              obtain ⟨m, hm, hqe⟩ := hq
              rw [← hqe]
              exact ⟨o1 m hm, o4 m hm, (markLevel g L st).1.results, rfl⟩)
            (by rw [hmapfst]; exact o8)
            o2
            (by rw [hmapfst]; exact o5)
            hshape1 o7 hexec1
          obtain ⟨c1, c2, c3, c4, c5⟩ := happ
          have hinv2 := assemble_inv g opts initial done.flatten L st _
            hinv hLP hLdeps c1 c2 c3 c4 c5
          have hinv3 : RunInv g opts initial (done ++ [L]).flatten
              (applyLevelResults g
                ((markLevel g L st).2.map
                  (fun n => (n, executeNode g n (markLevel g L st).1.results
                    initial)))
                (markLevel g L st).1) := by
            rw [hflatDL]
            exact hinv2
          exact ih (done ++ [L]) _ hsplit2 hinv3
        · rw [if_neg hpar]
          have hrs := runSeq_ind g opts initial done.flatten L st hnodup hLP
            hinv.closedP hLdeps (markLevel g L st).2 (markLevel g L st).1
            o1 o8 o4 o2 o5 hshape1 o7 hexec1
          cases hcall : runSeq g opts initial (markLevel g L st).2
              (markLevel g L st).1 with
          | done st3 =>
            obtain ⟨c1, c2, c3, c4, c5⟩ := hrs.1 st3 hcall
            have hinv2 := assemble_inv g opts initial done.flatten L st st3
              hinv hLP hLdeps c1 c2 c3 c4 c5
            have hinv3 : RunInv g opts initial (done ++ [L]).flatten st3 := by
              rw [hflatDL]
              exact hinv2
            exact ih (done ++ [L]) _ hsplit2 hinv3
          | halted res =>
            exact hrs.2 res hcall

/-- C7: for every validated graph (unique node names, `validate` returning no
errors), every run configuration, and every node `A` whose agent fails on all
inputs, every node `B` that transitively depends on `A` ends with exactly the
skip-marker record — status `skipped`, never `success` or `error` — which is
produced without invoking `B`'s agent. -/
theorem graph_skip_propagation (g : Graph) (opts : GraphOptions)
    (initial : Kwargs) (A B : String) (ndA : GraphNode)
    (hnodup : (g.map (·.name)).Nodup)
    (hvalid : validate g = .ok (true, []))
    (hlookA : lookupNode g A = some ndA)
    (hfail : ∀ kw, ∃ e, ndA.agent.execute kw = Except.error e)
    (hdep : Relation.TransGen (depEdgeE g) B A) :
    ∃ gr, runGraph g opts initial = .ok gr ∧
      dictGet gr.nodes B = some (makeSkipped g B) ∧
      (makeSkipped g B).status = "skipped" := by
  obtain ⟨hK1, hK2, hK3⟩ := topological_levels_spec g hnodup hvalid
  have hrun := runGraph_of_valid g opts initial hvalid
  have hfin : FinalOK g initial
      (runLevels g opts initial (topological_levels g) {}) := by
    refine runLevels_final g opts initial (topological_levels g) hnodup
      hK1 hK2 hK3 (topological_levels g) [] {} rfl ?_
    refine ⟨?_, ?_, ?_, ?_, ?_⟩
    · intro n
      constructor
      · intro h
        rw [show dictGet (({} : GraphRunState)).results n = none from rfl] at h
        exact absurd h (by simp)
      · intro h
        exact absurd h (by simp)
    · intro n r h
      rw [show dictGet (({} : GraphRunState)).results n = none from rfl] at h
      cases h
    · intro n r a h
      rw [show dictGet (({} : GraphRunState)).results n = none from rfl] at h
      cases h
    · intro _ n r h
      rw [show dictGet (({} : GraphRunState)).results n = none from rfl] at h
      cases h
    · intro n hn
      exact absurd hn (by simp)
  have hAex : nodeExists g A = true := by
    obtain ⟨hmem, hname⟩ := lookupNode_mem g A hlookA
    rw [← hname]
    exact mem_nodeExists g _ (List.mem_map_of_mem _ hmem)
  obtain ⟨hF1, hF2, hF3⟩ := hfin
  have hbadA : BadAt (runLevels g opts initial
      (topological_levels g) {}).nodes A := by
    have hsome := hF1 A hAex
    obtain ⟨rA, hrA⟩ := Option.isSome_iff_exists.mp hsome
    rcases hF2 A rA hrA with h | ⟨c, hc⟩
    · exact ⟨rA, hrA, Or.inr (by rw [h]; rfl)⟩
    · refine ⟨rA, hrA, Or.inl ?_⟩
      rw [hc]
      exact executeNode_fails g A ndA hlookA hfail c initial
  have hmain : ∀ y, Relation.TransGen (depEdgeE g) y A →
      dictGet (runLevels g opts initial (topological_levels g) {}).nodes y =
        some (makeSkipped g y) := by
    intro y hy
    induction hy using Relation.TransGen.head_induction_on with
    | base h2 =>
      have hyex := depEdgeE_source_exists h2
      have hsome := hF1 _ hyex
      obtain ⟨ry, hry⟩ := Option.isSome_iff_exists.mp hsome
      have hres := hF3 _ ry A hry h2 hbadA
      rw [hry, hres]
    | ih h2 htail ihy =>
      have hbadc : BadAt (runLevels g opts initial
          (topological_levels g) {}).nodes _ :=
        ⟨_, ihy, Or.inr rfl⟩
      have hyex := depEdgeE_source_exists h2
      have hsome := hF1 _ hyex
      obtain ⟨ry, hry⟩ := Option.isSome_iff_exists.mp hsome
      have hres := hF3 _ ry _ hry h2 hbadc
      rw [hry, hres]
  exact ⟨_, hrun, hmain B hdep, rfl⟩

/-- The witness's failing root: an agent erroring on every input. -/
def wAgentFail : AgentBeh :=
  { name := "F", execute := fun _ => .error "boom",
    lastSlush := fun _ => none, slushOut := fun s => s }

def wNodeA : GraphNode :=
  { name := "a", agent := wAgentFail, depends_on := [] }

def wNodeB : GraphNode :=
  { name := "b", agent := stubAgent "B", depends_on := ["a"] }

/-- Two-node witness graph: `b` depends on the always-failing `a`. -/
def wGraph : Graph := [wNodeA, wNodeB]

theorem graph_skip_propagation_witness :
    ∃ gr, runGraph wGraph {} [] = .ok gr ∧
      dictGet gr.nodes "b" = some (makeSkipped wGraph "b") ∧
      (makeSkipped wGraph "b").status = "skipped" := by
  refine graph_skip_propagation wGraph {} [] "a" "b" wNodeA ?_ ?_ ?_ ?_ ?_
  · decide
  · rfl
  · rfl
  · intro kw
    exact ⟨"boom", rfl⟩
  · refine Relation.TransGen.single ⟨⟨wNodeB, ?_, rfl, ?_⟩, rfl⟩
    · show wNodeB ∈ [wNodeA, wNodeB]
      simp
    · show ("a" : String) ∈ ["a"]
      simp

end OpenRappter
